import Mathlib

/-!
# Verification of the wordVana puzzle generator (`src/generator.js`)

This file gives a shallow embedding in Lean 4 of the puzzle-generation core of
the wordVana repository (`src/generator.js`) and proves, or refutes, the
specification claims about it.

Modelling conventions, used throughout:

* JavaScript `Map` objects are modelled by insertion-ordered association lists
  (`JsMap` below); `Map.set` replaces an existing binding in place (keeping its
  position) or appends, exactly as in JS.  A real JS `Map` cannot contain a
  duplicate key, so hypotheses of the form `m.keys.Nodup` express that an input
  list actually denotes a JS `Map`.
* JavaScript `Set`s of strings are modelled by insertion-ordered duplicate-free
  lists, with `Set.add` = append-if-absent and `Set.delete` = erase.
* Mutation is modelled by explicit state passing; JS exceptions by
  `Except String`; `null` returns by `Option`; unbounded loops by a fuel
  parameter whose exhaustion (modelling divergence) is a distinguished `none`
  result, kept separate from thrown errors.
* `Math.random()`-driven shuffling is modelled by an oracle parameter
  `shuffle : Nat → List String → List String` giving the shuffled dictionary
  used by each generation attempt.
* Cell objects are identified by their integer coordinates; the single live
  cell per coordinate lives in the board's cell map, and placements refer to
  cells by coordinate.
* `Number(s)` applied to the fragments of a cell key is modelled for the forms
  relevant to the generator: the empty string is `0`, an optional sign followed
  by decimal digits is the corresponding integer, and any other string is `NaN`
  (here `none`).  Exotic JS numeric forms (hex, exponents, fractions,
  whitespace) are outside the model.
-/

namespace WordVana

set_option linter.unusedVariables false
set_option linter.unreachableTactic false
set_option linter.unusedTactic false

/-! ## JsMap: insertion-ordered association lists modelling JS `Map` -/

/-- A JavaScript `Map`, as an insertion-ordered association list. -/
abbrev JsMap (α β : Type) : Type := List (α × β)

namespace JsMap

set_option linter.unusedSectionVars false

variable {α β : Type} [DecidableEq α]

/-- The empty map. -/
def empty {α β : Type} : JsMap α β := []

/-- `Map.get`: the value bound to the first (and, for a genuine map, only)
occurrence of the key. -/
def get? : JsMap α β → α → Option β
  | [], _ => none
  | (a, b) :: m, k => if k = a then some b else get? m k

/-- `Map.set`: replace the binding in place if the key is present, else append. -/
def set : JsMap α β → α → β → JsMap α β
  | [], k, v => [(k, v)]
  | (a, b) :: m, k, v => if k = a then (a, v) :: m else (a, b) :: set m k v

/-- `Map.has`. -/
def hasKey (m : JsMap α β) (k : α) : Bool := (get? m k).isSome

/-- `[...m.keys()]`. -/
def keys {α β : Type} (m : JsMap α β) : List α := m.map Prod.fst

/-- `[...m.values()]`. -/
def values {α β : Type} (m : JsMap α β) : List β := m.map Prod.snd

/-- `Map.size` (the number of bindings; maps built by `set` have no
duplicate keys, so this is the length). -/
def size {α β : Type} (m : JsMap α β) : Nat := m.length

/-- `Map.delete`. -/
def del : JsMap α β → α → JsMap α β
  | [], _ => []
  | (a, b) :: m, k => if k = a then m else (a, b) :: del m k

end JsMap

/-! ## Decimal rendering and the JS `Number` model for cell keys

Cell keys are the strings `` `${r},${c}` ``.  We model the template literal by
`encKey` below and `key.split(',')` by `jsSplitComma`.  The assigners compute
`Number(fragment)` and test `Number.isInteger` on it; `jsNumber?` models that
composite over the full `StringNumericLiteral` grammar — whitespace trimming,
the empty string as `0`, hex/octal/binary literals, and signed decimal
literals with optional fraction and exponent — evaluated exactly, with `none`
for `NaN` and for non-integer values. -/

/-- The decimal digit character for `n < 10`. -/
def digitChar (n : Nat) : Char := Char.ofNat (48 + n)

/-- Decimal digits, most significant first, with structural fuel (any fuel
above the value works; `natDigits` instantiates it exactly). -/
def natDigitsF : Nat → Nat → List Char
  | 0, _ => []
  | fuel + 1, n =>
    if n < 10 then [digitChar n]
    else natDigitsF fuel (n / 10) ++ [digitChar (n % 10)]

/-- Decimal digits of `n`, most significant first (the JS rendering of a
nonnegative integer). -/
def natDigits (n : Nat) : List Char := natDigitsF (n + 1) n

/-- `` `${n}` `` for a natural number `n`. -/
def natToDec (n : Nat) : String := ⟨natDigits n⟩

/-- `` `${r},${c}` ``: the cell key of a (shifted, nonnegative) coordinate. -/
def encKey (r c : Nat) : String := ⟨natDigits r ++ ',' :: natDigits c⟩

/-- Split a character list at every `','` (the model of `String.split(',')`). -/
def splitCommaAux : List Char → List (List Char)
  | [] => [[]]
  | c :: cs =>
    let rest := splitCommaAux cs
    if c = ',' then [] :: rest
    else (c :: rest.headI) :: rest.tail

/-- `key.split(',')`. -/
def jsSplitComma (s : String) : List String :=
  (splitCommaAux s.data).map List.asString

/-- Numeric value of a decimal digit character. -/
def digitVal? (ch : Char) : Option Nat :=
  if '0' ≤ ch ∧ ch ≤ '9' then some (ch.toNat - 48) else none

/-- One step of reading a decimal number: `acc * 10 + digit`. -/
def decFoldStep (acc : Option Nat) (ch : Char) : Option Nat := do
  let a ← acc
  let d ← digitVal? ch
  pure (a * 10 + d)

/-- Parse a nonempty all-digit character list as a natural number. -/
def decDigits? : List Char → Option Nat
  | [] => none
  | cs => cs.foldl decFoldStep (some 0)

/-- The JS `StrWhiteSpace` characters trimmed by `Number(string)`:
`WhiteSpace` (TAB, VT, FF, SP, NBSP, ZWNBSP and the Unicode space
separators) and `LineTerminator` (LF, CR, LS, PS). -/
def jsWhitespace (ch : Char) : Bool :=
  decide (ch.toNat = 9 ∨ ch.toNat = 10 ∨ ch.toNat = 11 ∨ ch.toNat = 12 ∨ ch.toNat = 13 ∨
    ch.toNat = 32 ∨ ch.toNat = 160 ∨ ch.toNat = 5760 ∨
    (8192 ≤ ch.toNat ∧ ch.toNat ≤ 8202) ∨ ch.toNat = 8232 ∨ ch.toNat = 8233 ∨
    ch.toNat = 8239 ∨ ch.toNat = 8287 ∨ ch.toNat = 12288 ∨ ch.toNat = 65279)

/-- `Number(string)` trims `StrWhiteSpace` from both ends. -/
def jsTrim (cs : List Char) : List Char :=
  ((cs.dropWhile jsWhitespace).reverse.dropWhile jsWhitespace).reverse

/-- Numeric value of a digit character in base `b ≤ 16`. -/
def baseDigitVal? (b : Nat) (ch : Char) : Option Nat :=
  let v :=
    if '0' ≤ ch ∧ ch ≤ '9' then some (ch.toNat - 48)
    else if 'a' ≤ ch ∧ ch ≤ 'f' then some (ch.toNat - 87)
    else if 'A' ≤ ch ∧ ch ≤ 'F' then some (ch.toNat - 55)
    else none
  match v with
  | some d => if d < b then some d else none
  | none => none

/-- One step of reading a base-`b` number. -/
def radixFoldStep (b : Nat) (acc : Option Nat) (ch : Char) : Option Nat := do
  let a ← acc
  let d ← baseDigitVal? b ch
  pure (a * b + d)

/-- Parse a nonempty all-base-`b`-digit character list (the digits of the
`HexIntegerLiteral`, `OctalIntegerLiteral` and `BinaryIntegerLiteral`
productions). -/
def radixDigits? (b : Nat) : List Char → Option Nat
  | [] => none
  | cs => cs.foldl (radixFoldStep b) (some 0)

/-- Split at the first exponent marker `e`/`E`, if any. -/
def splitExponent : List Char → List Char × Option (List Char)
  | [] => ([], none)
  | c :: cs =>
    if c = 'e' ∨ c = 'E' then ([], some cs)
    else (c :: (splitExponent cs).1, (splitExponent cs).2)

/-- Split at the first `'.'`, if any. -/
def splitDot : List Char → List Char × Option (List Char)
  | [] => ([], none)
  | c :: cs =>
    if c = '.' then ([], some cs)
    else (c :: (splitDot cs).1, (splitDot cs).2)

/-- `SignedInteger`: an optional sign followed by nonempty decimal digits
(the exponent of a decimal literal). -/
def signedDigits? (cs : List Char) : Option Int :=
  match cs with
  | '-' :: rest => (decDigits? rest).map (fun n => -(n : Int))
  | '+' :: rest => (decDigits? rest).map (fun n => (n : Int))
  | _ => (decDigits? cs).map (fun n => (n : Int))

/-- The exact value `mantissa * 10 ^ (e - |fraction|)` of a decimal literal
with integer part `ipart`, fraction `fpart` and exponent `e`, when that
value is a nonnegative integer (`Number.isInteger` fails otherwise). -/
def decValue? (ipart fpart : List Char) (e : Int) : Option Nat :=
  match (ipart ++ fpart).foldl decFoldStep (some 0) with
  | none => none
  | some mant =>
    let shift : Int := e - fpart.length
    if 0 ≤ shift then some (mant * 10 ^ shift.toNat)
    else if 10 ^ (-shift).toNat ∣ mant then some (mant / 10 ^ (-shift).toNat)
    else none

/-- `StrUnsignedDecimalLiteral` restricted to integer values: mantissa digits
around an optional dot, then an optional signed exponent; `none` when the
shape is not a decimal literal or its value is not an integer (`Infinity`,
never an integer, also falls to `none` here). -/
def jsUnsignedDec? (cs : List Char) : Option Nat :=
  let ipart := (splitDot (splitExponent cs).1).1
  let fpart := ((splitDot (splitExponent cs).1).2).getD []
  if ipart = [] ∧ fpart = [] then none
  else
    match (splitExponent cs).2 with
    | none => decValue? ipart fpart 0
    | some es =>
      match signedDigits? es with
      | none => none
      | some e => decValue? ipart fpart e

/-- The non-decimal (`0x`/`0o`/`0b`) integer prefixes (no sign allowed). -/
def jsRadix? (cs : List Char) : Option (Nat × List Char) :=
  match cs with
  | c0 :: cx :: rest =>
    if c0 = '0' ∧ (cx = 'x' ∨ cx = 'X') then some (16, rest)
    else if c0 = '0' ∧ (cx = 'o' ∨ cx = 'O') then some (8, rest)
    else if c0 = '0' ∧ (cx = 'b' ∨ cx = 'B') then some (2, rest)
    else none
  | _ => none

/-- Model of `Number(s)` followed by the source's `Number.isInteger` test on
a key fragment (see the header comment): the whitespace-trimmed string is
read by the `StringNumericLiteral` grammar — empty is `0`; `0x`/`0o`/`0b`
literals take their base value; otherwise an optionally signed decimal
literal with optional fraction and exponent — and the exact value is
returned when it is an integer, `none` when the string is not numeric
(`NaN`) or the value is not an integer.  One disclosed modelling side
condition (of the same kind as the `INF` bound): the model evaluates
literals exactly, whereas `Number` rounds to the nearest double.  The two
agree on every literal of at most fifteen significant digits and on every
plain integer literal below `2^53`; they can differ only on longer literals
lying within half an ulp of an integer (`0.99999999999999999` rounds to the
double `1`) or beyond the double range (`1e309` becomes `Infinity`), inputs
no grid of realizable size produces or distinguishes. -/
def jsNumber? (s : String) : Option Int :=
  match jsRadix? (jsTrim s.data) with
  | some (b, rest) => (radixDigits? b rest).map (fun n => (n : Int))
  | none =>
    match jsTrim s.data with
    | [] => some 0
    | c :: rest =>
      if c = '-' then (jsUnsignedDec? rest).map (fun n => -(n : Int))
      else if c = '+' then (jsUnsignedDec? rest).map (fun n => (n : Int))
      else (jsUnsignedDec? (c :: rest)).map (fun n => (n : Int))

/-- `key.split(',')` followed by `Number` on the first two fragments (a missing
fragment is `undefined`, and `Number(undefined)` is NaN). -/
def parseCellKey (s : String) : Option Int × Option Int :=
  match jsSplitComma s with
  | [] => (none, none)
  | [rStr] => (jsNumber? rStr, none)
  | rStr :: cStr :: _ => (jsNumber? rStr, jsNumber? cStr)

/-- The well-formed-key check of the slot assigners: the key parses to integer
coordinates inside the `N × N` grid. -/
def validKey? (N : Nat) (s : String) : Option (Nat × Nat) :=
  match parseCellKey s with
  | (some r, some c) =>
    if 0 ≤ r ∧ r < (N : Int) ∧ 0 ≤ c ∧ c < (N : Int) then some (r.toNat, c.toNat)
    else none
  | _ => none

/-! ### Facts about the decimal rendering -/

/-! ## The placement board: `Cell`, `Placement`, `Board`

A JS `Cell` object holds `r`, `c`, `letter` and a `Set` of occupying words.
Cells are identified by their coordinates (the board keeps one live cell per
coordinate, keyed by `` `${r},${c}` ``, which for integer coordinates is in
bijection with the pair); a placement refers to its cells by coordinate and the
live data is looked up in the board's cell map. -/

/-- Word direction, `"H" | "V"` in the source. -/
inductive Dir
  | H
  | V
deriving DecidableEq, Repr

/-- The mutable data of a cell object: its letter and the `Set` of words
occupying it (insertion-ordered, duplicate-free). -/
structure CellData where
  letter : Char
  words : List String
deriving DecidableEq, Repr

/-- One accepted placement: the word, its direction and its ordered cells
(by coordinate, including cells shared with earlier placements). -/
structure Placement where
  word : String
  dir : Dir
  cells : List (Int × Int)
deriving DecidableEq, Repr

/-- The board: live cells keyed by coordinate plus the placement log. -/
structure Board where
  cells : JsMap (Int × Int) CellData
  placements : List Placement
deriving Repr

/-- `board.get(r, c)`. -/
def Board.get? (b : Board) (r c : Int) : Option CellData := JsMap.get? b.cells (r, c)

/-- `board.has(r, c)`. -/
def Board.hasCell (b : Board) (r c : Int) : Bool := (b.get? r c).isSome

/-- `Set.add`: append if absent. -/
def setAdd (l : List String) (w : String) : List String := if w ∈ l then l else l ++ [w]

/-- `placeAnchor(board, word)` on the fresh board of each attempt: the first
word is laid horizontally at row 0 starting at column 0. -/
def placeAnchor (word : String) : Board :=
  { cells := (List.range word.length).foldl
      (fun m i => JsMap.set m ((0 : Int), (Int.ofNat i))
        { letter := word.data.getD i ' ', words := [word] }) JsMap.empty
    placements := [⟨word, Dir.H, (List.range word.length).map (fun i => ((0 : Int), (Int.ofNat i)))⟩] }

/-- `touchesInvalid`: a new cell may not touch an existing cell on the two
sides orthogonal to the direction of the word being placed. -/
def touchesInvalid (b : Board) (r c : Int) (dir : Dir) : Bool :=
  match dir with
  | .H => b.hasCell (r - 1) c || b.hasCell (r + 1) c
  | .V => b.hasCell r (c - 1) || b.hasCell r (c + 1)

/-- `endCapsClear`: the two cells extending the word at its ends must be free. -/
def endCapsClear (b : Board) (startR startC endR endC : Int) (dir : Dir) : Bool :=
  match dir with
  | .H => !b.hasCell startR (startC - 1) && !b.hasCell endR (endC + 1)
  | .V => !b.hasCell (startR - 1) startC && !b.hasCell (endR + 1) endC

/-- The cell-scanning loop of `tryPlace` over the enumerated characters of the
word: compute each character's coordinate, reuse a matching existing cell or
plan a new one, rejecting letter conflicts and (for new cells only) orthogonal
contacts.  Returns the ordered `newCells` list as (coordinate, letter). -/
def scanCells (b : Board) (br bc i : Int) (dir : Dir) :
    List (Nat × Char) → Option (List ((Int × Int) × Char))
  | [] => some []
  | (k, ch) :: rest =>
    let r := br + (if dir = .V then (k : Int) - i else 0)
    let c := bc + (if dir = .H then (k : Int) - i else 0)
    match b.get? r c with
    | some existing =>
      if existing.letter = ch then
        (scanCells b br bc i dir rest).map (fun tl => ((r, c), ch) :: tl)
      else none
    | none =>
      if touchesInvalid b r c dir then none
      else (scanCells b br bc i dir rest).map (fun tl => ((r, c), ch) :: tl)

/-- The commit step of `tryPlace` for one scanned cell: `cell.words.add(word)`
followed by `board.addCell(cell)` (an existing cell keeps its letter and gains
the word; a fresh cell is created with the word's letter). -/
def commitCell (word : String) (m : JsMap (Int × Int) CellData) (p : (Int × Int) × Char) :
    JsMap (Int × Int) CellData :=
  match JsMap.get? m p.1 with
  | some cd => JsMap.set m p.1 { cd with words := setAdd cd.words word }
  | none => JsMap.set m p.1 { letter := p.2, words := [word] }

/-- `tryPlace(board, word, base, i, j, dir)`: `some board'` models a `true`
return (with the mutated board), `none` a `false` return.  `base.cells[j]`
is always in range for the solver's calls. -/
def tryPlace (b : Board) (word : String) (base : Placement) (i j : Nat) (dir : Dir) :
    Option Board :=
  match base.cells.get? j with
  | none => none
  | some (br, bc) =>
    match scanCells b br bc (i : Int) dir word.data.enum with
    | none => none
    | some newCells =>
      let startR := if dir = .H then br else br - (i : Int)
      let startC := if dir = .H then bc - (i : Int) else bc
      let endR := if dir = .H then br else br - (i : Int) + word.length - 1
      let endC := if dir = .H then bc - (i : Int) + word.length - 1 else bc
      if endCapsClear b startR startC endR endC dir then
        some { cells := newCells.foldl (commitCell word) b.cells
               placements := b.placements ++ [⟨word, dir, newCells.map Prod.fst⟩] }
      else none

/-- One step of `undo` for one cell of the popped placement:
`cell.words.delete(word)` and, if the set becomes empty, remove the cell from
the board (the deletion acts on the live cell at that coordinate). -/
def removeWordAt (word : String) (m : JsMap (Int × Int) CellData) (coord : Int × Int) :
    JsMap (Int × Int) CellData :=
  match JsMap.get? m coord with
  | none => m
  | some cd =>
    let ws := cd.words.erase word
    if ws.length = 0 then JsMap.del m coord
    else JsMap.set m coord { cd with words := ws }

/-- `undo(board, word)`: pop the most recent placement and release its cells. -/
def undoB (b : Board) (word : String) : Board :=
  match b.placements.getLast? with
  | none => b
  | some p =>
    { cells := p.cells.foldl (removeWordAt word) b.cells
      placements := b.placements.dropLast }

/-! ## Grid finalization -/

/-- `[...new Set(l)]`: first-occurrence deduplication in insertion order. -/
def dedupFirstAux : List String → List String → List String
  | _, [] => []
  | seen, x :: xs =>
    if x ∈ seen then dedupFirstAux seen xs else x :: dedupFirstAux (x :: seen) xs

/-- `[...new Set(l)]`. -/
def dedupFirst (l : List String) : List String := dedupFirstAux [] l

/-- `Array.from({length: n}, () => Array(n).fill(0))`. -/
def zeroGrid (n : Nat) : List (List Nat) :=
  List.replicate n (List.replicate n 0)

/-- `grid[r][c] = v`. -/
def gridSet (g : List (List Nat)) (r c v : Nat) : List (List Nat) :=
  g.set r ((g.getD r []).set c v)

/-- `grid[r]?.[c]` as an optional read (`undefined` for out-of-range). -/
def gridCell (g : List (List Nat)) (r c : Nat) : Option Nat :=
  (g.get? r).bind (fun row => row.get? c)

/-- The output of `finalize`. -/
structure FinalOut where
  grid : List (List Nat)
  letters : JsMap String Char
  words : List String
deriving Repr

/-- `finalize(board)`: shift all live cells by the minimum coordinates, size a
square grid to the larger bounding-box dimension, and mark/record every cell.
(On an empty board `Math.min()`/`Math.max()` are infinite and the JS code
produces an empty grid and letters map.) -/
def finalize (b : Board) : FinalOut :=
  let words := dedupFirst (b.placements.map Placement.word)
  match JsMap.keys b.cells with
  | [] => { grid := [], letters := JsMap.empty, words := words }
  | p :: ps =>
    let coords := p :: ps
    let rs := coords.map Prod.fst
    let cs := coords.map Prod.snd
    let minR := rs.foldl min p.1
    let minC := cs.foldl min p.2
    let size := rs.foldl max p.1 - minR + 1
    let width := cs.foldl max p.2 - minC + 1
    let N := (max size width).toNat
    let res := b.cells.foldl (fun (acc : List (List Nat) × JsMap String Char) cell =>
      let r := (cell.1.1 - minR).toNat
      let c := (cell.1.2 - minC).toNat
      (gridSet acc.1 r c 1, JsMap.set acc.2 (encKey r c) cell.2.letter))
      (zeroGrid N, JsMap.empty)
    { grid := res.1, letters := res.2, words := words }

/-! ## Overlap index and word selection -/

/-- `sharesLetter(a, b)`: some character of `a` occurs in `b`. -/
def sharesLetter (a b : String) : Bool :=
  a.data.any (fun ch => b.data.contains ch)

/-- All `(i, j)` with `a[i] === b[j]`, in the source's double-loop order. -/
def overlapPairs (a b : String) : List (Nat × Nat) :=
  (List.range a.length).flatMap (fun i =>
    (List.range b.length).filterMap (fun j =>
      if a.data.getD i ' ' = b.data.getD j ' ' then some (i, j) else none))

/-- The overlap map type: `Map(wordA -> Map(wordB -> [{i, j}, ...]))`. -/
abbrev OverlapMap := JsMap String (JsMap String (List (Nat × Nat)))

/-- `buildOverlapMap(words)`. -/
def buildOverlapMap (words : List String) : OverlapMap :=
  words.foldl (fun m a =>
    let inner := words.foldl (fun inn b =>
      if a = b then inn
      else
        let pairs := overlapPairs a b
        if pairs.length ≠ 0 then JsMap.set inn b pairs else inn) JsMap.empty
    JsMap.set m a inner) JsMap.empty

/-- `overlapDegree(word, overlaps)`: `overlaps.get(word)?.size ?? 0`. -/
def overlapDegree (word : String) (overlaps : OverlapMap) : Nat :=
  match JsMap.get? overlaps word with
  | some inner => JsMap.size inner
  | none => 0

/-- Insert into an ascending list, before the first element not below `x`
(so that, starting from the right, the result is the unique stable ascending
order computed by `Array.prototype.sort` with the comparator
`(a, b) => deg(a) - deg(b)`). -/
def sIns (le : α → α → Bool) (x : α) : List α → List α
  | [] => [x]
  | y :: ys => if le x y then x :: y :: ys else y :: sIns le x ys

/-- The stable ascending sort used to model `remaining.sort(...)`. -/
def stableSort (le : α → α → Bool) : List α → List α
  | [] => []
  | x :: xs => sIns le x (stableSort le xs)

/-- The `while` loop of `pickConnectedWords`: grow `chosen` with the first pool
word sharing a letter with any chosen word, until `wordCount` words are chosen,
the pool is exhausted, or no connectable word remains.  Each iteration removes
the found word from the pool, so the structural fuel `pool.length` supplied by
`pickConnectedWords` is never exhausted while the pool is nonempty. -/
def pickLoop (wordCount : Nat) : Nat → List String → List String → List String
  | 0, chosen, _ => chosen
  | fuel + 1, chosen, pool =>
    if chosen.length < wordCount ∧ pool ≠ [] then
      match pool.find? (fun w => chosen.any (fun c => sharesLetter c w)) with
      | none => chosen
      | some next => pickLoop wordCount fuel (chosen ++ [next]) (pool.erase next)
    else chosen

/-- `pickConnectedWords(dict, ...)` on an already-shuffled dictionary (the
shuffle itself is the oracle parameter of the generator). `pool.pop()` seeds
the chosen list with the last pool element. -/
def pickConnectedWords (shuffled : List String) (minWordLen maxWordLen wordCount : Nat) :
    Except String (List String) :=
  let pool := shuffled.filter (fun w => minWordLen ≤ w.length && w.length ≤ maxWordLen)
  match pool.getLast? with
  | none => .error "No words in dictionary range"
  | some seed =>
    let chosen := pickLoop wordCount pool.dropLast.length [seed] pool.dropLast
    if chosen.length < wordCount then .error "Insufficient overlap" else .ok chosen

/-! ## The backtracking solver -/

/-- The candidate stream of `solve` for `word`: every placed word, in placement
order, contributes its shared `(i, j)` pairs (in pair order). -/
def candidateList (overlaps : OverlapMap) (word : String) (placements : List Placement) :
    List (Placement × Nat × Nat) :=
  placements.flatMap (fun placed =>
    match JsMap.get? overlaps word with
    | none => []
    | some inner =>
      match JsMap.get? inner placed.word with
      | none => []
      | some pairs => pairs.map (fun ij => (placed, ij)))

/-- The candidate loop inside `solve`: try each `(placed, i, j)` in order; on a
successful placement run the continuation `solveRest` (the recursive `solve` on
the remaining words), and on its failure `undo` and continue with the next
candidate. -/
def tryCands (solveRest : Board → Option Board) (b : Board) (word : String) :
    List (Placement × Nat × Nat) → Option Board
  | [] => none
  | (placed, i, j) :: cs =>
    let dir := if placed.dir = .H then Dir.V else Dir.H
    match tryPlace b word placed i j dir with
    | none => tryCands solveRest b word cs
    | some b1 =>
      match solveRest b1 with
      | some final => some final
      | none => tryCands solveRest (undoB b1 word) word cs

/-- `solve(board, remaining, overlaps)` with structural fuel: each recursion
step consumes one word of `remaining`, so the fuel `remaining.length` supplied
by `solve` is exact (the zero-fuel case is only reached with an empty
`remaining`).  `some finalBoard` models a `true` return with the mutated board,
`none` a `false` return (with the board restored by the paired `undo`s). -/
def solveF (overlaps : OverlapMap) : Nat → Board → List String → Option Board
  | 0, b, remaining => if remaining.isEmpty then some b else none
  | fuel + 1, b, remaining =>
    if remaining.isEmpty then some b
    else
      match stableSort (fun a c => overlapDegree a overlaps ≤ overlapDegree c overlaps)
          remaining with
      | [] => none   -- unreachable: sorting preserves the length
      | word :: rest =>
        tryCands (fun b1 => solveF overlaps fuel b1 rest) b word
          (candidateList overlaps word b.placements)

/-- `solve(board, remaining, overlaps)`. -/
def solve (b : Board) (remaining : List String) (overlaps : OverlapMap) : Option Board :=
  solveF overlaps remaining.length b remaining

/-! ## Outside slots and the cell-key adjacency

`4N` border slots for an `N × N` grid: `L:r`/`R:r` for each row (interleaved,
rows first), then `T:c`/`B:c` for each column. -/

/-- A border slot `{ id, side, index }`. -/
structure Slot where
  id : String
  side : String
  index : Nat
deriving DecidableEq, Repr

/-- `` `${side}:${n}` ``. -/
def slotId (side : Char) (n : Nat) : String := ⟨side :: ':' :: natDigits n⟩

/-- The slot array of `assignOutsideSlots`/`assignOutsideSlotsInWaves`. -/
def mkSlots (N : Nat) : List Slot :=
  (List.range N).flatMap (fun r => [⟨slotId 'L' r, "L", r⟩, ⟨slotId 'R' r, "R", r⟩])
    ++ (List.range N).flatMap (fun c => [⟨slotId 'T' c, "T", c⟩, ⟨slotId 'B' c, "B", c⟩])

/-- `slotIndex`: slot id → its position in the slot array. -/
def mkSlotIndex (slots : List Slot) : JsMap String Nat :=
  slots.enum.foldl (fun m p => JsMap.set m p.2.id p.1) JsMap.empty

/-- `rowLen[r]`: the number of columns `c < N` with `grid[r][c] === 1`
(computed by the source's double loop over the `N × N` index square). -/
def rowLenF (grid : List (List Nat)) (N : Nat) (r : Nat) : Nat :=
  ((List.range N).filter (fun c => gridCell grid r c = some 1)).length

/-- `colLen[c]`. -/
def colLenF (grid : List (List Nat)) (N : Nat) (c : Nat) : Nat :=
  ((List.range N).filter (fun r => gridCell grid r c = some 1)).length

/-- `preferredFirstDimension` (`true` = `'row'`, `false` = `'col'`). -/
def preferredFirstDimension (difficulty : String) (rowLen colLen : Nat → Nat)
    (r c i : Nat) : Bool :=
  let rl := rowLen r
  let cl := colLen c
  if difficulty = "hard" then decide (cl ≤ rl)
  else if difficulty = "easy" then decide (rl ≤ cl)
  else decide (i % 2 = 0)

/-- The difficulty-ordered candidate slot ids of a cell. -/
def orderedSlotIds (firstRow : Bool) (r c : Nat) : List String :=
  if firstRow then [slotId 'L' r, slotId 'R' r, slotId 'T' c, slotId 'B' c]
  else [slotId 'T' c, slotId 'B' c, slotId 'L' r, slotId 'R' r]

/-- `for (const id of orderedIds) { const vi = slotIndex.get(id); if (vi !==
undefined) adj[u].push(vi); }`. -/
def adjFor (slotIndex : JsMap String Nat) (ids : List String) : List Nat :=
  ids.filterMap (fun id => JsMap.get? slotIndex id)

/-- The adjacency-building loop shared (duplicated, in the source) by both
assigners: for each enumerated cell key, validate it and order its four
candidate slots by difficulty; `none` models the abort taken at the first
invalid key (`return null` in the single-wave assigner, `throw` in the
multi-wave one). -/
def buildAdjacency (N : Nat) (difficulty : String) (rowLen colLen : Nat → Nat)
    (slotIndex : JsMap String Nat) : List (Nat × String) → Option (List (List Nat))
  | [] => some []
  | (u, key) :: rest =>
    match validKey? N key with
    | none => none
    | some (r, c) =>
      let fd := preferredFirstDimension difficulty rowLen colLen r c u
      (buildAdjacency N difficulty rowLen colLen slotIndex rest).map
        (fun tl => adjFor slotIndex (orderedSlotIds fd r c) :: tl)

/-! ## Hopcroft–Karp (the `bfs`/`dfs` of both assigners)

`pairU`/`pairV`/`dist` are JS arrays rebuilt per call; we model them as update
functions, with `-1` rendered as `none`.  The JS recursions and `while` loops
are given explicit fuel; the chosen fuels are provably sufficient (each
processed BFS node was enqueued exactly once; each successful `while (bfs())`
phase augments the matching; the `dfs` call depth is bounded by the bounded
`dist` values), so the fuelled functions compute exactly what the JS does. -/

/-- `INF = 1e9`. -/
def INF : Nat := 1000000000

/-- The matching state of one Hopcroft–Karp run. -/
structure HKState where
  pairU : Nat → Option Nat
  pairV : Nat → Option Nat
  dist : Nat → Nat

/-- Pointwise array update. -/
def upd {α : Type} (f : Nat → α) (i : Nat) (x : α) : Nat → α :=
  fun j => if j = i then x else f j

/-- The inner loop of `bfs` scanning `adj[u]`: record free right-vertices
(`found = true`) and enqueue newly reached matched partners. Returns the
updated `dist`, `found`, and the nodes appended to the queue. -/
def bfsScan (pairV : Nat → Option Nat) (u : Nat) :
    List Nat → (Nat → Nat) → Bool → List Nat → ((Nat → Nat) × Bool × List Nat)
  | [], dist, found, acc => (dist, found, acc)
  | v :: vs, dist, found, acc =>
    match pairV v with
    | none => bfsScan pairV u vs dist true acc
    | some u2 =>
      if dist u2 = INF then
        bfsScan pairV u vs (upd dist u2 (dist u + 1)) found (acc ++ [u2])
      else bfsScan pairV u vs dist found acc

/-- The queue-processing loop of `bfs` (the queue grows while being scanned;
fuel `2*M + 1` is enough since every processed node entered the queue once:
at most `M` initially free plus at most `M` enqueued `INF`-flips). -/
def bfsLoop (adj : Nat → List Nat) (pairV : Nat → Option Nat) :
    Nat → List Nat → (Nat → Nat) → Bool → ((Nat → Nat) × Bool)
  | 0, _, dist, found => (dist, found)
  | _ + 1, [], dist, found => (dist, found)
  | fuel + 1, u :: pending, dist, found =>
    let r := bfsScan pairV u (adj u) dist found []
    bfsLoop adj pairV fuel (pending ++ r.2.2) r.1 r.2.1

/-- `bfs()`: seed `dist` (0 for free left-vertices, `INF` otherwise), queue the
free left-vertices in index order, and process the queue. -/
def bfs (adj : Nat → List Nat) (M : Nat) (pairU pairV : Nat → Option Nat) :
    (Nat → Nat) × Bool :=
  bfsLoop adj pairV (2 * M + 1) ((List.range M).filter (fun u => pairU u = none))
    (fun u => if pairU u = none then 0 else INF) false

/-- The `for (const v of adj[u])` loop inside `dfs`, with the recursive
`dfs` (at one lower fuel) supplied as `dfsRec`. -/
def dfsGo (dfsRec : HKState → Nat → Bool × HKState) : HKState → Nat → List Nat →
    Bool × HKState
  | s, u, [] => (false, { s with dist := upd s.dist u INF })
  | s, u, v :: vs =>
    match s.pairV v with
    | none =>
      (true, { s with pairU := upd s.pairU u (some v), pairV := upd s.pairV v (some u) })
    | some u2 =>
      if s.dist u2 = s.dist u + 1 then
        match dfsRec s u2 with
        | (true, s') =>
          (true, { s' with pairU := upd s'.pairU u (some v), pairV := upd s'.pairV v (some u) })
        | (false, s') => dfsGo dfsRec s' u vs
      else dfsGo dfsRec s u vs

/-- `dfs(u)`: follow `adj[u]` looking for a free slot or an augmenting path
along the `dist` layering; on failure set `dist[u] = INF`.  The call depth is
bounded by the (bounded) `dist` values, so the fuel passed by the sweep is
never exhausted. -/
def dfs (adj : Nat → List Nat) : Nat → HKState → Nat → Bool × HKState
  | 0, s, _ => (false, s)
  | fuel + 1, s, u => dfsGo (fun s' u' => dfs adj fuel s' u') s u (adj u)

/-- The augmenting sweep `for (u) if (pairU[u] === -1 && dfs(u)) matching++`. -/
def dfsSweep (adj : Nat → List Nat) (dfsFuel : Nat) :
    List Nat → HKState → Nat → Nat × HKState
  | [], s, matching => (matching, s)
  | u :: us, s, matching =>
    if s.pairU u = none then
      match dfs adj dfsFuel s u with
      | (true, s') => dfsSweep adj dfsFuel us s' (matching + 1)
      | (false, s') => dfsSweep adj dfsFuel us s' matching
    else dfsSweep adj dfsFuel us s matching

/-- `while (bfs()) { ...sweep... }` with fuel `M + 1` (each phase whose `bfs`
found a free slot augments the matching at least once, and the matching size is
bounded by `M`, so the loop makes at most `M` sweeps before `bfs` fails). -/
def hkLoop (adj : Nat → List Nat) (M : Nat) :
    Nat → HKState → Nat → Nat × HKState
  | 0, s, matching => (matching, s)
  | fuel + 1, s, matching =>
    let br := bfs adj M s.pairU s.pairV
    let s' : HKState := { s with dist := br.1 }
    if br.2 then
      let sw := dfsSweep adj (2 * M + 2) (List.range M) s' matching
      hkLoop adj M fuel sw.2 sw.1
    else (matching, s')

/-- One full Hopcroft–Karp run from the empty matching; returns the final
`matching` counter and state. -/
def hkRun (adj : Nat → List Nat) (M : Nat) : Nat × HKState :=
  hkLoop adj M (M + 1)
    { pairU := fun _ => none, pairV := fun _ => none, dist := fun _ => 0 } 0

/-- The number of matched left-vertices of `s` (among `u < M`). -/
def matchedCount (M : Nat) (s : HKState) : Nat :=
  ((List.range M).filter (fun u => (s.pairU u).isSome)).length

/-- The number of vertices `z < M` whose `dist` entry is not `INF`. -/
def finCount (M : Nat) (dist : Nat → Nat) : Nat :=
  ((List.range M).filter (fun z => dist z ≠ INF)).length

/-- The matching-validity invariant of a Hopcroft–Karp state: `pairU` and
`pairV` are mutually inverse partial matchings, and every matched pair is a
genuine edge with a left-vertex in range. -/
def HKInv (adj : Nat → List Nat) (M : Nat) (s : HKState) : Prop :=
  (∀ u v, s.pairU u = some v → s.pairV v = some u) ∧
  (∀ v u, s.pairV v = some u → s.pairU u = some v) ∧
  (∀ u v, s.pairU u = some v → u < M ∧ v ∈ adj u)

/-- The behavioural contract of one `dfs` call on `u`: a failed call leaves the
matching untouched; any call only raises `dist` values to `INF`, never below
the caller's layer, and only on visited (matched or called) vertices; a
successful call matches `u`, preserves every other left-vertex's matched-ness
(and, at or below the caller's layer, its exact match), leaves untouched every
slot whose partner sits at or below the caller's layer, never takes the slot
still pointing at `u`, and returns a state that is a valid matching except
that the slot `u` was previously matched to (if any) may still point back at
`u` (the caller's own assignment repairs exactly that slot). -/
def DfsSpec (adj : Nat → List Nat) (M : Nat) (s : HKState) (u : Nat)
    (out : Bool × HKState) : Prop :=
  (out.1 = false → out.2.pairU = s.pairU ∧ out.2.pairV = s.pairV) ∧
  (∀ y, out.2.dist y = s.dist y ∨ out.2.dist y = INF) ∧
  (∀ y, y ≠ u → s.dist y ≤ s.dist u → out.2.dist y = s.dist y) ∧
  (∀ y, out.2.dist y ≠ s.dist y → (s.pairU y).isSome ∨ y = u) ∧
  (out.1 = true →
    (out.2.pairU u).isSome ∧
    (∀ w, w ≠ u → (out.2.pairU w).isSome = (s.pairU w).isSome) ∧
    (∀ w, w ≠ u → s.dist w ≤ s.dist u → out.2.pairU w = s.pairU w) ∧
    (∀ w x, out.2.pairU w = some x → out.2.pairV x = some w) ∧
    (∀ x w, out.2.pairV x = some w → out.2.pairU w = some x ∨ (w = u ∧ s.pairU u = some x)) ∧
    (∀ w x, out.2.pairU w = some x → w < M ∧ x ∈ adj w) ∧
    (∀ x w, s.pairV x = some w → (s.dist w ≤ s.dist u ∨ s.dist w = INF) →
      out.2.pairV x = s.pairV x) ∧
    (∀ x, out.2.pairU u = some x → s.pairV x ≠ some u))

/-- A layered alternating chain of the `bfs` layering `d0` (verification
only): a path starting at a free left-vertex on layer `0` that alternates an
edge with the matched partner of its slot, each left-vertex on it carrying
exactly its position as its `d0` value. -/
inductive LChain (adj : Nat → List Nat) (M : Nat) (pairU pairV : Nat → Option Nat)
    (d0 : Nat → Nat) : Nat → Nat → Prop where
  | base (u : Nat) (hu : u < M) (hfree : pairU u = none) (hd : d0 u = 0) :
      LChain adj M pairU pairV d0 u 0
  | step (u v u2 d : Nat) (hc : LChain adj M pairU pairV d0 u d) (hv : v ∈ adj u)
      (hm : pairV v = some u2) (hd : d0 u2 = d + 1) : LChain adj M pairU pairV d0 u2 (d + 1)

/-- The dead-end closure left behind by a sweep all of whose `dfs` calls
failed (verification only): every vertex raised from a finite `bfs` layer
`d0 y` to `INF` had no free neighbour, and each of its layer-`d0 y + 1`
successors was raised to `INF` too. -/
def DeadClosed (adj : Nat → List Nat) (pairV : Nat → Option Nat) (d0 : Nat → Nat)
    (s : HKState) : Prop :=
  ∀ y, s.dist y = INF → d0 y ≠ INF →
    (∀ v ∈ adj y, pairV v ≠ none) ∧
    (∀ v ∈ adj y, ∀ u2, pairV v = some u2 → d0 u2 = d0 y + 1 → s.dist u2 = INF)

/-- Precondition of the `dfs` failure analysis (verification only): the pairs
agree with the `bfs`-time ones, every `dist` entry is its `bfs` layer or
`INF`, the killed set is dead-closed, and the called vertex still carries its
finite layer. -/
def DfsFailIn (adj : Nat → List Nat) (pairV0 : Nat → Option Nat) (d0 : Nat → Nat)
    (s : HKState) (u : Nat) : Prop :=
  s.pairV = pairV0 ∧
  (∀ y, s.dist y = d0 y ∨ s.dist y = INF) ∧
  DeadClosed adj pairV0 d0 s ∧
  s.dist u = d0 u ∧
  d0 u ≠ INF

/-- Postcondition of a failing `dfs` call (verification only): the pairs are
untouched, `dist` values only move to `INF`, vertices below the called layer
are untouched, the called vertex is killed, and the killed set stays
dead-closed. -/
def DfsFailOut (adj : Nat → List Nat) (pairV0 : Nat → Option Nat) (d0 : Nat → Nat)
    (s : HKState) (u : Nat) (s' : HKState) : Prop :=
  s'.pairU = s.pairU ∧ s'.pairV = s.pairV ∧
  (∀ y, s'.dist y = s.dist y ∨ s'.dist y = INF) ∧
  (∀ y, d0 y < d0 u → s'.dist y = s.dist y) ∧
  s'.dist u = INF ∧
  DeadClosed adj pairV0 d0 s'

/-- An index-level perfect matching of the `M` left-vertices into their
adjacency lists (verification only). -/
def HasPM (adj : Nat → List Nat) (M : Nat) : Prop :=
  ∃ σ : Nat → Nat, (∀ u, u < M → σ u ∈ adj u) ∧
    (∀ u1, u1 < M → ∀ u2, u2 < M → σ u1 = σ u2 → u1 = u2)

/-- The forced alternating walk of the maximality argument (verification
only): start at a free left-vertex and repeatedly step to the matched partner
of the perfect assignment's slot. -/
def bergeWalk (pairV : Nat → Option Nat) (σ : Nat → Nat) (u0 : Nat) : Nat → Nat
  | 0 => u0
  | i + 1 => (pairV (σ (bergeWalk pairV σ u0 i))).getD 0

/-- The bipartite graph named by the specification of `assignOutsideSlots`:
each letter cell `(r, c)` is adjacent exactly to the four border slots `L:r`,
`R:r`, `T:c` and `B:c`, and a perfect matching assigns every cell one of its
four slots with no slot used twice.  (This definition transcribes the
specification's wording; the theorems below compare it with the code.) -/
def HasPerfectMatching (N : Nat) (cells : List String) : Prop :=
  ∃ f : String → String,
    (∀ k ∈ cells, ∀ r c, validKey? N k = some (r, c) →
      f k ∈ [slotId 'L' r, slotId 'R' r, slotId 'T' c, slotId 'B' c]) ∧
    (∀ k1 ∈ cells, ∀ k2 ∈ cells, f k1 = f k2 → k1 = k2)

/-! ## The two outside-slot assigners -/

/-- The `byCell` record of the single-wave assigner: `{ side, index, id }`. -/
structure SlotRef where
  side : String
  index : Nat
  id : String
deriving DecidableEq, Repr

/-- The result of `assignOutsideSlots`. -/
structure SingleAssignment where
  byCell : JsMap String SlotRef
  bySlot : JsMap String String
  slots : List Slot
deriving DecidableEq, Repr

/-- The final `byCell`/`bySlot` building loop of `assignOutsideSlots` (when the
matching is perfect, `pairU[u]` is a valid slot index for every `u < M`). -/
def buildPairMaps (cells : List String) (slots : List Slot) (pairU : Nat → Option Nat)
    (M : Nat) : JsMap String SlotRef × JsMap String String :=
  (List.range M).foldl (fun acc u =>
    let v := (pairU u).getD 0
    let slot := slots.getD v ⟨"", "", 0⟩
    let key := cells.getD u ""
    (JsMap.set acc.1 key ⟨slot.side, slot.index, slot.id⟩, JsMap.set acc.2 slot.id key))
    (JsMap.empty, JsMap.empty)

/-- `assignOutsideSlots(grid, letters, { difficulty })`, the single-wave
perfect matching; `none` models a `null` return. -/
def assignOutsideSlots (grid : List (List Nat)) (letters : JsMap String Char)
    (difficulty : String) : Option SingleAssignment :=
  let N := grid.length
  let cells := JsMap.keys letters
  let M := cells.length
  let slots := mkSlots N
  let K := slots.length
  if M > K then none
  else
    let slotIndex := mkSlotIndex slots
    match buildAdjacency N difficulty (rowLenF grid N) (colLenF grid N) slotIndex
        cells.enum with
    | none => none
    | some adjL =>
      let adj := fun u => adjL.getD u []
      let run := hkRun adj M
      if run.1 ≠ M then none
      else
        let maps := buildPairMaps cells slots run.2.pairU M
        some { byCell := maps.1, bySlot := maps.2, slots := slots }

/-- The `byCell` record of the multi-wave assigner: `{ side, index, id, wave }`. -/
structure WaveRef where
  side : String
  index : Nat
  id : String
  wave : Nat
deriving DecidableEq, Repr

/-- The result of `assignOutsideSlotsInWaves`. -/
structure WaveAssignment where
  byCell : JsMap String WaveRef
  bySlot : JsMap String String
  slotQueues : JsMap String (List String)
  slots : List Slot
deriving DecidableEq, Repr

/-- One step of the `recordWave` fold (named for the proofs below). -/
def rwStep (slots : List Slot) (remaining : List (String × Nat))
    (pairU : Nat → Option Nat) (wave : Nat)
    (acc : JsMap String WaveRef × JsMap String (List String)) (u : Nat) :
    JsMap String WaveRef × JsMap String (List String) :=
  match pairU u with
  | none => acc
  | some v =>
    let slot := slots.getD v ⟨"", "", 0⟩
    let cellKey := (remaining.getD u ("", 0)).1
    (JsMap.set acc.1 cellKey ⟨slot.side, slot.index, slot.id, wave⟩,
     JsMap.set acc.2 slot.id ((JsMap.get? acc.2 slot.id).getD [] ++ [cellKey]))

/-- Recording the matches of one wave: append each matched cell to its slot's
queue and give it this wave index in `byCell`. -/
def recordWave (slots : List Slot) (remaining : List (String × Nat))
    (pairU : Nat → Option Nat) (wave : Nat) (M : Nat)
    (byCell : JsMap String WaveRef) (queues : JsMap String (List String)) :
    JsMap String WaveRef × JsMap String (List String) :=
  (List.range M).foldl (fun acc u =>
    match pairU u with
    | none => acc
    | some v =>
      let slot := slots.getD v ⟨"", "", 0⟩
      let cellKey := (remaining.getD u ("", 0)).1
      (JsMap.set acc.1 cellKey ⟨slot.side, slot.index, slot.id, wave⟩,
       JsMap.set acc.2 slot.id ((JsMap.get? acc.2 slot.id).getD [] ++ [cellKey])))
    (byCell, queues)

/-- `while (remaining.length)`: run one Hopcroft–Karp wave over the remaining
cells, record its matches, drop the matched cells (the source splices matched
indices out in descending order, which keeps exactly the unmatched entries in
order) and continue.  Fuel `#cells + 1` suffices: every wave with a nonempty
remaining list matches at least one cell. -/
def wavesLoop (adjGlobal : List (List Nat)) (slots : List Slot) :
    Nat → List (String × Nat) → JsMap String WaveRef → JsMap String (List String) → Nat →
    JsMap String WaveRef × JsMap String (List String)
  | 0, _, byCell, queues, _ => (byCell, queues)
  | fuel + 1, remaining, byCell, queues, wave =>
    match remaining with
    | [] => (byCell, queues)
    | _ :: _ =>
      let M := remaining.length
      let adj := fun u => adjGlobal.getD (remaining.getD u ("", 0)).2 []
      let run := hkRun adj M
      if run.1 = 0 then (byCell, queues)   -- defensive break against zero progress
      else
        let rec1 := recordWave slots remaining run.2.pairU wave M byCell queues
        let remaining' := (remaining.enum.filter (fun p => run.2.pairU p.1 = none)).map
          Prod.snd
        wavesLoop adjGlobal slots fuel remaining' rec1.1 rec1.2 (wave + 1)

/-- `assignOutsideSlotsInWaves(grid, letters, { difficulty })`: repeated
matchings; an `Invalid cell key in letters` throw is modelled by `.error`. -/
def assignOutsideSlotsInWaves (grid : List (List Nat)) (letters : JsMap String Char)
    (difficulty : String) : Except String WaveAssignment :=
  let N := grid.length
  let cellsAll := JsMap.keys letters
  let slots := mkSlots N
  let slotIndex := mkSlotIndex slots
  match buildAdjacency N difficulty (rowLenF grid N) (colLenF grid N) slotIndex
      cellsAll.enum with
  | none => .error "Invalid cell key in letters"
  | some adjGlobal =>
    let initQueues : JsMap String (List String) := slots.map (fun s => (s.id, []))
    let remaining := cellsAll.enum.map (fun p => (p.2, p.1))
    let res := wavesLoop adjGlobal slots (cellsAll.length + 1) remaining JsMap.empty
      initQueues 0
    let bySlot := slots.foldl (fun m s =>
      match JsMap.get? res.2 s.id with
      | some (q0 :: _) => JsMap.set m s.id q0
      | _ => m) JsMap.empty
    .ok { byCell := res.1, bySlot := bySlot, slotQueues := res.2, slots := slots }

/-- The invariant carried by the `wavesLoop` of `assignOutsideSlotsInWaves`
(verification only): unassigned cells are exactly the remaining ones, queues
hold exactly the assigned cells (once each, in strictly increasing wave
order), recorded waves are below the current one, each wave's assignment is
injective, and every remaining cell has a valid nonempty adjacency list. -/
structure WaveInv (cellsAll : List String) (adjGlobal : List (List Nat))
    (slots : List Slot) (remaining : List (String × Nat))
    (byCell : JsMap String WaveRef) (queues : JsMap String (List String))
    (wave : Nat) : Prop where
  rem_cells : ∀ p ∈ remaining, p.1 ∈ cellsAll ∧ JsMap.get? byCell p.1 = none
  rem_nodup : (remaining.map Prod.fst).Nodup
  cover : ∀ k ∈ cellsAll, (JsMap.get? byCell k).isSome = true ∨ k ∈ remaining.map Prod.fst
  q_assigned : ∀ sid q k, JsMap.get? queues sid = some q → k ∈ q →
    (JsMap.get? byCell k).isSome = true
  assigned_q : ∀ k, (JsMap.get? byCell k).isSome = true →
    ∃ sid q, JsMap.get? queues sid = some q ∧ k ∈ q
  q_nodup : ∀ sid q, JsMap.get? queues sid = some q → q.Nodup
  q_disj : ∀ sid1 q1 sid2 q2 k, JsMap.get? queues sid1 = some q1 →
    JsMap.get? queues sid2 = some q2 → k ∈ q1 → k ∈ q2 → sid1 = sid2
  wave_lt : ∀ k r, JsMap.get? byCell k = some r → r.wave < wave
  q_incr : ∀ sid q, JsMap.get? queues sid = some q →
    q.Pairwise (fun a b => ∀ ra rb, JsMap.get? byCell a = some ra →
      JsMap.get? byCell b = some rb → ra.wave < rb.wave)
  inj : ∀ k1 k2 r1 r2, JsMap.get? byCell k1 = some r1 → JsMap.get? byCell k2 = some r2 →
    r1.wave = r2.wave → r1.id = r2.id → k1 = k2
  adj_ok : ∀ p ∈ remaining, adjGlobal.getD p.2 [] ≠ [] ∧
    ∀ v ∈ adjGlobal.getD p.2 [], v < slots.length

/-! ## The entry points -/

def MIN_WORD_LEN : Nat := 4
def MAX_WORD_LEN : Nat := 11
def WORD_COUNT : Nat := 11

/-- The options record of `generateFeasiblePuzzle`, with its defaults. -/
structure GenOpts where
  difficulty : String := "balanced"
  minWordLen : Nat := MIN_WORD_LEN
  maxWordLen : Nat := MAX_WORD_LEN
  wordCount : Nat := WORD_COUNT
  minLetters : Nat := 0
  maxWordCountCap : Nat := WORD_COUNT + 8
deriving Repr

/-- The value returned by `generateFeasiblePuzzle`. -/
structure Puzzle where
  grid : List (List Nat)
  letters : JsMap String Char
  words : List String
  slotAssignment : WaveAssignment
deriving Repr

/-- The `for (;;)` retry loop of `generateFeasiblePuzzle`, with the attempt
index `k` (feeding the shuffle oracle), the adaptive word count, and fuel.
`none` models divergence (the JS loop running forever), `some (.error e)` a
thrown exception reaching the caller, `some (.ok p)` a returned puzzle. -/
def genLoop (shuffle : Nat → List String → List String) (dictionary : List String)
    (o : GenOpts) : Nat → Nat → Nat → Option (Except String Puzzle)
  | _, _, 0 => none
  | k, adaptive, fuel + 1 =>
    match pickConnectedWords (shuffle k dictionary) o.minWordLen o.maxWordLen adaptive with
    | .error e => some (.error e)
    | .ok words =>
      let overlaps := buildOverlapMap words
      let board := placeAnchor (words.headD "")
      match solve board (words.drop 1) overlaps with
      | none => genLoop shuffle dictionary o (k + 1) adaptive fuel
      | some solved =>
        let out := finalize solved
        let N := out.grid.length
        let capacitySinglePerimeter := 4 * N
        let totalLetters := JsMap.size out.letters
        if 0 < o.minLetters ∧ totalLetters < min o.minLetters (capacitySinglePerimeter * 4)
        then
          genLoop shuffle dictionary o (k + 1)
            (if adaptive < o.maxWordCountCap then adaptive + 1 else adaptive) fuel
        else
          match assignOutsideSlotsInWaves out.grid out.letters o.difficulty with
          | .error e => some (.error e)
          | .ok assignment =>
            some (.ok { grid := out.grid, letters := out.letters, words := out.words,
                        slotAssignment := assignment })

/-- `generateFeasiblePuzzle(dictionary, options)` (randomness supplied by the
shuffle oracle, divergence bounded by fuel). -/
def generateFeasiblePuzzle (shuffle : Nat → List String → List String)
    (dictionary : List String) (o : GenOpts) (fuel : Nat) : Option (Except String Puzzle) :=
  genLoop shuffle dictionary o 0 (max 1 o.wordCount) fuel

/-- The value returned by `generateFeasiblePuzzleAsync`:
`{ ...out, attempts }`, together with the number of `await` suspensions the
call executed. -/
structure AsyncResult where
  puzzle : Puzzle
  attempts : Nat
  yields : Nat
deriving Repr

/-- The retry loop of `generateFeasiblePuzzleAsync`.  Each iteration increments
`attempts` and calls the synchronous generator; a thrown error propagates out
of the async function; `if (out) return { ...out, attempts }` always returns
because a returned puzzle object is truthy, so the
`if (attempts % yieldEvery === 0) await ...` suspension after it is never
reached and `yields` is never incremented. -/
def genAsyncLoop (shuffle : Nat → List String → List String) (dictionary : List String)
    (o : GenOpts) (yieldEvery : Nat) (innerFuel : Nat) :
    Nat → Nat → Nat → Option (Except String AsyncResult)
  | 0, _, _ => none
  | _fuel + 1, attempts, yields =>
    let attempts' := attempts + 1
    match generateFeasiblePuzzle shuffle dictionary o innerFuel with
    | none => none
    | some (.error e) => some (.error e)
    | some (.ok out) => some (.ok { puzzle := out, attempts := attempts', yields := yields })

/-- `generateFeasiblePuzzleAsync(dictionary, options)`. -/
def generateFeasiblePuzzleAsync (shuffle : Nat → List String → List String)
    (dictionary : List String) (o : GenOpts) (yieldEvery : Nat)
    (innerFuel fuel : Nat) : Option (Except String AsyncResult) :=
  genAsyncLoop shuffle dictionary o yieldEvery innerFuel fuel 0 0

/-- The number of `await` suspensions executed by an async generation call
(0 when it diverges or throws). -/
def asyncYieldCount : Option (Except String AsyncResult) → Nat
  | some (.ok r) => r.yields
  | _ => 0

/-- The number of attempts counted by an async generation call. -/
def asyncAttemptCount : Option (Except String AsyncResult) → Nat
  | some (.ok r) => r.attempts
  | _ => 0

/-- Orthogonal (4-neighbour) adjacency of two grid coordinates. -/
def orthAdjacent (p q : Int × Int) : Prop :=
  (p.1 = q.1 ∧ (q.2 = p.2 + 1 ∨ p.2 = q.2 + 1)) ∨
  (p.2 = q.2 ∧ (q.1 = p.1 + 1 ∨ p.1 = q.1 + 1))

/-- Reading `len` letters off a finalized letters map starting at `start`
going in direction `dir` (coordinates shifted by the finalize offset
`(-minR, -minC)`), as the word-integrity property describes. -/
def readRun (letters : JsMap String Char) (minR minC : Int) (start : Int × Int)
    (dir : Dir) (len : Nat) : List (Option Char) :=
  (List.range len).map (fun k =>
    let r := start.1 + (if dir = .V then (k : Int) else 0) - minR
    let c := start.2 + (if dir = .H then (k : Int) else 0) - minC
    JsMap.get? letters (encKey r.toNat c.toNat))


/-! # Theorems

All definitions of the embedding are above; everything below proves
properties of them. -/

/-! ## Library lemmas for the embedding -/

@[simp]
theorem JsMap.get?_nil {α β : Type} [DecidableEq α] (k : α) : get? ([] : JsMap α β) k = none := rfl

@[simp]
theorem JsMap.get?_cons {α β : Type} [DecidableEq α] (a : α) (b : β) (m : JsMap α β) (k : α) :
    get? ((a, b) :: m) k = if k = a then some b else get? m k := rfl

@[simp]
theorem JsMap.keys_nil {α β : Type} : keys ([] : JsMap α β) = [] := rfl

@[simp]
theorem JsMap.keys_cons {α β : Type} [DecidableEq α] (a : α) (b : β) (m : JsMap α β) :
    keys ((a, b) :: m) = a :: keys m := rfl

theorem JsMap.get?_set_self {α β : Type} [DecidableEq α] (m : JsMap α β) (k : α) (v : β) :
    get? (set m k v) k = some v := by
  induction m with
  | nil => simp [set, get?]
  | cons p m ih =>
    obtain ⟨a, b⟩ := p
    by_cases h : k = a
    · simp [set, h, get?]
    · simp [set, h, get?, ih]

theorem JsMap.get?_set_ne {α β : Type} [DecidableEq α] (m : JsMap α β) (k k' : α) (v : β) (h : k' ≠ k) :
    get? (set m k v) k' = get? m k' := by
  induction m with
  | nil => simp [set, get?, h]
  | cons p m ih =>
    obtain ⟨a, b⟩ := p
    by_cases hk : k = a
    · subst hk
      simp [set, get?, h]
    · by_cases hk' : k' = a
      · simp [set, hk, get?, hk']
      · simp [set, hk, get?, hk', ih]

theorem JsMap.keys_set {α β : Type} [DecidableEq α] (m : JsMap α β) (k : α) (v : β) :
    keys (set m k v) = if k ∈ keys m then keys m else keys m ++ [k] := by
  induction m with
  | nil => simp [set]
  | cons p m ih =>
    obtain ⟨a, b⟩ := p
    by_cases h : k = a
    · simp [set, h]
    · simp only [set, if_neg h, keys_cons, ih, List.mem_cons]
      by_cases hm : k ∈ keys m
      · simp [hm, h]
      · simp [hm, h]

theorem JsMap.mem_keys_iff_get?_isSome {α β : Type} [DecidableEq α] (m : JsMap α β) (k : α) :
    k ∈ keys m ↔ (get? m k).isSome := by
  induction m with
  | nil => simp [get?]
  | cons p m ih =>
    obtain ⟨a, b⟩ := p
    by_cases h : k = a <;> simp [get?, h, ih]

theorem JsMap.get?_eq_none_of_not_mem {α β : Type} [DecidableEq α] (m : JsMap α β) (k : α) (h : k ∉ keys m) :
    get? m k = none := by
  have := (mem_keys_iff_get?_isSome m k).not.mp h
  cases hg : get? m k with
  | none => rfl
  | some b => rw [hg] at this; simp at this

theorem JsMap.keys_nodup_set {α β : Type} [DecidableEq α] (m : JsMap α β) (k : α) (v : β)
    (h : (keys m).Nodup) : (keys (set m k v)).Nodup := by
  rw [keys_set]
  by_cases hm : k ∈ keys m
  · simpa [hm]
  · simp only [if_neg hm]
    simpa [List.nodup_append] using ⟨h, hm⟩

/-- Membership of a binding in a map built by `set`s from `[]` determines
`get?` when keys are duplicate-free. -/
theorem JsMap.get?_eq_some_of_mem {α β : Type} [DecidableEq α] (m : JsMap α β) (k : α) (v : β)
    (hnd : (keys m).Nodup) (hmem : (k, v) ∈ m) : get? m k = some v := by
  induction m with
  | nil => simp at hmem
  | cons p m ih =>
    obtain ⟨a, b⟩ := p
    simp only [List.mem_cons] at hmem
    rcases hmem with h | h
    · cases h; simp [get?]
    · have hk : k ≠ a := by
        rintro rfl
        exact (List.nodup_cons.mp hnd).1 (List.mem_map.mpr ⟨(k, v), h, rfl⟩)
      simp [get?, hk, ih (List.nodup_cons.mp hnd).2 h]

theorem JsMap.mem_of_get?_eq_some {α β : Type} [DecidableEq α] (m : JsMap α β) (k : α) (v : β)
    (h : get? m k = some v) : (k, v) ∈ m := by
  induction m with
  | nil => simp [get?] at h
  | cons p m ih =>
    obtain ⟨a, b⟩ := p
    by_cases hk : k = a
    · subst hk
      rw [get?_cons, if_pos rfl, Option.some_inj] at h
      subst h
      exact List.mem_cons_self _ _
    · simp only [get?, if_neg hk] at h
      exact List.mem_cons_of_mem _ (ih h)


theorem natDigitsF_congr : ∀ f1 f2 n : Nat, n < f1 → n < f2 →
    natDigitsF f1 n = natDigitsF f2 n := by
  intro f1
  induction f1 with
  | zero => intro f2 n h1; omega
  | succ g ih =>
    intro f2 n h1 h2
    cases f2 with
    | zero => omega
    | succ h =>
      simp only [natDigitsF]
      split
      · rfl
      · next hn =>
        have hlt : n / 10 < n := Nat.div_lt_self (by omega) (by norm_num)
        rw [ih h (n / 10) (by omega) (by omega)]

theorem natDigits_eq (n : Nat) :
    natDigits n = if n < 10 then [digitChar n]
      else natDigits (n / 10) ++ [digitChar (n % 10)] := by
  show natDigitsF (n + 1) n = _
  simp only [natDigitsF]
  split
  · rfl
  · next hn =>
    have hlt : n / 10 < n := Nat.div_lt_self (by omega) (by norm_num)
    rw [natDigitsF_congr n (n / 10 + 1) (n / 10) (by omega) (by omega)]
    rfl

theorem natDigits_ne_nil (n : Nat) : natDigits n ≠ [] := by
  rw [natDigits_eq]
  split <;> simp

theorem mem_natDigits (n : Nat) :
    ∀ ch ∈ natDigits n, ∃ d, d < 10 ∧ ch = digitChar d := by
  induction n using Nat.strong_induction_on with
  | _ n ih =>
    rw [natDigits_eq]
    split
    next h =>
      intro ch hch
      simp only [List.mem_singleton] at hch
      exact ⟨n, h, hch⟩
    next h =>
      intro ch hch
      rcases List.mem_append.mp hch with hl | hr
      · exact ih (n / 10) (Nat.div_lt_self (by omega) (by norm_num)) ch hl
      · simp only [List.mem_singleton] at hr
        exact ⟨n % 10, Nat.mod_lt _ (by norm_num), hr⟩

theorem digitChar_ne_comma {d : Nat} (h : d < 10) : digitChar d ≠ ',' := by
  interval_cases d <;> decide

theorem digitChar_ne_minus {d : Nat} (h : d < 10) : digitChar d ≠ '-' := by
  interval_cases d <;> decide

theorem digitChar_ne_plus {d : Nat} (h : d < 10) : digitChar d ≠ '+' := by
  interval_cases d <;> decide

theorem comma_not_mem_natDigits (n : Nat) : ',' ∉ natDigits n := by
  intro hmem
  obtain ⟨d, hd, hch⟩ := mem_natDigits n ',' hmem
  exact digitChar_ne_comma hd hch.symm

theorem digitVal?_digitChar {d : Nat} (h : d < 10) :
    digitVal? (digitChar d) = some d := by
  interval_cases d <;> decide

theorem foldl_decFoldStep_natDigits (n : Nat) :
    ∀ m : Nat, List.foldl decFoldStep (some m) (natDigits n)
      = some (m * 10 ^ (natDigits n).length + n) := by
  induction n using Nat.strong_induction_on with
  | _ n ih =>
    intro m
    rw [natDigits_eq]
    split
    next h => simp [decFoldStep, digitVal?_digitChar h]
    next h =>
      rw [List.foldl_append, ih (n / 10) (Nat.div_lt_self (by omega) (by norm_num)) m]
      simp only [List.foldl_cons, List.foldl_nil, decFoldStep,
        digitVal?_digitChar (Nat.mod_lt n (by norm_num : (0:Nat) < 10)), List.length_append,
        List.length_singleton, Option.bind_eq_bind, Option.some_bind]
      congr 1
      have heq : (m * 10 ^ (natDigits (n / 10)).length + n / 10) * 10 + n % 10
          = m * (10 ^ (natDigits (n / 10)).length * 10) + (n / 10 * 10 + n % 10) := by ring
      rw [heq, pow_succ]
      omega

theorem decDigits?_natDigits (n : Nat) : decDigits? (natDigits n) = some n := by
  have hne := natDigits_ne_nil n
  rw [decDigits?.eq_def]
  split
  · exact absurd (by assumption) hne
  · rw [foldl_decFoldStep_natDigits n 0]
    simp

theorem natToDec_data (n : Nat) : (natToDec n).data = natDigits n := rfl

theorem digitChar_ne_e {d : Nat} (h : d < 10) : digitChar d ≠ 'e' ∧ digitChar d ≠ 'E' := by
  interval_cases d <;> decide

theorem digitChar_ne_dot {d : Nat} (h : d < 10) : digitChar d ≠ '.' := by
  interval_cases d <;> decide

theorem digitChar_not_ws {d : Nat} (h : d < 10) : jsWhitespace (digitChar d) = false := by
  interval_cases d <;> decide

theorem digitChar_ne_radix {d : Nat} (h : d < 10) :
    digitChar d ≠ 'x' ∧ digitChar d ≠ 'X' ∧ digitChar d ≠ 'o' ∧ digitChar d ≠ 'O' ∧
    digitChar d ≠ 'b' ∧ digitChar d ≠ 'B' := by
  interval_cases d <;> decide

theorem dropWhile_all_false (p : Char → Bool) (cs : List Char)
    (h : ∀ ch ∈ cs, p ch = false) : cs.dropWhile p = cs := by
  cases cs with
  | nil => rfl
  | cons c cs =>
    simp [List.dropWhile_cons, h c (List.mem_cons_self c cs)]

theorem jsTrim_no_ws (cs : List Char) (h : ∀ ch ∈ cs, jsWhitespace ch = false) :
    jsTrim cs = cs := by
  unfold jsTrim
  rw [dropWhile_all_false jsWhitespace cs h,
    dropWhile_all_false jsWhitespace cs.reverse
      (fun ch hch => h ch (List.mem_reverse.mp hch)),
    List.reverse_reverse]

theorem splitExponent_no_marker : ∀ cs : List Char,
    (∀ ch ∈ cs, ch ≠ 'e' ∧ ch ≠ 'E') → splitExponent cs = (cs, none) := by
  intro cs
  induction cs with
  | nil => intro _; rfl
  | cons c cs ih =>
    intro h
    obtain ⟨h1, h2⟩ := h c (List.mem_cons_self c cs)
    have hcond : ¬(c = 'e' ∨ c = 'E') := by
      rintro (h3 | h3)
      · exact h1 h3
      · exact h2 h3
    simp only [splitExponent, if_neg hcond]
    rw [ih (fun ch hch => h ch (List.mem_cons_of_mem _ hch))]

theorem splitDot_no_dot : ∀ cs : List Char,
    (∀ ch ∈ cs, ch ≠ '.') → splitDot cs = (cs, none) := by
  intro cs
  induction cs with
  | nil => intro _; rfl
  | cons c cs ih =>
    intro h
    have hcond : ¬(c = '.') := h c (List.mem_cons_self c cs)
    simp only [splitDot, if_neg hcond]
    rw [ih (fun ch hch => h ch (List.mem_cons_of_mem _ hch))]

/-- On a plain nonempty digit string the decimal-literal reader is the digit
fold. -/
theorem jsUnsignedDec?_digits (cs : List Char) (hne : cs ≠ [])
    (h : ∀ ch ∈ cs, ∃ d, d < 10 ∧ ch = digitChar d) :
    jsUnsignedDec? cs = cs.foldl decFoldStep (some 0) := by
  have hnoe : ∀ ch ∈ cs, ch ≠ 'e' ∧ ch ≠ 'E' := by
    intro ch hch
    obtain ⟨d, hd, rfl⟩ := h ch hch
    exact digitChar_ne_e hd
  have hnod : ∀ ch ∈ cs, ch ≠ '.' := by
    intro ch hch
    obtain ⟨d, hd, rfl⟩ := h ch hch
    exact digitChar_ne_dot hd
  have hse := splitExponent_no_marker cs hnoe
  have hsd := splitDot_no_dot cs hnod
  simp only [jsUnsignedDec?, hse, hsd, Option.getD_none]
  rw [if_neg (fun hand => hne hand.1)]
  show decValue? cs [] 0 = cs.foldl decFoldStep (some 0)
  unfold decValue?
  rw [List.append_nil]
  rcases hf : cs.foldl decFoldStep (some 0) with _ | mant
  · rfl
  · simp

/-- On a plain nonempty digit string the `Number` model is the digit fold. -/
theorem jsNumber?_all_digits (cs : List Char) (hne : cs ≠ [])
    (h : ∀ ch ∈ cs, ∃ d, d < 10 ∧ ch = digitChar d) :
    jsNumber? ⟨cs⟩ = (cs.foldl decFoldStep (some 0)).map (fun n => (n : Int)) := by
  have htrim : jsTrim cs = cs := jsTrim_no_ws cs (by
    intro ch hch
    obtain ⟨d, hd, rfl⟩ := h ch hch
    exact digitChar_not_ws hd)
  have hradix : jsRadix? cs = none := by
    cases cs with
    | nil => rfl
    | cons c0 cs' =>
      cases cs' with
      | nil => rfl
      | cons cx rest =>
        obtain ⟨d, hd, hch⟩ := h cx
          (List.mem_cons_of_mem _ (List.mem_cons_self _ _))
        obtain ⟨hx1, hx2, hx3, hx4, hx5, hx6⟩ := digitChar_ne_radix hd
        rw [hch]
        have h1 : ¬(c0 = '0' ∧ (digitChar d = 'x' ∨ digitChar d = 'X')) := by
          rintro ⟨_, h3 | h3⟩
          · exact hx1 h3
          · exact hx2 h3
        have h2 : ¬(c0 = '0' ∧ (digitChar d = 'o' ∨ digitChar d = 'O')) := by
          rintro ⟨_, h3 | h3⟩
          · exact hx3 h3
          · exact hx4 h3
        have h3 : ¬(c0 = '0' ∧ (digitChar d = 'b' ∨ digitChar d = 'B')) := by
          rintro ⟨_, h4 | h4⟩
          · exact hx5 h4
          · exact hx6 h4
        simp only [jsRadix?, if_neg h1, if_neg h2, if_neg h3]
  have hdata : (⟨cs⟩ : String).data = cs := rfl
  cases hcs : cs with
  | nil => exact absurd hcs hne
  | cons c rest =>
    obtain ⟨d, hd, hch⟩ := h c (hcs ▸ List.mem_cons_self _ _)
    rw [hcs] at htrim hradix
    simp only [jsNumber?, hdata, hcs, htrim, hradix]
    rw [hch, if_neg (digitChar_ne_minus hd), if_neg (digitChar_ne_plus hd), ← hch, ← hcs]
    rw [jsUnsignedDec?_digits cs hne h]

theorem jsNumber?_natToDec (n : Nat) : jsNumber? (natToDec n) = some (n : Int) := by
  have hnat : natToDec n = ⟨natDigits n⟩ := rfl
  rw [hnat, jsNumber?_all_digits (natDigits n) (natDigits_ne_nil n) (mem_natDigits n),
    foldl_decFoldStep_natDigits n 0]
  simp

theorem splitCommaAux_no_comma (cs : List Char) (h : ',' ∉ cs) :
    splitCommaAux cs = [cs] := by
  induction cs with
  | nil => rfl
  | cons c cs ih =>
    have hc : c ≠ ',' := fun hc => h (hc ▸ List.mem_cons_self _ _)
    have hcs : ',' ∉ cs := fun hm => h (List.mem_cons_of_mem _ hm)
    simp [splitCommaAux, hc, ih hcs]

theorem splitCommaAux_append (a b : List Char) (h : ',' ∉ a) :
    splitCommaAux (a ++ ',' :: b) = a :: splitCommaAux b := by
  induction a with
  | nil => simp [splitCommaAux]
  | cons c a ih =>
    have hc : c ≠ ',' := fun hc => h (hc ▸ List.mem_cons_self _ _)
    have ha : ',' ∉ a := fun hm => h (List.mem_cons_of_mem _ hm)
    simp [splitCommaAux, hc, ih ha]

theorem jsSplitComma_encKey (r c : Nat) :
    jsSplitComma (encKey r c) = [natToDec r, natToDec c] := by
  show (splitCommaAux (natDigits r ++ ',' :: natDigits c)).map List.asString
    = [natToDec r, natToDec c]
  rw [splitCommaAux_append _ _ (comma_not_mem_natDigits r),
    splitCommaAux_no_comma _ (comma_not_mem_natDigits c)]
  rfl

theorem parseCellKey_encKey (r c : Nat) :
    parseCellKey (encKey r c) = (some (r : Int), some (c : Int)) := by
  rw [parseCellKey, jsSplitComma_encKey]
  simp [jsNumber?_natToDec]

theorem encKey_injective {r c r' c' : Nat} (h : encKey r c = encKey r' c') :
    r = r' ∧ c = c' := by
  have := parseCellKey_encKey r c
  rw [h, parseCellKey_encKey r' c'] at this
  have h1 : (r : Int) = (r' : Int) := by
    simpa using congrArg (fun p => p.1) this.symm
  have h2 : (c : Int) = (c' : Int) := by
    simpa using congrArg (fun p => p.2) this.symm
  exact ⟨Nat.cast_injective h1, Nat.cast_injective h2⟩

theorem validKey?_encKey {N r c : Nat} (hr : r < N) (hc : c < N) :
    validKey? N (encKey r c) = some (r, c) := by
  rw [validKey?, parseCellKey_encKey]
  simp [hr, hc]

theorem sIns_length (le : α → α → Bool) (x : α) (l : List α) :
    (sIns le x l).length = l.length + 1 := by
  induction l with
  | nil => rfl
  | cons y ys ih =>
    simp only [sIns]
    split <;> simp [ih]

theorem stableSort_length (le : α → α → Bool) (l : List α) :
    (stableSort le l).length = l.length := by
  induction l with
  | nil => rfl
  | cons x xs ih => simp [stableSort, sIns_length, ih]

theorem sIns_perm (le : α → α → Bool) (x : α) (l : List α) :
    (sIns le x l).Perm (x :: l) := by
  induction l with
  | nil => rfl
  | cons y ys ih =>
    simp only [sIns]
    split
    · rfl
    · exact (List.Perm.cons y ih).trans (List.Perm.swap x y ys)

theorem stableSort_perm (le : α → α → Bool) (l : List α) :
    (stableSort le l).Perm l := by
  induction l with
  | nil => rfl
  | cons x xs ih =>
    exact (sIns_perm le x (stableSort le xs)).trans (List.Perm.cons x ih)


@[simp] theorem upd_self {α : Type} (f : Nat → α) (i : Nat) (x : α) : upd f i x i = x := by
  simp [upd]

theorem upd_ne {α : Type} (f : Nat → α) (i j : Nat) (x : α) (h : j ≠ i) :
    upd f i x j = f j := by
  simp [upd, h]


/-! ## Claim C1: selection errors and `generateFeasiblePuzzle` -/

/-- **C1** — refuted. The spec says a `pickConnectedWords` selection failure is
recovered internally by retrying with a fresh shuffle and never surfaces;
but `generateFeasiblePuzzle` has no handler, so the thrown error reaches its
caller.  For the dictionary `["DBDA","CADB","ABAC","XYWZ"]` with `wordCount 3`:
under the identity shuffle the isolated word `XYWZ` is popped as the seed and
`Insufficient overlap` propagates out, while under another shuffle of the same
dictionary generation succeeds — so the promised retry would have recovered. -/
theorem claim_C1_selection_error_propagates :
    generateFeasiblePuzzle (fun _ d => d) ["DBDA", "CADB", "ABAC", "XYWZ"]
      { wordCount := 3 } 2 = some (.error "Insufficient overlap") ∧
    ∃ p, generateFeasiblePuzzle (fun _ _ => ["DBDA", "CADB", "XYWZ", "ABAC"])
      ["DBDA", "CADB", "ABAC", "XYWZ"] { wordCount := 3 } 2 = some (.ok p) :=
  ⟨rfl, ⟨_, rfl⟩⟩

/-! ## Claim C9: the async variant never suspends -/

/-- **C9** — refuted.  `generateFeasiblePuzzle` either diverges, throws, or
returns a (truthy) puzzle, so `if (out) return { ...out, attempts }` always
returns on the first loop iteration of `generateFeasiblePuzzleAsync`; the
`await new Promise(...)` after it is unreachable.  Whatever the inputs, the
async variant executes zero suspensions and counts at most one attempt. -/
theorem claim_C9_async_never_yields (shuffle : Nat → List String → List String)
    (dictionary : List String) (o : GenOpts) (yieldEvery innerFuel fuel : Nat) :
    asyncYieldCount (generateFeasiblePuzzleAsync shuffle dictionary o yieldEvery
      innerFuel fuel) = 0 ∧
    asyncAttemptCount (generateFeasiblePuzzleAsync shuffle dictionary o yieldEvery
      innerFuel fuel) ≤ 1 := by
  unfold generateFeasiblePuzzleAsync
  cases fuel with
  | zero => exact ⟨rfl, by simp [genAsyncLoop, asyncAttemptCount]⟩
  | succ n =>
    cases hg : generateFeasiblePuzzle shuffle dictionary o innerFuel with
    | none => simp [genAsyncLoop, hg, asyncYieldCount, asyncAttemptCount]
    | some e =>
      cases e with
      | error msg => simp [genAsyncLoop, hg, asyncYieldCount, asyncAttemptCount]
      | ok out => simp [genAsyncLoop, hg, asyncYieldCount, asyncAttemptCount]

/-! ## Claim C5: illegal adjacency in returned puzzles -/

/-- **C5** — refuted on the code (the claim is the spec's clear intent).  For
the duplicate-containing dictionary `["DCDD","DDBB","CBDD","ACBA","CBDD"]`
(identity shuffle, `wordCount 5`), the backtracking search places the second
copy of `CBDD` over cells of the first and later `undo`s it; since a cell's
occupying-word `Set` is not multiplicity-aware, the `undo` strips `CBDD` from
cells the first copy still needs and deletes some of them.  The solver then
completes successfully, and the returned board contains the orthogonally
adjacent live cells `(0,1)` (occupied only by `DDBB`) and `(0,2)` (occupied
only by `DCDD`), which share no word; in the returned puzzle these are the
adjacent fillable cells `"3,1"` and `"3,2"` (finalize shift `(3,0)`). -/
theorem claim_C5_adjacent_cells_share_no_word :
    pickConnectedWords ["DCDD", "DDBB", "CBDD", "ACBA", "CBDD"] 4 11 5
      = .ok ["CBDD", "DCDD", "DDBB", "CBDD", "ACBA"] ∧
    (∃ b, solve (placeAnchor "CBDD") ["DCDD", "DDBB", "CBDD", "ACBA"]
        (buildOverlapMap ["CBDD", "DCDD", "DDBB", "CBDD", "ACBA"]) = some b ∧
      JsMap.get? b.cells ((0 : Int), (1 : Int)) = some ⟨'B', ["DDBB"]⟩ ∧
      JsMap.get? b.cells ((0 : Int), (2 : Int)) = some ⟨'D', ["DCDD"]⟩) ∧
    orthAdjacent (0, 1) (0, 2) ∧
    (∀ w : String, w ∈ ["DDBB"] → w ∉ ["DCDD"]) ∧
    (∃ p, generateFeasiblePuzzle (fun _ _ => ["DCDD", "DDBB", "CBDD", "ACBA", "CBDD"])
        ["DCDD", "DDBB", "CBDD", "ACBA", "CBDD"] { wordCount := 5, maxWordLen := 5 } 2
        = some (.ok p) ∧
      JsMap.get? p.letters "3,1" = some 'B' ∧ JsMap.get? p.letters "3,2" = some 'D') := by
  refine ⟨rfl, ⟨_, rfl, rfl, rfl⟩, ?_, ?_, ⟨_, rfl, rfl, rfl⟩⟩
  · exact Or.inl ⟨rfl, Or.inl rfl⟩
  · intro w hw
    simp only [List.mem_singleton] at hw
    subst hw
    decide

/-! ## Claim C7: word integrity of returned puzzles -/

/-- **C7** — refuted on the code (the claim is the spec's clear intent).  For
the duplicate-containing dictionary `["CCDA","ADAB","DADD","ADAB"]` (identity
shuffle, `wordCount 4`), a backtracking `undo` of the duplicate `ADAB`
placement strips `ADAB` from the anchor's cells (the word `Set` is not
multiplicity-aware) and deletes them; generation then completes.  In the
solver's final board the anchor placement of `ADAB` (cells `(0,0)..(0,3)`)
refers to a cell `(0,0)` that no longer exists, and reading the anchor
placement off the returned letters map (its first cell `(0,0)` shifted by the
finalize offset `(-2,-1)` is `(2,1)`, direction `H`) yields
`[-, D, -, -]`, not `ADAB`. -/
theorem claim_C7_word_not_reproduced :
    pickConnectedWords ["CCDA", "ADAB", "DADD", "ADAB"] 4 11 4
      = .ok ["ADAB", "CCDA", "ADAB", "DADD"] ∧
    ((solve (placeAnchor "ADAB") ["CCDA", "ADAB", "DADD"]
        (buildOverlapMap ["ADAB", "CCDA", "ADAB", "DADD"])).map
      (fun b => (b.placements.head?, JsMap.get? b.cells ((0 : Int), (0 : Int))))
      = some (some ⟨"ADAB", Dir.H,
          [((0 : Int), (0 : Int)), (0, 1), (0, 2), (0, 3)]⟩, none)) ∧
    (∃ p, generateFeasiblePuzzle (fun _ _ => ["CCDA", "ADAB", "DADD", "ADAB"])
        ["CCDA", "ADAB", "DADD", "ADAB"] { wordCount := 4 } 2 = some (.ok p) ∧
      p.words.head? = some "ADAB" ∧
      readRun p.letters 0 0 (2, 1) Dir.H 4 = [none, some 'D', none, none]) ∧
    ([none, some 'D', none, none] ≠ "ADAB".data.map some) := by
  exact ⟨rfl, rfl, ⟨_, rfl, rfl, rfl⟩, by decide⟩

/-! ## Lemmas about `finalize` -/

theorem foldl_min_le (l : List Int) (a : Int) : ∀ x ∈ a :: l, l.foldl min a ≤ x := by
  induction l generalizing a with
  | nil =>
    intro x hx
    simp only [List.mem_singleton] at hx
    simp [hx]
  | cons y ys ih =>
    intro x hx
    have hbase : ys.foldl min (min a y) ≤ min a y := ih (min a y) _ (List.mem_cons_self _ _)
    rcases List.mem_cons.mp hx with rfl | hx'
    · exact le_trans hbase (min_le_left _ _)
    · rcases List.mem_cons.mp hx' with rfl | hx''
      · exact le_trans hbase (min_le_right _ _)
      · exact ih (min a y) x (List.mem_cons_of_mem _ hx'')

theorem foldl_min_mem (l : List Int) (a : Int) : l.foldl min a ∈ a :: l := by
  induction l generalizing a with
  | nil => simp
  | cons y ys ih =>
    have := ih (min a y)
    rcases List.mem_cons.mp this with h | h
    · rcases min_choice a y with hm | hm
      · simp only [List.foldl_cons]
        rw [h, hm]
        exact List.mem_cons_self _ _
      · simp only [List.foldl_cons]
        rw [h, hm]
        exact List.mem_cons_of_mem _ (List.mem_cons_self _ _)
    · exact List.mem_cons_of_mem _ (List.mem_cons_of_mem _ h)

theorem foldl_max_le (l : List Int) (a : Int) : ∀ x ∈ a :: l, x ≤ l.foldl max a := by
  induction l generalizing a with
  | nil =>
    intro x hx
    simp only [List.mem_singleton] at hx
    simp [hx]
  | cons y ys ih =>
    intro x hx
    have hbase : max a y ≤ ys.foldl max (max a y) := ih (max a y) _ (List.mem_cons_self _ _)
    rcases List.mem_cons.mp hx with rfl | hx'
    · exact le_trans (le_max_left _ _) hbase
    · rcases List.mem_cons.mp hx' with rfl | hx''
      · exact le_trans (le_max_right _ _) hbase
      · exact ih (max a y) x (List.mem_cons_of_mem _ hx'')

theorem foldl_max_mem (l : List Int) (a : Int) : l.foldl max a ∈ a :: l := by
  induction l generalizing a with
  | nil => simp
  | cons y ys ih =>
    have := ih (max a y)
    rcases List.mem_cons.mp this with h | h
    · rcases max_choice a y with hm | hm
      · simp only [List.foldl_cons]
        rw [h, hm]
        exact List.mem_cons_self _ _
      · simp only [List.foldl_cons]
        rw [h, hm]
        exact List.mem_cons_of_mem _ (List.mem_cons_self _ _)
    · exact List.mem_cons_of_mem _ (List.mem_cons_of_mem _ h)

theorem zeroGrid_length (n : Nat) : (zeroGrid n).length = n := by simp [zeroGrid]

theorem zeroGrid_rows (n : Nat) : ∀ row ∈ zeroGrid n, row.length = n := by
  intro row hrow
  simp only [zeroGrid] at hrow
  rw [List.eq_of_mem_replicate hrow]
  simp

theorem gridCell_zeroGrid (n r c : Nat) (hr : r < n) (hc : c < n) :
    gridCell (zeroGrid n) r c = some 0 := by
  simp [gridCell, zeroGrid, List.get?_eq_getElem?, List.getElem?_replicate, hr, hc]

theorem gridSet_length (g : List (List Nat)) (r c v : Nat) :
    (gridSet g r c v).length = g.length := by
  simp [gridSet]

theorem gridSet_rows (g : List (List Nat)) (r c v n : Nat)
    (h : ∀ row ∈ g, row.length = n) : ∀ row ∈ gridSet g r c v, row.length = n := by
  intro row hrow
  rcases List.mem_or_eq_of_mem_set hrow with hmem | heq
  · exact h row hmem
  · subst heq
    by_cases hr : r < g.length
    · have hget : (g.getD r []) ∈ g := by
        rw [List.getD_eq_getElem?_getD, List.getElem?_eq_getElem hr]
        exact List.getElem_mem hr
      rw [List.length_set]
      exact h _ hget
    · have hset : gridSet g r c v = g := by
        simp [gridSet, List.set_eq_of_length_le (Nat.le_of_not_lt hr)]
      rw [hset] at hrow
      exact h _ hrow

theorem gridCell_gridSet_self (g : List (List Nat)) (r c v n : Nat)
    (hlen : g.length = n) (hrows : ∀ row ∈ g, row.length = n)
    (hr : r < n) (hc : c < n) :
    gridCell (gridSet g r c v) r c = some v := by
  have hrg : r < g.length := by omega
  have hrow : g[r] ∈ g := List.getElem_mem hrg
  have hrowlen : g[r].length = n := hrows _ hrow
  have hgetD : g.getD r [] = g[r] := by
    rw [List.getD_eq_getElem?_getD, List.getElem?_eq_getElem hrg]
    rfl
  simp only [gridCell, gridSet, List.get?_eq_getElem?]
  rw [List.getElem?_set_self (by simpa using hrg), hgetD]
  simp only [Option.some_bind]
  rw [List.getElem?_set_self (by omega)]

theorem gridCell_gridSet_ne (g : List (List Nat)) (r c v r' c' : Nat)
    (hne : (r, c) ≠ (r', c')) :
    gridCell (gridSet g r c v) r' c' = gridCell g r' c' := by
  by_cases hrr : r = r'
  · subst hrr
    have hcc : c ≠ c' := by
      intro h
      exact hne (by rw [h])
    by_cases hrg : r < g.length
    · have hgetD : g.getD r [] = g[r] := by
        rw [List.getD_eq_getElem?_getD, List.getElem?_eq_getElem hrg]
        rfl
      simp only [gridCell, gridSet, List.get?_eq_getElem?]
      rw [List.getElem?_set_self (by simpa using hrg), hgetD,
        List.getElem?_eq_getElem hrg]
      simp only [Option.some_bind]
      rw [List.getElem?_set_ne hcc]
    · have hset : gridSet g r c v = g := by
        simp [gridSet, List.set_eq_of_length_le (Nat.le_of_not_lt hrg)]
      rw [hset]
  · simp only [gridCell, gridSet, List.get?_eq_getElem?]
    rw [List.getElem?_set_ne hrr]

theorem JsMap.isSome_get?_set {α β : Type} [DecidableEq α]
    (m : JsMap α β) (k k' : α) (v : β) :
    (JsMap.get? (JsMap.set m k v) k').isSome ↔ (k' = k ∨ (JsMap.get? m k').isSome) := by
  by_cases h : k' = k
  · subst h
    simp [JsMap.get?_set_self]
  · rw [JsMap.get?_set_ne m k k' v h]
    simp [h]

/-- Behaviour of the marking fold of `finalize`: grid dimensions are preserved,
a cell is marked `1` iff it was already marked or some processed cell shifts
onto it, and a letters key is present iff it was already present or is the
encoded key of some processed cell. -/
theorem finalize_fold_spec (minR minC : Int) (N : Nat) :
    ∀ (cells : List ((Int × Int) × CellData)) (g : List (List Nat)) (L : JsMap String Char),
    g.length = N →
    (∀ row ∈ g, row.length = N) →
    (∀ q ∈ cells, (q.1.1 - minR).toNat < N ∧ (q.1.2 - minC).toNat < N) →
    (cells.foldl (fun (acc : List (List Nat) × JsMap String Char) cell =>
        (gridSet acc.1 (cell.1.1 - minR).toNat (cell.1.2 - minC).toNat 1,
         JsMap.set acc.2 (encKey (cell.1.1 - minR).toNat (cell.1.2 - minC).toNat)
           cell.2.letter)) (g, L)).1.length = N ∧
    (∀ row ∈ (cells.foldl (fun (acc : List (List Nat) × JsMap String Char) cell =>
        (gridSet acc.1 (cell.1.1 - minR).toNat (cell.1.2 - minC).toNat 1,
         JsMap.set acc.2 (encKey (cell.1.1 - minR).toNat (cell.1.2 - minC).toNat)
           cell.2.letter)) (g, L)).1, row.length = N) ∧
    (∀ r c : Nat, r < N → c < N →
      (gridCell (cells.foldl (fun (acc : List (List Nat) × JsMap String Char) cell =>
          (gridSet acc.1 (cell.1.1 - minR).toNat (cell.1.2 - minC).toNat 1,
           JsMap.set acc.2 (encKey (cell.1.1 - minR).toNat (cell.1.2 - minC).toNat)
             cell.2.letter)) (g, L)).1 r c = some 1 ↔
        (gridCell g r c = some 1 ∨
          ∃ q ∈ cells, (q.1.1 - minR).toNat = r ∧ (q.1.2 - minC).toNat = c))) ∧
    (∀ k : String,
      ((JsMap.get? (cells.foldl (fun (acc : List (List Nat) × JsMap String Char) cell =>
          (gridSet acc.1 (cell.1.1 - minR).toNat (cell.1.2 - minC).toNat 1,
           JsMap.set acc.2 (encKey (cell.1.1 - minR).toNat (cell.1.2 - minC).toNat)
             cell.2.letter)) (g, L)).2 k).isSome ↔
        ((JsMap.get? L k).isSome ∨
          ∃ q ∈ cells, k = encKey (q.1.1 - minR).toNat (q.1.2 - minC).toNat))) := by
  intro cells
  induction cells with
  | nil =>
    intro g L hlen hrows _
    refine ⟨hlen, hrows, ?_, ?_⟩
    · intro r c _ _
      simp
    · intro k
      simp
  | cons q cells ih =>
    intro g L hlen hrows hin
    have hq := hin q (List.mem_cons_self _ _)
    have hin' : ∀ p ∈ cells, (p.1.1 - minR).toNat < N ∧ (p.1.2 - minC).toNat < N :=
      fun p hp => hin p (List.mem_cons_of_mem _ hp)
    simp only [List.foldl_cons]
    have hlen' : (gridSet g (q.1.1 - minR).toNat (q.1.2 - minC).toNat 1).length = N := by
      rw [gridSet_length]; exact hlen
    have hrows' := gridSet_rows g (q.1.1 - minR).toNat (q.1.2 - minC).toNat 1 N hrows
    obtain ⟨c1, c2, c3, c4⟩ := ih _ _ hlen' hrows' hin'
    refine ⟨c1, c2, ?_, ?_⟩
    · intro r c hr hc
      rw [c3 r c hr hc]
      constructor
      · rintro (hg | hrest)
        · by_cases hqe : (q.1.1 - minR).toNat = r ∧ (q.1.2 - minC).toNat = c
        
          · exact Or.inr ⟨q, List.mem_cons_self _ _, hqe⟩
          · have hne : ((q.1.1 - minR).toNat, (q.1.2 - minC).toNat) ≠ (r, c) := by
              intro h
              exact hqe ⟨congrArg Prod.fst h, congrArg Prod.snd h⟩
            rw [gridCell_gridSet_ne g _ _ 1 r c hne] at hg
            exact Or.inl hg
        · obtain ⟨p, hp, hpe⟩ := hrest
          exact Or.inr ⟨p, List.mem_cons_of_mem _ hp, hpe⟩
      · rintro (hg | ⟨p, hp, hpe⟩)
        · by_cases hqe : ((q.1.1 - minR).toNat, (q.1.2 - minC).toNat) = (r, c)
          · left
            rw [show r = (q.1.1 - minR).toNat from (congrArg Prod.fst hqe).symm,
              show c = (q.1.2 - minC).toNat from (congrArg Prod.snd hqe).symm]
            exact gridCell_gridSet_self g _ _ 1 N hlen hrows hq.1 hq.2
          · left
            rw [gridCell_gridSet_ne g _ _ 1 r c hqe]
            exact hg
        · rcases List.mem_cons.mp hp with rfl | hp'
          · left
            rw [show r = (p.1.1 - minR).toNat from hpe.1.symm,
              show c = (p.1.2 - minC).toNat from hpe.2.symm]
            exact gridCell_gridSet_self g _ _ 1 N hlen hrows hq.1 hq.2
          · exact Or.inr ⟨p, hp', hpe⟩
    · intro k
      rw [c4 k]
      rw [JsMap.isSome_get?_set]
      constructor
      · rintro (hk | hrest)
        · rcases hk with hk | hk
          · exact Or.inr ⟨q, List.mem_cons_self _ _, hk⟩
          · exact Or.inl hk
        · obtain ⟨p, hp, hpe⟩ := hrest
          exact Or.inr ⟨p, List.mem_cons_of_mem _ hp, hpe⟩
      · rintro (hk | ⟨p, hp, hpe⟩)
        · exact Or.inl (Or.inr hk)
        · rcases List.mem_cons.mp hp with rfl | hp'
          · exact Or.inl (Or.inl hpe)
          · exact Or.inr ⟨p, hp', hpe⟩

/-! ## Claim C6: `finalize` produces a square grid matching the letters map -/

/-- **C6** — confirmed.  For every board with at least one live cell,
`finalize` returns a square `N × N` grid with `N` the larger of the bounding
box height and width of the live cells, and `grid[r][c] = 1` exactly when the
key `"r,c"` (the cell shifted by `(-minR, -minC)`) is present in the returned
letters map; moreover every letters key is such a shifted in-range key. -/
theorem claim_C6_finalize_square_grid_letters (b : Board)
    (hne : JsMap.keys b.cells ≠ []) :
    ∃ minR minC maxR maxC : Int,
      (∀ q ∈ JsMap.keys b.cells, minR ≤ q.1 ∧ q.1 ≤ maxR ∧ minC ≤ q.2 ∧ q.2 ≤ maxC) ∧
      (∃ q ∈ JsMap.keys b.cells, q.1 = minR) ∧
      (∃ q ∈ JsMap.keys b.cells, q.1 = maxR) ∧
      (∃ q ∈ JsMap.keys b.cells, q.2 = minC) ∧
      (∃ q ∈ JsMap.keys b.cells, q.2 = maxC) ∧
      (finalize b).grid.length = (max (maxR - minR + 1) (maxC - minC + 1)).toNat ∧
      (∀ row ∈ (finalize b).grid, row.length = (finalize b).grid.length) ∧
      (∀ r c : Nat, r < (finalize b).grid.length → c < (finalize b).grid.length →
        ((gridCell (finalize b).grid r c = some 1 ↔
            ((r : Int) + minR, (c : Int) + minC) ∈ JsMap.keys b.cells) ∧
         (gridCell (finalize b).grid r c = some 1 ↔
            (JsMap.get? (finalize b).letters (encKey r c)).isSome))) ∧
      (∀ k : String, (JsMap.get? (finalize b).letters k).isSome →
        ∃ r c : Nat, r < (finalize b).grid.length ∧ c < (finalize b).grid.length ∧
          k = encKey r c) := by
  rcases hk : JsMap.keys b.cells with _ | ⟨p, ps⟩
  · exact absurd hk hne
  have hkeys : ∀ q ∈ b.cells, q.1 ∈ p :: ps := by
    intro q hq
    rw [← hk]
    exact List.mem_map_of_mem Prod.fst hq
  set rs := ((p :: ps).map Prod.fst) with hrs
  set cs := ((p :: ps).map Prod.snd) with hcs
  set minR := rs.foldl min p.1 with hminR
  set minC := cs.foldl min p.2 with hminC
  set maxR := rs.foldl max p.1 with hmaxR
  set maxC := cs.foldl max p.2 with hmaxC
  set N0 := (max (maxR - minR + 1) (maxC - minC + 1)).toNat with hN0v
  have hboundq : ∀ x ∈ p :: ps, minR ≤ x.1 ∧ x.1 ≤ maxR ∧ minC ≤ x.2 ∧ x.2 ≤ maxC := by
    intro x hx
    have hx1 : x.1 ∈ rs := List.mem_map_of_mem Prod.fst hx
    have hx2 : x.2 ∈ cs := List.mem_map_of_mem Prod.snd hx
    exact ⟨foldl_min_le rs p.1 x.1 (List.mem_cons_of_mem _ hx1),
      foldl_max_le rs p.1 x.1 (List.mem_cons_of_mem _ hx1),
      foldl_min_le cs p.2 x.2 (List.mem_cons_of_mem _ hx2),
      foldl_max_le cs p.2 x.2 (List.mem_cons_of_mem _ hx2)⟩
  have hrange : ∀ q ∈ b.cells, (q.1.1 - minR).toNat < N0 ∧ (q.1.2 - minC).toNat < N0 := by
    intro q hq
    have hb := hboundq q.1 (hkeys q hq)
    omega
  have hfing : (finalize b).grid = (b.cells.foldl
      (fun (acc : List (List Nat) × JsMap String Char) cell =>
        (gridSet acc.1 (cell.1.1 - minR).toNat (cell.1.2 - minC).toNat 1,
         JsMap.set acc.2 (encKey (cell.1.1 - minR).toNat (cell.1.2 - minC).toNat)
           cell.2.letter)) (zeroGrid N0, JsMap.empty)).1 := by
    rw [finalize, hk]
  have hfinl : (finalize b).letters = (b.cells.foldl
      (fun (acc : List (List Nat) × JsMap String Char) cell =>
        (gridSet acc.1 (cell.1.1 - minR).toNat (cell.1.2 - minC).toNat 1,
         JsMap.set acc.2 (encKey (cell.1.1 - minR).toNat (cell.1.2 - minC).toNat)
           cell.2.letter)) (zeroGrid N0, JsMap.empty)).2 := by
    rw [finalize, hk]
  obtain ⟨c1, c2, c3, c4⟩ := finalize_fold_spec minR minC N0 b.cells (zeroGrid N0)
    JsMap.empty (zeroGrid_length N0) (zeroGrid_rows N0) hrange
  have hlen : (finalize b).grid.length = N0 := by rw [hfing]; exact c1
  refine ⟨minR, minC, maxR, maxC, ?_, ?_, ?_, ?_, ?_, ?_, ?_, ?_, ?_⟩
  · intro q hq
    exact hboundq q hq
  · rcases List.mem_cons.mp (foldl_min_mem rs p.1) with h | h
    · exact ⟨p, List.mem_cons_self _ _, h.symm⟩
    · obtain ⟨q, hq, hq1⟩ := List.mem_map.mp h
      exact ⟨q, hq, hq1⟩
  · rcases List.mem_cons.mp (foldl_max_mem rs p.1) with h | h
    · exact ⟨p, List.mem_cons_self _ _, h.symm⟩
    · obtain ⟨q, hq, hq1⟩ := List.mem_map.mp h
      exact ⟨q, hq, hq1⟩
  · rcases List.mem_cons.mp (foldl_min_mem cs p.2) with h | h
    · exact ⟨p, List.mem_cons_self _ _, h.symm⟩
    · obtain ⟨q, hq, hq1⟩ := List.mem_map.mp h
      exact ⟨q, hq, hq1⟩
  · rcases List.mem_cons.mp (foldl_max_mem cs p.2) with h | h
    · exact ⟨p, List.mem_cons_self _ _, h.symm⟩
    · obtain ⟨q, hq, hq1⟩ := List.mem_map.mp h
      exact ⟨q, hq, hq1⟩
  · exact hlen
  · intro row hrow
    rw [hfing] at hrow
    rw [hlen]
    exact c2 row hrow
  · intro r c hr hc
    rw [hlen] at hr hc
    have hmem : (gridCell (finalize b).grid r c = some 1 ↔
        ∃ q ∈ b.cells, (q.1.1 - minR).toNat = r ∧ (q.1.2 - minC).toNat = c) := by
      rw [hfing, c3 r c hr hc, gridCell_zeroGrid N0 r c hr hc]
      simp
    constructor
    · rw [hmem]
      constructor
      · rintro ⟨q, hq, h1, h2⟩
        have hb := hboundq q.1 (hkeys q hq)
        have hq1 : q.1 = ((r : Int) + minR, (c : Int) + minC) := by
          have h1' : q.1.1 = (r : Int) + minR := by omega
          have h2' : q.1.2 = (c : Int) + minC := by omega
          exact Prod.ext h1' h2'
        exact hq1 ▸ hkeys q hq
      · intro hmem2
        have hmem3 : ((r : Int) + minR, (c : Int) + minC) ∈ JsMap.keys b.cells := by
          rw [hk]
          exact hmem2
        obtain ⟨q, hq, hq1⟩ := List.mem_map.mp hmem3
        refine ⟨q, hq, ?_, ?_⟩
        · have : q.1.1 = (r : Int) + minR := by rw [hq1]
          omega
        · have : q.1.2 = (c : Int) + minC := by rw [hq1]
          omega
    · rw [hmem, hfinl, c4 (encKey r c)]
      simp only [JsMap.empty, JsMap.get?_nil, Option.isSome_none, Bool.false_eq_true,
        false_or]
      constructor
      · rintro ⟨q, hq, h1, h2⟩
        exact ⟨q, hq, by rw [h1, h2]⟩
      · rintro ⟨q, hq, he⟩
        obtain ⟨h1, h2⟩ := encKey_injective he
        exact ⟨q, hq, h1.symm, h2.symm⟩
  · intro k hkk
    rw [hfinl, c4 k] at hkk
    simp only [JsMap.empty, JsMap.get?_nil, Option.isSome_none, Bool.false_eq_true,
      false_or] at hkk
    obtain ⟨q, hq, he⟩ := hkk
    have hr := hrange q hq
    exact ⟨(q.1.1 - minR).toNat, (q.1.2 - minC).toNat, by rw [hlen]; exact hr.1,
      by rw [hlen]; exact hr.2, he⟩

/-- Witness for C6: the anchor board of the word `GRID` satisfies the
hypothesis and the conclusion of `claim_C6_finalize_square_grid_letters`. -/
theorem claim_C6_witness :
    JsMap.keys (placeAnchor "GRID").cells ≠ [] ∧
    (∃ minR minC maxR maxC : Int,
      (∀ q ∈ JsMap.keys (placeAnchor "GRID").cells,
        minR ≤ q.1 ∧ q.1 ≤ maxR ∧ minC ≤ q.2 ∧ q.2 ≤ maxC) ∧
      (∃ q ∈ JsMap.keys (placeAnchor "GRID").cells, q.1 = minR) ∧
      (∃ q ∈ JsMap.keys (placeAnchor "GRID").cells, q.1 = maxR) ∧
      (∃ q ∈ JsMap.keys (placeAnchor "GRID").cells, q.2 = minC) ∧
      (∃ q ∈ JsMap.keys (placeAnchor "GRID").cells, q.2 = maxC) ∧
      (finalize (placeAnchor "GRID")).grid.length
        = (max (maxR - minR + 1) (maxC - minC + 1)).toNat ∧
      (∀ row ∈ (finalize (placeAnchor "GRID")).grid,
        row.length = (finalize (placeAnchor "GRID")).grid.length) ∧
      (∀ r c : Nat, r < (finalize (placeAnchor "GRID")).grid.length →
          c < (finalize (placeAnchor "GRID")).grid.length →
        ((gridCell (finalize (placeAnchor "GRID")).grid r c = some 1 ↔
            ((r : Int) + minR, (c : Int) + minC)
              ∈ JsMap.keys (placeAnchor "GRID").cells) ∧
         (gridCell (finalize (placeAnchor "GRID")).grid r c = some 1 ↔
            (JsMap.get? (finalize (placeAnchor "GRID")).letters (encKey r c)).isSome))) ∧
      (∀ k : String, (JsMap.get? (finalize (placeAnchor "GRID")).letters k).isSome →
        ∃ r c : Nat, r < (finalize (placeAnchor "GRID")).grid.length ∧
          c < (finalize (placeAnchor "GRID")).grid.length ∧ k = encKey r c)) :=
  ⟨by decide, claim_C6_finalize_square_grid_letters (placeAnchor "GRID") (by decide)⟩

/-! ## Claim C10: the two assigners on malformed keys -/

theorem buildAdjacency_eq_none_iff (N : Nat) (d : String) (rl cl : Nat → Nat)
    (si : JsMap String Nat) :
    ∀ l : List (Nat × String),
      buildAdjacency N d rl cl si l = none ↔ ∃ p ∈ l, validKey? N p.2 = none := by
  intro l
  induction l with
  | nil => simp [buildAdjacency]
  | cons p rest ih =>
    obtain ⟨u, key⟩ := p
    cases hv : validKey? N key with
    | none =>
      simp only [buildAdjacency, hv]
      constructor
      · intro _
        exact ⟨(u, key), List.mem_cons_self _ _, hv⟩
      · intro _
        trivial
    | some rc =>
      simp only [buildAdjacency, hv, Option.map_eq_none']
      rw [ih]
      constructor
      · rintro ⟨q, hq, hqv⟩
        exact ⟨q, List.mem_cons_of_mem _ hq, hqv⟩
      · rintro ⟨q, hq, hqv⟩
        rcases List.mem_cons.mp hq with rfl | hq'
        · rw [hv] at hqv
          exact absurd hqv (by simp)
        · exact ⟨q, hq', hqv⟩

theorem exists_enumFrom_of_mem {α : Type} (k : α) :
    ∀ (l : List α) (n : Nat), k ∈ l → ∃ u, (u, k) ∈ l.enumFrom n := by
  intro l
  induction l with
  | nil => intro n h; simp at h
  | cons x xs ih =>
    intro n h
    rcases List.mem_cons.mp h with rfl | h'
    · exact ⟨n, List.mem_cons_self _ _⟩
    · obtain ⟨u, hu⟩ := ih (n + 1) h'
      exact ⟨u, List.mem_cons_of_mem _ hu⟩

/-- **C10** — confirmed.  On a letters map containing a key that does not parse
to integer coordinates inside the `N × N` grid, the single-wave assigner
returns `null` while the multi-wave assigner throws
`Invalid cell key in letters`; neither produces an assignment. -/
theorem claim_C10_invalid_key_divergence (grid : List (List Nat))
    (letters : JsMap String Char) (difficulty : String)
    (hbad : ∃ k ∈ JsMap.keys letters, validKey? grid.length k = none) :
    assignOutsideSlots grid letters difficulty = none ∧
    assignOutsideSlotsInWaves grid letters difficulty
      = .error "Invalid cell key in letters" := by
  obtain ⟨k, hk, hv⟩ := hbad
  obtain ⟨u, hu⟩ := exists_enumFrom_of_mem k (JsMap.keys letters) 0 hk
  have hadj : buildAdjacency grid.length difficulty (rowLenF grid grid.length)
      (colLenF grid grid.length) (mkSlotIndex (mkSlots grid.length))
      (JsMap.keys letters).enum = none := by
    rw [buildAdjacency_eq_none_iff]
    exact ⟨(u, k), hu, hv⟩
  constructor
  · rw [assignOutsideSlots]
    split
    · rfl
    · simp only [hadj]
  · rw [assignOutsideSlotsInWaves]
    simp only [hadj]

/-- Witness for C10: a 2×2 grid whose letters map contains the malformed key
`"x,0"`. -/
theorem claim_C10_witness :
    (∃ k ∈ JsMap.keys [("0,0", 'A'), ("x,0", 'B')],
      validKey? (List.length [[1, 0], [0, 1]]) k = none) ∧
    (assignOutsideSlots [[1, 0], [0, 1]] [("0,0", 'A'), ("x,0", 'B')] "balanced" = none ∧
     assignOutsideSlotsInWaves [[1, 0], [0, 1]] [("0,0", 'A'), ("x,0", 'B')] "balanced"
       = .error "Invalid cell key in letters") :=
  ⟨⟨"x,0", by decide, by decide⟩,
    claim_C10_invalid_key_divergence [[1, 0], [0, 1]] [("0,0", 'A'), ("x,0", 'B')]
      "balanced" ⟨"x,0", by decide, by decide⟩⟩

/-! ## Hopcroft–Karp invariants -/

/-- Transfer of the `dfs` contract across a preparatory state change that
keeps the matching, keeps `dist` at `u` and at every vertex at or below `u`'s
layer, only raises other entries to `INF`, and raises only visited vertices. -/
theorem DfsSpec_transfer {adj : Nat → List Nat} {M : Nat} {s s' : HKState} {u : Nat}
    {out : Bool × HKState}
    (hpU : s'.pairU = s.pairU) (hpV : s'.pairV = s.pairV)
    (hd1 : ∀ y, s'.dist y = s.dist y ∨ s'.dist y = INF)
    (hd2 : ∀ y, y ≠ u → s.dist y ≤ s.dist u → s'.dist y = s.dist y)
    (hdu : s'.dist u = s.dist u)
    (hdv : ∀ y, s'.dist y ≠ s.dist y → (s.pairU y).isSome ∨ y = u)
    (h : DfsSpec adj M s' u out) : DfsSpec adj M s u out := by
  obtain ⟨hF, hD1, hD2, hDV, hS⟩ := h
  refine ⟨?_, ?_, ?_, ?_, ?_⟩
  · intro hf
    obtain ⟨h1, h2⟩ := hF hf
    exact ⟨h1.trans hpU, h2.trans hpV⟩
  · intro y
    rcases hD1 y with h | h
    · rw [h]; exact hd1 y
    · exact Or.inr h
  · intro y hy hle
    have h1 : s'.dist y = s.dist y := hd2 y hy hle
    have h2 : s'.dist y ≤ s'.dist u := by rw [h1, hdu]; exact hle
    rw [hD2 y hy h2, h1]
  · intro y hne
    by_cases hc : out.2.dist y = s'.dist y
    · have h : s'.dist y ≠ s.dist y := by rw [← hc]; exact hne
      exact hdv y h
    · rcases hDV y hc with h | h
      · rw [hpU] at h; exact Or.inl h
      · exact Or.inr h
  · intro ht
    obtain ⟨a1, a2, a3, a4, a5, a6, a7, a8⟩ := hS ht
    refine ⟨a1, ?_, ?_, a4, ?_, a6, ?_, ?_⟩
    · intro w hw; rw [a2 w hw, hpU]
    · intro w hw hle
      have h1 : s'.dist w = s.dist w := hd2 w hw hle
      have h2 : s'.dist w ≤ s'.dist u := by rw [h1, hdu]; exact hle
      rw [a3 w hw h2, hpU]
    · intro x w hxw
      rcases a5 x w hxw with h | ⟨h1, h2⟩
      · exact Or.inl h
      · rw [hpU] at h2; exact Or.inr ⟨h1, h2⟩
    · intro x w hxw hsc
      have hxw' : s'.pairV x = some w := by rw [hpV]; exact hxw
      have hsc' : s'.dist w ≤ s'.dist u ∨ s'.dist w = INF := by
        rcases hd1 w with h | h
        · rcases hsc with hle | hINF
          · exact Or.inl (by rw [h, hdu]; exact hle)
          · exact Or.inr (by rw [h]; exact hINF)
        · exact Or.inr h
      rw [a7 x w hxw' hsc', hpV]
    · intro x hx
      rw [← hpV]; exact a8 x hx

/-- The `for (const v of adj[u])` loop of `dfs` satisfies the contract,
provided the supplied recursive call does. -/
theorem dfsGo_spec (adj : Nat → List Nat) (M : Nat) (hM : M + 1 < INF)
    (dfsRec : HKState → Nat → Bool × HKState)
    (hrec : ∀ s u, HKInv adj M s → u < M →
      (∀ y, s.dist y ≤ M ∨ s.dist y = INF) → s.dist u ≤ M →
      DfsSpec adj M s u (dfsRec s u)) :
    ∀ (vs : List Nat) (s : HKState) (u : Nat), HKInv adj M s → u < M →
      (∀ y, s.dist y ≤ M ∨ s.dist y = INF) → s.dist u ≤ M →
      (∀ v, v ∈ vs → v ∈ adj u) →
      DfsSpec adj M s u (dfsGo dfsRec s u vs) := by
  intro vs
  induction vs with
  | nil =>
    intro s u hInv huM hb hu hvs
    refine ⟨fun _ => ⟨rfl, rfl⟩, ?_, ?_, ?_, ?_⟩
    · intro y
      by_cases hy : y = u
      · subst hy
        exact Or.inr (upd_self s.dist y INF)
      · exact Or.inl (upd_ne s.dist u y INF hy)
    · intro y hy _
      exact upd_ne s.dist u y INF hy
    · intro y hne
      by_cases hy : y = u
      · exact Or.inr hy
      · exact absurd (upd_ne s.dist u y INF hy) hne
    · intro ht
      exact Bool.noConfusion ht
  | cons v vs ih =>
    intro s u hInv huM hb hu hvs
    obtain ⟨huv, hvu, hedge⟩ := hInv
    have hvadj : v ∈ adj u := hvs v (List.mem_cons_self v vs)
    have hvs' : ∀ w, w ∈ vs → w ∈ adj u := fun w hw => hvs w (List.mem_cons_of_mem _ hw)
    rcases hv : s.pairV v with _ | u2
    · -- the slot `v` is free: immediate success
      have hout : dfsGo dfsRec s u (v :: vs)
          = (true, { s with pairU := upd s.pairU u (some v),
                            pairV := upd s.pairV v (some u) }) := by
        simp only [dfsGo, hv]
      rw [hout]
      refine ⟨fun h => Bool.noConfusion h, fun y => Or.inl rfl, fun y _ _ => rfl,
        fun y hne => absurd rfl hne, ?_⟩
      intro _
      refine ⟨?_, ?_, ?_, ?_, ?_, ?_, ?_, ?_⟩
      · have h : upd s.pairU u (some v) u = some v := upd_self s.pairU u (some v)
        show (upd s.pairU u (some v) u).isSome
        rw [h]; rfl
      · intro w hw
        show (upd s.pairU u (some v) w).isSome = (s.pairU w).isSome
        rw [upd_ne s.pairU u w (some v) hw]
      · intro w hw _
        exact upd_ne s.pairU u w (some v) hw
      · intro w x hwx
        replace hwx : upd s.pairU u (some v) w = some x := hwx
        show upd s.pairV v (some u) x = some w
        by_cases hw : w = u
        · subst hw
          rw [upd_self] at hwx
          injection hwx with hx
          subst hx
          rw [upd_self]
        · rw [upd_ne s.pairU u w (some v) hw] at hwx
          by_cases hx : x = v
          · subst hx
            exact absurd (huv w x hwx) (by rw [hv]; intro h; exact Option.noConfusion h)
          · rw [upd_ne s.pairV v x (some u) hx]
            exact huv w x hwx
      · intro x w hxw
        replace hxw : upd s.pairV v (some u) x = some w := hxw
        by_cases hx : x = v
        · subst hx
          rw [upd_self] at hxw
          injection hxw with hw
          subst hw
          exact Or.inl (by show upd s.pairU u (some x) u = some x; rw [upd_self])
        · rw [upd_ne s.pairV v x (some u) hx] at hxw
          have h := hvu x w hxw
          by_cases hw : w = u
          · subst hw
            exact Or.inr ⟨rfl, h⟩
          · refine Or.inl ?_
            show upd s.pairU u (some v) w = some x
            rw [upd_ne s.pairU u w (some v) hw]
            exact h
      · intro w x hwx
        replace hwx : upd s.pairU u (some v) w = some x := hwx
        by_cases hw : w = u
        · subst hw
          rw [upd_self] at hwx
          injection hwx with hx
          subst hx
          exact ⟨huM, hvadj⟩
        · rw [upd_ne s.pairU u w (some v) hw] at hwx
          exact hedge w x hwx
      · intro x w hxw _
        show upd s.pairV v (some u) x = s.pairV x
        by_cases hx : x = v
        · subst hx
          rw [hv] at hxw
          exact Option.noConfusion hxw
        · exact upd_ne s.pairV v x (some u) hx
      · intro x hx
        replace hx : upd s.pairU u (some v) u = some x := hx
        rw [upd_self] at hx
        injection hx with hx
        subst hx
        rw [hv]
        intro h
        exact Option.noConfusion h
    · -- the slot `v` is matched to `u2`
      have hu2v : s.pairU u2 = some v := hvu v u2 hv
      have hu2M : u2 < M := (hedge u2 v hu2v).1
      by_cases hcond : s.dist u2 = s.dist u + 1
      · have hu2u : u2 ≠ u := by
          intro h; rw [h] at hcond; omega
        have hd2M : s.dist u2 ≤ M := by
          rcases hb u2 with h | h
          · exact h
          · exfalso; rw [h] at hcond; omega
        have hspec := hrec s u2 ⟨huv, hvu, hedge⟩ hu2M hb hd2M
        rcases hres : dfsRec s u2 with ⟨b, s1⟩
        rw [hres] at hspec
        obtain ⟨hF, hD1, hD2, hDV, hS⟩ := hspec
        cases b with
        | false =>
          obtain ⟨hp1, hp2⟩ := hF rfl
          have hout : dfsGo dfsRec s u (v :: vs) = dfsGo dfsRec s1 u vs := by
            simp only [dfsGo, hv, if_pos hcond, hres]
          rw [hout]
          have hdu1 : s1.dist u = s.dist u := hD2 u (Ne.symm hu2u) (by omega)
          have hInv1 : HKInv adj M s1 := by
            unfold HKInv
            rw [hp1, hp2]
            exact ⟨huv, hvu, hedge⟩
          have hb1 : ∀ y, s1.dist y ≤ M ∨ s1.dist y = INF := by
            intro y
            rcases hD1 y with h | h
            · rw [h]; exact hb y
            · exact Or.inr h
          have hres1 := ih s1 u hInv1 huM hb1 (by rw [hdu1]; exact hu) hvs'
          refine DfsSpec_transfer hp1 hp2 hD1 ?_ hdu1 ?_ hres1
          · intro y hy hle
            refine hD2 y ?_ (by omega)
            intro h; rw [h] at hle; omega
          · intro y hne
            rcases hDV y hne with h | h
            · exact Or.inl h
            · subst h
              exact Or.inl (by rw [hu2v]; rfl)
        | true =>
          obtain ⟨a1, a2, a3, a4, a5, a6, a7, a8⟩ := hS rfl
          have hout : dfsGo dfsRec s u (v :: vs)
              = (true, { s1 with pairU := upd s1.pairU u (some v),
                                 pairV := upd s1.pairV v (some u) }) := by
            simp only [dfsGo, hv, if_pos hcond, hres]
          rw [hout]
          have hf1 : s1.pairV v = some u2 := by
            rw [a7 v u2 hv (Or.inl (le_refl _))]; exact hv
          have hf2 : s1.pairU u = s.pairU u := a3 u (Ne.symm hu2u) (by omega)
          refine ⟨fun h => Bool.noConfusion h, ?_, ?_, ?_, ?_⟩
          · intro y
            exact hD1 y
          · intro y hy hle
            refine hD2 y ?_ (by omega)
            intro h; rw [h] at hle; omega
          · intro y hne
            rcases hDV y hne with h | h
            · exact Or.inl h
            · subst h
              exact Or.inl (by rw [hu2v]; rfl)
          intro _
          refine ⟨?_, ?_, ?_, ?_, ?_, ?_, ?_, ?_⟩
          · have h : upd s1.pairU u (some v) u = some v := upd_self s1.pairU u (some v)
            show (upd s1.pairU u (some v) u).isSome
            rw [h]; rfl
          · intro w hw
            show (upd s1.pairU u (some v) w).isSome = (s.pairU w).isSome
            rw [upd_ne s1.pairU u w (some v) hw]
            by_cases hwu2 : w = u2
            · subst hwu2
              rw [hu2v]
              have h : (s1.pairU w).isSome := a1
              rw [h]; rfl
            · exact a2 w hwu2
          · intro w hw hle
            show upd s1.pairU u (some v) w = s.pairU w
            rw [upd_ne s1.pairU u w (some v) hw]
            refine a3 w ?_ (by omega)
            intro h; rw [h] at hle; omega
          · intro w x hwx
            replace hwx : upd s1.pairU u (some v) w = some x := hwx
            show upd s1.pairV v (some u) x = some w
            by_cases hw : w = u
            · subst hw
              rw [upd_self] at hwx
              injection hwx with hx
              subst hx
              rw [upd_self]
            · rw [upd_ne s1.pairU u w (some v) hw] at hwx
              by_cases hx : x = v
              · subst hx
                exfalso
                have h1 : s1.pairV x = some w := a4 w x hwx
                rw [hf1] at h1
                injection h1 with h1
                subst h1
                exact a8 x hwx hv
              · rw [upd_ne s1.pairV v x (some u) hx]
                exact a4 w x hwx
          · intro x w hxw
            replace hxw : upd s1.pairV v (some u) x = some w := hxw
            by_cases hx : x = v
            · subst hx
              rw [upd_self] at hxw
              injection hxw with hw
              subst hw
              exact Or.inl (by show upd s1.pairU u (some x) u = some x; rw [upd_self])
            · rw [upd_ne s1.pairV v x (some u) hx] at hxw
              rcases a5 x w hxw with h | ⟨hw, hx2⟩
              · by_cases hwu : w = u
                · subst hwu
                  refine Or.inr ⟨rfl, ?_⟩
                  rw [← hf2]; exact h
                · refine Or.inl ?_
                  show upd s1.pairU u (some v) w = some x
                  rw [upd_ne s1.pairU u w (some v) hwu]
                  exact h
              · exfalso
                rw [hu2v] at hx2
                injection hx2 with hx2
                exact hx hx2.symm
          · intro w x hwx
            replace hwx : upd s1.pairU u (some v) w = some x := hwx
            by_cases hw : w = u
            · subst hw
              rw [upd_self] at hwx
              injection hwx with hx
              subst hx
              exact ⟨huM, hvadj⟩
            · rw [upd_ne s1.pairU u w (some v) hw] at hwx
              exact a6 w x hwx
          · intro x w hxw hsc
            show upd s1.pairV v (some u) x = s.pairV x
            by_cases hx : x = v
            · subst hx
              exfalso
              rw [hv] at hxw
              injection hxw with hw
              subst hw
              rcases hsc with h | h
              · omega
              · rw [h] at hcond; omega
            · rw [upd_ne s1.pairV v x (some u) hx]
              refine a7 x w hxw ?_
              rcases hsc with h | h
              · exact Or.inl (by omega)
              · exact Or.inr h
          · intro x hx
            replace hx : upd s1.pairU u (some v) u = some x := hx
            rw [upd_self] at hx
            injection hx with hx
            subst hx
            rw [hv]
            intro h
            injection h with h
            exact hu2u h
      · -- layer condition fails: skip this edge
        have hout : dfsGo dfsRec s u (v :: vs) = dfsGo dfsRec s u vs := by
          simp only [dfsGo, hv, if_neg hcond]
        rw [hout]
        exact ih s u ⟨huv, hvu, hedge⟩ huM hb hu hvs'

/-- Every `dfs` call (any fuel) satisfies the contract. -/
theorem dfs_spec (adj : Nat → List Nat) (M : Nat) (hM : M + 1 < INF) :
    ∀ (fuel : Nat) (s : HKState) (u : Nat), HKInv adj M s → u < M →
      (∀ y, s.dist y ≤ M ∨ s.dist y = INF) → s.dist u ≤ M →
      DfsSpec adj M s u (dfs adj fuel s u) := by
  intro fuel
  induction fuel with
  | zero =>
    intro s u hInv huM hb hu
    exact ⟨fun _ => ⟨rfl, rfl⟩, fun y => Or.inl rfl, fun y _ _ => rfl,
      fun y hne => absurd rfl hne, fun ht => Bool.noConfusion ht⟩
  | succ n ihn =>
    intro s u hInv huM hb hu
    exact dfsGo_spec adj M hM (fun s' u' => dfs adj n s' u')
      (fun s' u' h1 h2 h3 h4 => ihn s' u' h1 h2 h3 h4)
      (adj u) s u hInv huM hb hu (fun _ hv => hv)

/-- Flipping one entry of a predicate from `false` to `true` on a
duplicate-free list grows the filter length by exactly one. -/
theorem filter_length_flip {f g : Nat → Bool} {u : Nat} :
    ∀ l : List Nat, l.Nodup → u ∈ l → (∀ w, w ≠ u → g w = f w) →
      f u = false → g u = true →
      (l.filter g).length = (l.filter f).length + 1 := by
  intro l
  induction l with
  | nil => intro _ h; exact absurd h (List.not_mem_nil u)
  | cons a l ih =>
    intro hnd hmem hgf hf hg
    obtain ⟨hna, hndl⟩ := List.nodup_cons.mp hnd
    rcases List.mem_cons.mp hmem with rfl | hmem'
    · have htail : l.filter g = l.filter f := by
        refine List.filter_congr ?_
        intro w hw
        exact hgf w (fun h => hna (h ▸ hw))
      rw [List.filter_cons, List.filter_cons, hf, hg]
      simp [htail]
    · have ha : g a = f a := hgf a (fun h => hna (h ▸ hmem'))
      have hrec := ih hndl hmem' hgf hf hg
      rw [List.filter_cons, List.filter_cons, ha]
      by_cases hfa : f a = true
      · simp only [hfa, if_true, List.length_cons, hrec]
      · rw [Bool.not_eq_true] at hfa
        rw [hfa]
        simp [hrec]

/-- A filter that loses no length keeps every element. -/
theorem filter_length_eq_all {p : Nat → Bool} :
    ∀ l : List Nat, (l.filter p).length = l.length → ∀ a ∈ l, p a = true := by
  intro l
  induction l with
  | nil => intro _ a h; exact absurd h (List.not_mem_nil a)
  | cons b l ih =>
    intro hlen a ha
    have hle := List.length_filter_le p l
    by_cases hb : p b = true
    · rw [List.filter_cons, if_pos hb] at hlen
      simp only [List.length_cons] at hlen
      rcases List.mem_cons.mp ha with rfl | ha'
      · exact hb
      · exact ih (by omega) a ha'
    · rw [List.filter_cons, if_neg hb] at hlen
      simp only [List.length_cons] at hlen
      omega

/-- `matchedCount` only depends on which vertices are matched. -/
theorem matchedCount_congr {M : Nat} {s s' : HKState}
    (h : ∀ u, (s'.pairU u).isSome = (s.pairU u).isSome) :
    matchedCount M s' = matchedCount M s := by
  unfold matchedCount
  rw [List.filter_congr (fun u _ => h u)]

/-- A full `matchedCount` means every vertex in range is matched. -/
theorem matchedCount_total {M : Nat} {s : HKState} (h : matchedCount M s = M) :
    ∀ u, u < M → (s.pairU u).isSome := by
  intro u hu
  have hall := filter_length_eq_all (List.range M)
    (by unfold matchedCount at h; rw [h, List.length_range])
  exact hall u (List.mem_range.mpr hu)

/-- Newly matching exactly one free in-range vertex raises `matchedCount` by
one. -/
theorem matchedCount_flip {M : Nat} {s s' : HKState} {u : Nat} (huM : u < M)
    (hu : s.pairU u = none) (hu' : (s'.pairU u).isSome)
    (h : ∀ w, w ≠ u → (s'.pairU w).isSome = (s.pairU w).isSome) :
    matchedCount M s' = matchedCount M s + 1 := by
  unfold matchedCount
  exact filter_length_flip (List.range M) (List.nodup_range M) (List.mem_range.mpr huM)
    h (by rw [hu]; rfl) hu'

/-- The augmenting sweep preserves the matching invariant, never unmatches a
vertex, and advances the `matching` counter exactly by the number of newly
matched left-vertices. -/
theorem dfsSweep_spec (adj : Nat → List Nat) (M : Nat) (hM : M + 1 < INF)
    (dfsFuel : Nat) :
    ∀ (us : List Nat) (s : HKState) (matching : Nat), HKInv adj M s →
      us.Nodup → (∀ u ∈ us, u < M) →
      (∀ y, s.dist y ≤ M ∨ s.dist y = INF) →
      (∀ u ∈ us, s.pairU u = none → s.dist u ≤ M) →
      HKInv adj M (dfsSweep adj dfsFuel us s matching).2 ∧
      (dfsSweep adj dfsFuel us s matching).1 + matchedCount M s
        = matching + matchedCount M (dfsSweep adj dfsFuel us s matching).2 ∧
      (∀ w, (s.pairU w).isSome → ((dfsSweep adj dfsFuel us s matching).2.pairU w).isSome) := by
  intro us
  induction us with
  | nil =>
    intro s matching hInv _ _ _ _
    exact ⟨hInv, rfl, fun _ h => h⟩
  | cons u us ih =>
    intro s matching hInv hnd hlt hb hfree
    obtain ⟨hnu, hndus⟩ := List.nodup_cons.mp hnd
    have huM : u < M := hlt u (List.mem_cons_self u us)
    have hlt' : ∀ w ∈ us, w < M := fun w hw => hlt w (List.mem_cons_of_mem _ hw)
    by_cases hpu : s.pairU u = none
    · have hdist : s.dist u ≤ M := hfree u (List.mem_cons_self u us) hpu
      have hspec := dfs_spec adj M hM dfsFuel s u hInv huM hb hdist
      rcases hres : dfs adj dfsFuel s u with ⟨b, s1⟩
      rw [hres] at hspec
      obtain ⟨hF, hD1, hD2, hDV, hS⟩ := hspec
      cases b with
      | false =>
        obtain ⟨hp1, hp2⟩ := hF rfl
        have hout : dfsSweep adj dfsFuel (u :: us) s matching
            = dfsSweep adj dfsFuel us s1 matching := by
          simp only [dfsSweep, if_pos hpu, hres]
        rw [hout]
        have hInv1 : HKInv adj M s1 := by
          unfold HKInv
          rw [hp1, hp2]
          exact hInv
        have hb1 : ∀ y, s1.dist y ≤ M ∨ s1.dist y = INF := by
          intro y
          rcases hD1 y with h | h
          · rw [h]; exact hb y
          · exact Or.inr h
        have hfree1 : ∀ w ∈ us, s1.pairU w = none → s1.dist w ≤ M := by
          intro w hw hwfree
          have hwu : w ≠ u := fun h => hnu (h ▸ hw)
          have hsfree : s.pairU w = none := by rw [← hp1]; exact hwfree
          have hdw : s1.dist w = s.dist w := by
            by_cases hch : s1.dist w = s.dist w
            · exact hch
            · rcases hDV w hch with h | h
              · rw [hsfree] at h; simp at h
              · exact absurd h hwu
          rw [hdw]
          exact hfree w (List.mem_cons_of_mem _ hw) hsfree
        obtain ⟨r1, r2, r3⟩ := ih s1 matching hInv1 hndus hlt' hb1 hfree1
        refine ⟨r1, ?_, ?_⟩
        · have hc : matchedCount M s1 = matchedCount M s :=
            matchedCount_congr (fun w => by rw [hp1])
          rw [← hc]
          exact r2
        · intro w hw
          refine r3 w ?_
          rw [hp1]
          exact hw
      | true =>
        obtain ⟨a1, a2, a3, a4, a5, a6, a7, a8⟩ := hS rfl
        have hout : dfsSweep adj dfsFuel (u :: us) s matching
            = dfsSweep adj dfsFuel us s1 (matching + 1) := by
          simp only [dfsSweep, if_pos hpu, hres]
        rw [hout]
        have hInv1 : HKInv adj M s1 := by
          refine ⟨a4, ?_, a6⟩
          intro x w hxw
          rcases a5 x w hxw with h | ⟨_, h2⟩
          · exact h
          · rw [hpu] at h2; exact Option.noConfusion h2
        have hb1 : ∀ y, s1.dist y ≤ M ∨ s1.dist y = INF := by
          intro y
          rcases hD1 y with h | h
          · rw [h]; exact hb y
          · exact Or.inr h
        have hfree1 : ∀ w ∈ us, s1.pairU w = none → s1.dist w ≤ M := by
          intro w hw hwfree
          have hwu : w ≠ u := fun h => hnu (h ▸ hw)
          have hsfree : s.pairU w = none := by
            cases h : s.pairU w with
            | none => rfl
            | some z =>
              exfalso
              have h2 := a2 w hwu
              rw [hwfree, h] at h2
              exact Bool.noConfusion h2
          have hdw : s1.dist w = s.dist w := by
            by_cases hch : s1.dist w = s.dist w
            · exact hch
            · rcases hDV w hch with h | h
              · rw [hsfree] at h; simp at h
              · exact absurd h hwu
          rw [hdw]
          exact hfree w (List.mem_cons_of_mem _ hw) hsfree
        obtain ⟨r1, r2, r3⟩ := ih s1 (matching + 1) hInv1 hndus hlt' hb1 hfree1
        refine ⟨r1, ?_, ?_⟩
        · have hc : matchedCount M s1 = matchedCount M s + 1 :=
            matchedCount_flip huM hpu a1 a2
          rw [hc] at r2
          omega
        · intro w hw
          by_cases hwu : w = u
          · subst hwu
            exact r3 w a1
          · refine r3 w ?_
            rw [a2 w hwu]
            exact hw
    · have hout : dfsSweep adj dfsFuel (u :: us) s matching
          = dfsSweep adj dfsFuel us s matching := by
        simp only [dfsSweep, if_neg hpu]
      rw [hout]
      exact ih s matching hInv hndus hlt' hb
        (fun w hw => hfree w (List.mem_cons_of_mem _ hw))

theorem finCount_le (M : Nat) (dist : Nat → Nat) : finCount M dist ≤ M := by
  unfold finCount
  calc ((List.range M).filter (fun z => dist z ≠ INF)).length
      ≤ (List.range M).length := List.length_filter_le _ _
    _ = M := List.length_range M

/-- `bfsScan` writes only to `INF` entries, keeps every entry at the running
finite count, and every node it enqueues ends with a finite `dist`. -/
theorem bfsScan_spec (pairV : Nat → Option Nat) (M : Nat) (hM : M + 1 < INF)
    (hpv : ∀ v u2, pairV v = some u2 → u2 < M) (u : Nat) :
    ∀ (vs : List Nat) (dist : Nat → Nat) (found : Bool) (acc : List Nat),
      (∀ y, dist y ≤ finCount M dist ∨ dist y = INF) → dist u ≠ INF →
      (∀ y, dist y ≠ INF → (bfsScan pairV u vs dist found acc).1 y = dist y) ∧
      (∀ y, (bfsScan pairV u vs dist found acc).1 y
          ≤ finCount M (bfsScan pairV u vs dist found acc).1
        ∨ (bfsScan pairV u vs dist found acc).1 y = INF) ∧
      (∀ q, q ∈ (bfsScan pairV u vs dist found acc).2.2 →
        q ∈ acc ∨ (bfsScan pairV u vs dist found acc).1 q ≠ INF) := by
  intro vs
  induction vs with
  | nil =>
    intro dist found acc hbnd hu
    exact ⟨fun _ _ => rfl, hbnd, fun q hq => Or.inl hq⟩
  | cons v vs ih =>
    intro dist found acc hbnd hu
    rcases hv : pairV v with _ | u2
    · have hout : bfsScan pairV u (v :: vs) dist found acc
          = bfsScan pairV u vs dist true acc := by
        simp only [bfsScan, hv]
      rw [hout]
      exact ih dist true acc hbnd hu
    · by_cases hd : dist u2 = INF
      · have hu2M : u2 < M := hpv v u2 hv
        have hvalne : dist u + 1 ≠ INF := by
          rcases hbnd u with h | h
          · have hfc : finCount M dist ≤ M := finCount_le M dist
            omega
          · exact absurd h hu
        have hne : u ≠ u2 := fun h => hu (by rw [h]; exact hd)
        have hflip : finCount M (upd dist u2 (dist u + 1)) = finCount M dist + 1 := by
          unfold finCount
          refine filter_length_flip (List.range M) (List.nodup_range M)
            (List.mem_range.mpr hu2M) ?_ ?_ ?_
          · intro w hw
            rw [upd_ne dist u2 w _ hw]
          · simp [hd]
          · simp [hvalne]
        have hbnd' : ∀ y, upd dist u2 (dist u + 1) y
            ≤ finCount M (upd dist u2 (dist u + 1)) ∨ upd dist u2 (dist u + 1) y = INF := by
          intro y
          by_cases hy : y = u2
          · subst hy
            left
            rw [upd_self, hflip]
            rcases hbnd u with h | h
            · omega
            · exact absurd h hu
          · rw [upd_ne dist u2 y _ hy]
            rcases hbnd y with h | h
            · left; omega
            · exact Or.inr h
        have hu' : upd dist u2 (dist u + 1) u ≠ INF := by
          rw [upd_ne dist u2 u _ hne]
          exact hu
        obtain ⟨i1, i2, i3⟩ := ih (upd dist u2 (dist u + 1)) found (acc ++ [u2]) hbnd' hu'
        have hout : bfsScan pairV u (v :: vs) dist found acc
            = bfsScan pairV u vs (upd dist u2 (dist u + 1)) found (acc ++ [u2]) := by
          simp only [bfsScan, hv, if_pos hd]
        rw [hout]
        refine ⟨?_, i2, ?_⟩
        · intro y hy
          have hyne : y ≠ u2 := fun h => hy (by rw [h]; exact hd)
          rw [i1 y (by rw [upd_ne dist u2 y _ hyne]; exact hy)]
          exact upd_ne dist u2 y _ hyne
        · intro q hq
          rcases i3 q hq with h | h
          · rcases List.mem_append.mp h with h' | h'
            · exact Or.inl h'
            · have hq2 : q = u2 := by simpa using h'
              subst hq2
              right
              rw [i1 q (by rw [upd_self]; exact hvalne), upd_self]
              exact hvalne
          · exact Or.inr h
      · have hout : bfsScan pairV u (v :: vs) dist found acc
            = bfsScan pairV u vs dist found acc := by
          simp only [bfsScan, hv, if_neg hd]
        rw [hout]
        exact ih dist found acc hbnd hu

/-- The queue loop of `bfs` keeps every `dist` entry at most `M` (or `INF`)
and never rewrites a finite entry. -/
theorem bfsLoop_spec (adj : Nat → List Nat) (pairV : Nat → Option Nat) (M : Nat)
    (hM : M + 1 < INF) (hpv : ∀ v u2, pairV v = some u2 → u2 < M) :
    ∀ (fuel : Nat) (pending : List Nat) (dist : Nat → Nat) (found : Bool),
      (∀ y, dist y ≤ finCount M dist ∨ dist y = INF) →
      (∀ q ∈ pending, dist q ≠ INF) →
      (∀ y, dist y ≠ INF → (bfsLoop adj pairV fuel pending dist found).1 y = dist y) ∧
      (∀ y, (bfsLoop adj pairV fuel pending dist found).1 y ≤ M
        ∨ (bfsLoop adj pairV fuel pending dist found).1 y = INF) := by
  intro fuel
  induction fuel with
  | zero =>
    intro pending dist found hbnd hpend
    refine ⟨fun _ _ => rfl, fun y => ?_⟩
    rcases hbnd y with h | h
    · exact Or.inl (h.trans (finCount_le M dist))
    · exact Or.inr h
  | succ n ihn =>
    intro pending dist found hbnd hpend
    cases pending with
    | nil =>
      refine ⟨fun _ _ => rfl, fun y => ?_⟩
      rcases hbnd y with h | h
      · exact Or.inl (h.trans (finCount_le M dist))
      · exact Or.inr h
    | cons u rest =>
      have hu : dist u ≠ INF := hpend u (List.mem_cons_self u rest)
      obtain ⟨s1, s2, s3⟩ := bfsScan_spec pairV M hM hpv u (adj u) dist found [] hbnd hu
      have hout : bfsLoop adj pairV (n + 1) (u :: rest) dist found
          = bfsLoop adj pairV n
              (rest ++ (bfsScan pairV u (adj u) dist found []).2.2)
              (bfsScan pairV u (adj u) dist found []).1
              (bfsScan pairV u (adj u) dist found []).2.1 := by
        simp only [bfsLoop]
      rw [hout]
      have hpend' : ∀ q ∈ rest ++ (bfsScan pairV u (adj u) dist found []).2.2,
          (bfsScan pairV u (adj u) dist found []).1 q ≠ INF := by
        intro q hq
        rcases List.mem_append.mp hq with h | h
        · have hq' : dist q ≠ INF := hpend q (List.mem_cons_of_mem _ h)
          rw [s1 q hq']
          exact hq'
        · rcases s3 q h with h' | h'
          · exact absurd h' (List.not_mem_nil q)
          · exact h'
      obtain ⟨j1, j2⟩ := ihn _ _ _ s2 hpend'
      refine ⟨?_, j2⟩
      intro y hy
      rw [j1 y (by rw [s1 y hy]; exact hy), s1 y hy]

/-- After `bfs`, every `dist` entry is at most `M` or `INF`, and free
left-vertices keep `dist = 0`. -/
theorem bfs_dist_spec (adj : Nat → List Nat) (M : Nat) (pairU pairV : Nat → Option Nat)
    (hM : M + 1 < INF) (hpv : ∀ v u2, pairV v = some u2 → u2 < M) :
    (∀ y, (bfs adj M pairU pairV).1 y ≤ M ∨ (bfs adj M pairU pairV).1 y = INF) ∧
    (∀ y, pairU y = none → (bfs adj M pairU pairV).1 y = 0) := by
  have hINF0 : (0 : Nat) ≠ INF := by unfold INF; omega
  have hd0 : ∀ y, (if pairU y = none then 0 else INF)
      ≤ finCount M (fun w => if pairU w = none then 0 else INF)
      ∨ (if pairU y = none then 0 else INF) = INF := by
    intro y
    by_cases h : pairU y = none
    · left
      rw [if_pos h]
      exact Nat.zero_le _
    · right
      rw [if_neg h]
  have hpend : ∀ q ∈ (List.range M).filter (fun w => pairU w = none),
      (if pairU q = none then 0 else INF) ≠ INF := by
    intro q hq
    have h := (List.mem_filter.mp hq).2
    have h' : pairU q = none := by simpa using h
    rw [if_pos h']
    exact hINF0
  obtain ⟨l1, l2⟩ := bfsLoop_spec adj pairV M hM hpv (2 * M + 1)
    ((List.range M).filter (fun u => pairU u = none))
    (fun u => if pairU u = none then 0 else INF) false hd0 hpend
  refine ⟨l2, ?_⟩
  intro y hy
  have hinit : (if pairU y = none then 0 else INF) = 0 := if_pos hy
  have h2 := l1 y (by rw [hinit]; exact hINF0)
  exact h2.trans hinit

/-- Each Hopcroft–Karp phase keeps the matching invariant, and the `matching`
counter advances in step with the number of matched vertices. -/
theorem hkLoop_spec (adj : Nat → List Nat) (M : Nat) (hM : M + 1 < INF) :
    ∀ (fuel : Nat) (s : HKState) (matching : Nat), HKInv adj M s →
      HKInv adj M (hkLoop adj M fuel s matching).2 ∧
      (hkLoop adj M fuel s matching).1 + matchedCount M s
        = matching + matchedCount M (hkLoop adj M fuel s matching).2 := by
  intro fuel
  induction fuel with
  | zero => intro s matching hInv; exact ⟨hInv, rfl⟩
  | succ n ihn =>
    intro s matching hInv
    have hpv : ∀ v u2, s.pairV v = some u2 → u2 < M := by
      intro v u2 h
      exact (hInv.2.2 u2 v (hInv.2.1 v u2 h)).1
    obtain ⟨b1, b2⟩ := bfs_dist_spec adj M s.pairU s.pairV hM hpv
    have hInv' : HKInv adj M { s with dist := (bfs adj M s.pairU s.pairV).1 } := hInv
    by_cases hfound : (bfs adj M s.pairU s.pairV).2 = true
    · have hout : hkLoop adj M (n + 1) s matching
          = hkLoop adj M n
              (dfsSweep adj (2 * M + 2) (List.range M)
                { s with dist := (bfs adj M s.pairU s.pairV).1 } matching).2
              (dfsSweep adj (2 * M + 2) (List.range M)
                { s with dist := (bfs adj M s.pairU s.pairV).1 } matching).1 := by
        simp only [hkLoop, hfound, if_true]
      rw [hout]
      obtain ⟨w1, w2, _⟩ := dfsSweep_spec adj M hM (2 * M + 2) (List.range M)
        { s with dist := (bfs adj M s.pairU s.pairV).1 } matching hInv'
        (List.nodup_range M) (fun u hu => List.mem_range.mp hu)
        b1 (fun u _ hufree => by
          show (bfs adj M s.pairU s.pairV).1 u ≤ M
          rw [b2 u hufree]
          exact Nat.zero_le M)
      obtain ⟨k1, k2⟩ := ihn _ _ w1
      refine ⟨k1, ?_⟩
      have hc : matchedCount M { s with dist := (bfs adj M s.pairU s.pairV).1 }
          = matchedCount M s := rfl
      rw [hc] at w2
      omega
    · have hout : hkLoop adj M (n + 1) s matching
          = (matching, { s with dist := (bfs adj M s.pairU s.pairV).1 }) := by
        simp only [hkLoop]
        rw [if_neg hfound]
      rw [hout]
      exact ⟨hInv', rfl⟩

/-- A full Hopcroft–Karp run returns a valid mutual matching whose `matching`
counter equals the number of matched left-vertices. -/
theorem hkRun_spec (adj : Nat → List Nat) (M : Nat) (hM : M + 1 < INF) :
    HKInv adj M (hkRun adj M).2 ∧ (hkRun adj M).1 = matchedCount M (hkRun adj M).2 := by
  have hInv0 : HKInv adj M ⟨fun _ => none, fun _ => none, fun _ => 0⟩ := by
    refine ⟨?_, ?_, ?_⟩ <;> intro a b h <;> exact Option.noConfusion h
  obtain ⟨k1, k2⟩ := hkLoop_spec adj M hM (M + 1)
    ⟨fun _ => none, fun _ => none, fun _ => 0⟩ 0 hInv0
  have hc0 : matchedCount M ⟨fun _ => none, fun _ => none, fun _ => 0⟩ = 0 := by
    unfold matchedCount
    simp
  rw [hc0] at k2
  refine ⟨k1, ?_⟩
  unfold hkRun
  omega

/-! ## The single-wave assigner builds a bijection (towards C4) -/

theorem slotId_injective {a b : Char} {n m : Nat} (h : slotId a n = slotId b m) :
    a = b ∧ n = m := by
  unfold slotId at h
  have hdata : a :: ':' :: natDigits n = b :: ':' :: natDigits m := congrArg String.data h
  injection hdata with h1 h2
  injection h2 with _ h3
  have hd : decDigits? (natDigits n) = decDigits? (natDigits m) := by rw [h3]
  rw [decDigits?_natDigits, decDigits?_natDigits] at hd
  injection hd with hd
  exact ⟨h1, hd⟩

/-- A `flatMap` of distinct two-element blocks over `range N` has no
duplicates. -/
theorem nodup_pairs_flatMap (f g : Nat → String)
    (hf : ∀ i j, f i = f j → i = j) (hg : ∀ i j, g i = g j → i = j)
    (hfg : ∀ i j, f i ≠ g j) :
    ∀ N : Nat, ((List.range N).flatMap (fun r => [f r, g r])).Nodup := by
  intro N
  induction N with
  | zero => simp
  | succ n ih =>
    rw [List.range_succ, List.flatMap_append]
    rw [List.nodup_append]
    refine ⟨ih, ?_, ?_⟩
    · simp only [List.flatMap_cons, List.flatMap_nil, List.append_nil]
      simp [hfg n n]
    · intro x hx hx'
      obtain ⟨r, hr, hxr⟩ := List.mem_flatMap.mp hx
      have hrn : r < n := List.mem_range.mp hr
      simp only [List.flatMap_cons, List.flatMap_nil, List.append_nil] at hx'
      simp only [List.mem_cons, List.not_mem_nil, or_false] at hxr hx'
      rcases hxr with h1 | h1 <;> rcases hx' with h2 | h2
      · rw [h1] at h2; have := hf r n h2; omega
      · rw [h1] at h2; exact hfg r n h2
      · rw [h1] at h2; exact hfg n r h2.symm
      · rw [h1] at h2; have := hg r n h2; omega

/-- The slot ids produced by `mkSlots` are pairwise distinct. -/
theorem mkSlots_id_nodup (N : Nat) : ((mkSlots N).map Slot.id).Nodup := by
  have hmap : (mkSlots N).map Slot.id
      = (List.range N).flatMap (fun r => [slotId 'L' r, slotId 'R' r])
        ++ (List.range N).flatMap (fun c => [slotId 'T' c, slotId 'B' c]) := by
    unfold mkSlots
    rw [List.map_append, List.map_flatMap, List.map_flatMap]
    rfl
  rw [hmap, List.nodup_append]
  refine ⟨?_, ?_, ?_⟩
  · exact nodup_pairs_flatMap _ _ (fun i j h => (slotId_injective h).2)
      (fun i j h => (slotId_injective h).2)
      (fun i j h => by have := (slotId_injective h).1; exact absurd this (by decide)) N
  · exact nodup_pairs_flatMap _ _ (fun i j h => (slotId_injective h).2)
      (fun i j h => (slotId_injective h).2)
      (fun i j h => by have := (slotId_injective h).1; exact absurd this (by decide)) N
  · intro x hx hx'
    obtain ⟨r, _, hxr⟩ := List.mem_flatMap.mp hx
    obtain ⟨c, _, hxc⟩ := List.mem_flatMap.mp hx'
    simp only [List.mem_cons, List.not_mem_nil, or_false] at hxr hxc
    rcases hxr with h1 | h1 <;> rcases hxc with h2 | h2 <;>
      (rw [h1] at h2; have := (slotId_injective h2).1; exact absurd this (by decide))

/-- Distinct indices into a slot array with pairwise-distinct ids carry
distinct ids. -/
theorem slots_getD_id_inj {slots : List Slot} (hnd : (slots.map Slot.id).Nodup)
    {i j : Nat} (hi : i < slots.length) (hj : j < slots.length)
    (h : (slots.getD i ⟨"", "", 0⟩).id = (slots.getD j ⟨"", "", 0⟩).id) :
    i = j := by
  have hinj := List.nodup_iff_injective_get.mp hnd
  have hi' : i < (slots.map Slot.id).length := by
    rw [List.length_map]; exact hi
  have hj' : j < (slots.map Slot.id).length := by
    rw [List.length_map]; exact hj
  have hgi : (slots.map Slot.id).get ⟨i, hi'⟩ = (slots.getD i ⟨"", "", 0⟩).id := by
    rw [List.get_eq_getElem, List.getElem_map, List.getD_eq_getElem _ _ hi]
  have hgj : (slots.map Slot.id).get ⟨j, hj'⟩ = (slots.getD j ⟨"", "", 0⟩).id := by
    rw [List.get_eq_getElem, List.getElem_map, List.getD_eq_getElem _ _ hj]
  have heq := @hinj ⟨i, hi'⟩ ⟨j, hj'⟩ (by rw [hgi, hgj, h])
  exact congrArg Fin.val heq

/-- Values stored by a `set`-fold of bounded values stay bounded. -/
theorem foldl_set_val_bound {n : Nat} :
    ∀ (l : List (Nat × Slot)) (m0 : JsMap String Nat),
      (∀ p ∈ l, p.1 < n) → (∀ id vi, JsMap.get? m0 id = some vi → vi < n) →
      ∀ id vi, JsMap.get? (l.foldl (fun m p => JsMap.set m p.2.id p.1) m0) id = some vi →
        vi < n := by
  intro l
  induction l with
  | nil => intro m0 _ hm0; exact hm0
  | cons p l ih =>
    intro m0 hl hm0 id vi h
    refine ih _ (fun q hq => hl q (List.mem_cons_of_mem _ hq)) ?_ id vi h
    intro id2 vi2 h2
    by_cases hid : id2 = p.2.id
    · subst hid
      rw [JsMap.get?_set_self] at h2
      injection h2 with h2
      rw [← h2]
      exact hl p (List.mem_cons_self p l)
    · rw [JsMap.get?_set_ne m0 p.2.id id2 p.1 hid] at h2
      exact hm0 id2 vi2 h2

/-- Every value of `slotIndex` is a valid index into the slot array. -/
theorem mkSlotIndex_lt (slots : List Slot) (id : String) (vi : Nat)
    (h : JsMap.get? (mkSlotIndex slots) id = some vi) : vi < slots.length := by
  refine foldl_set_val_bound slots.enum JsMap.empty ?_ ?_ id vi h
  · intro p hp
    have h3 := List.mem_enum_iff_getElem?.mp hp
    by_cases h4 : p.1 < slots.length
    · exact h4
    · rw [List.getElem?_eq_none (by omega)] at h3
      exact Option.noConfusion h3
  · intro id2 vi2 h2
    exact Option.noConfusion h2

/-- All adjacency entries produced by `buildAdjacency` are valid slot
indices. -/
theorem buildAdjacency_mem_lt (N : Nat) (difficulty : String)
    (rowLen colLen : Nat → Nat) (slots : List Slot) :
    ∀ (l : List (Nat × String)) (adjL : List (List Nat)),
      buildAdjacency N difficulty rowLen colLen (mkSlotIndex slots) l = some adjL →
      ∀ a ∈ adjL, ∀ v ∈ a, v < slots.length := by
  intro l
  induction l with
  | nil =>
    intro adjL h a ha v hv
    injection h with h
    rw [← h] at ha
    exact absurd ha (List.not_mem_nil a)
  | cons p l ih =>
    intro adjL h a ha v hv
    obtain ⟨u, key⟩ := p
    unfold buildAdjacency at h
    rcases hk : validKey? N key with _ | rc
    · rw [hk] at h; exact Option.noConfusion h
    · rw [hk] at h
      rcases hrest : buildAdjacency N difficulty rowLen colLen (mkSlotIndex slots) l
        with _ | tl
      · rw [hrest] at h; exact Option.noConfusion h
      · rw [hrest] at h
        simp only [Option.map_some] at h
        injection h with h
        rw [← h] at ha
        rcases List.mem_cons.mp ha with rfl | hmem
        · obtain ⟨id, _, hget⟩ := List.mem_filterMap.mp hv
          exact mkSlotIndex_lt slots id v hget
        · exact ih tl hrest a hmem v hv

/-- A fold that sets two maps componentwise is the pair of the component
folds. -/
theorem foldl_pair_set_proj {α1 β1 α2 β2 : Type} [DecidableEq α1] [DecidableEq α2]
    (k1 : Nat → α1) (v1 : Nat → β1) (k2 : Nat → α2) (v2 : Nat → β2) :
    ∀ (l : List Nat) (m1 : JsMap α1 β1) (m2 : JsMap α2 β2),
      l.foldl (fun acc u => (JsMap.set acc.1 (k1 u) (v1 u), JsMap.set acc.2 (k2 u) (v2 u)))
        (m1, m2)
      = (l.foldl (fun m u => JsMap.set m (k1 u) (v1 u)) m1,
         l.foldl (fun m u => JsMap.set m (k2 u) (v2 u)) m2) := by
  intro l
  induction l with
  | nil => intro m1 m2; rfl
  | cons a l ih =>
    intro m1 m2
    rw [List.foldl_cons, List.foldl_cons, List.foldl_cons]
    exact ih _ _

/-- Lookup in a `set`-fold over keys that are injective on a duplicate-free
index list: a hit names the unique writing index, a miss falls through. -/
theorem foldl_set_get?_some {α β γ : Type} [DecidableEq α] (k : γ → α) (v : γ → β) :
    ∀ (l : List γ), l.Nodup → (∀ i ∈ l, ∀ j ∈ l, k i = k j → i = j) →
    ∀ (m0 : JsMap α β) (key : α) (w : β),
      (JsMap.get? (l.foldl (fun m u => JsMap.set m (k u) (v u)) m0) key = some w ↔
        (∃ u ∈ l, k u = key ∧ w = v u) ∨
        ((∀ u ∈ l, k u ≠ key) ∧ JsMap.get? m0 key = some w)) := by
  intro l
  induction l with
  | nil =>
    intro _ _ m0 key w
    simp
  | cons a l ih =>
    intro hnd hinj m0 key w
    obtain ⟨hna, hndl⟩ := List.nodup_cons.mp hnd
    have hinj' : ∀ i ∈ l, ∀ j ∈ l, k i = k j → i = j := fun i hi j hj =>
      hinj i (List.mem_cons_of_mem _ hi) j (List.mem_cons_of_mem _ hj)
    rw [List.foldl_cons, ih hndl hinj' (JsMap.set m0 (k a) (v a)) key w]
    constructor
    · rintro (⟨u, hu, hk, hw⟩ | ⟨hall, hm⟩)
      · exact Or.inl ⟨u, List.mem_cons_of_mem _ hu, hk, hw⟩
      · by_cases hka : k a = key
        · have h2 : JsMap.get? (JsMap.set m0 (k a) (v a)) key = some (v a) := by
            rw [← hka]
            exact JsMap.get?_set_self m0 (k a) (v a)
          rw [h2] at hm
          injection hm with hm
          exact Or.inl ⟨a, List.mem_cons_self a l, hka, hm.symm⟩
        · refine Or.inr ⟨?_, ?_⟩
          · intro u hu
            rcases List.mem_cons.mp hu with rfl | hu2
            · exact hka
            · exact hall u hu2
          · rw [JsMap.get?_set_ne m0 (k a) key (v a) (fun h => hka h.symm)] at hm
            exact hm
    · rintro (⟨u, hu, hk, hw⟩ | ⟨hall, hm⟩)
      · rcases List.mem_cons.mp hu with rfl | hu2
        · refine Or.inr ⟨?_, ?_⟩
          · intro u2 hu2 hk2
            have heq : u2 = u := hinj u2 (List.mem_cons_of_mem _ hu2) u
              (List.mem_cons_self u l) (by rw [hk2, hk])
            exact absurd (heq ▸ hu2) hna
          · rw [← hk, JsMap.get?_set_self, hw]
        · exact Or.inl ⟨u, hu2, hk, hw⟩
      · have hka : k a ≠ key := hall a (List.mem_cons_self a l)
        refine Or.inr ⟨fun u hu => hall u (List.mem_cons_of_mem _ hu), ?_⟩
        rw [JsMap.get?_set_ne m0 (k a) key (v a) (fun h => hka h.symm)]
        exact hm

/-- `buildPairMaps` as a pair of componentwise `set`-folds. -/
theorem buildPairMaps_eq (cells : List String) (slots : List Slot)
    (pairU : Nat → Option Nat) (M : Nat) :
    buildPairMaps cells slots pairU M
      = ((List.range M).foldl (fun m u => JsMap.set m (cells.getD u "")
            (⟨(slots.getD ((pairU u).getD 0) ⟨"", "", 0⟩).side,
              (slots.getD ((pairU u).getD 0) ⟨"", "", 0⟩).index,
              (slots.getD ((pairU u).getD 0) ⟨"", "", 0⟩).id⟩ : SlotRef)) JsMap.empty,
         (List.range M).foldl (fun m u => JsMap.set m
            (slots.getD ((pairU u).getD 0) ⟨"", "", 0⟩).id (cells.getD u "")) JsMap.empty) := by
  unfold buildPairMaps
  exact foldl_pair_set_proj _ _ _ _ (List.range M) JsMap.empty JsMap.empty

/-- The heart of C4: a perfect Hopcroft–Karp matching makes `buildPairMaps`
produce a total, injective `byCell` with `bySlot` its exact inverse. -/
theorem assignOutsideSlots_core (cells : List String) (slots : List Slot)
    (adjL : List (List Nat)) (maps : JsMap String SlotRef × JsMap String String)
    (hnodup : cells.Nodup)
    (hM : cells.length + 1 < INF)
    (hadj : ∀ a ∈ adjL, ∀ v ∈ a, v < slots.length)
    (hids : (slots.map Slot.id).Nodup)
    (hrun : (hkRun (fun u => adjL.getD u []) cells.length).1 = cells.length)
    (hmaps : maps = buildPairMaps cells slots
      (hkRun (fun u => adjL.getD u []) cells.length).2.pairU cells.length) :
    (∀ kk, kk ∈ cells → (JsMap.get? maps.1 kk).isSome) ∧
    (∀ k1 k2 r1 r2, JsMap.get? maps.1 k1 = some r1 → JsMap.get? maps.1 k2 = some r2 →
      r1.id = r2.id → k1 = k2) ∧
    (∀ sid kk, JsMap.get? maps.2 sid = some kk ↔
      ∃ r, JsMap.get? maps.1 kk = some r ∧ r.id = sid) := by
  obtain ⟨hInv, hcnt⟩ := hkRun_spec (fun u => adjL.getD u []) cells.length hM
  set pU : Nat → Option Nat := (hkRun (fun u => adjL.getD u []) cells.length).2.pairU
    with hpUdef
  rw [hrun] at hcnt
  have htotal : ∀ u, u < cells.length → (pU u).isSome := matchedCount_total hcnt.symm
  have hvlt : ∀ u v, pU u = some v → v < slots.length := by
    intro u v h
    have hmem : v ∈ adjL.getD u [] := (hInv.2.2 u v h).2
    by_cases hu : u < adjL.length
    · have hgd : adjL.getD u [] = adjL[u] := List.getD_eq_getElem adjL [] hu
      rw [hgd] at hmem
      exact hadj adjL[u] (List.getElem_mem hu) v hmem
    · rw [List.getD_eq_getElem?_getD, List.getElem?_eq_none (by omega)] at hmem
      simp at hmem
  have huinj : ∀ u1 u2 v, pU u1 = some v → pU u2 = some v → u1 = u2 := by
    intro u1 u2 v h1 h2
    have hv1 := hInv.1 u1 v h1
    have hv2 := hInv.1 u2 v h2
    rw [hv1] at hv2
    injection hv2
  have hk1inj : ∀ i ∈ List.range cells.length, ∀ j ∈ List.range cells.length,
      cells.getD i "" = cells.getD j "" → i = j := by
    intro i hi j hj h
    have hi2 := List.mem_range.mp hi
    have hj2 := List.mem_range.mp hj
    rw [List.getD_eq_getElem cells "" hi2, List.getD_eq_getElem cells "" hj2] at h
    have hinj := List.nodup_iff_injective_get.mp hnodup
    have heq := @hinj ⟨i, hi2⟩ ⟨j, hj2⟩
      (by rw [List.get_eq_getElem, List.get_eq_getElem]; exact h)
    exact congrArg Fin.val heq
  have hk2inj : ∀ i ∈ List.range cells.length, ∀ j ∈ List.range cells.length,
      (slots.getD ((pU i).getD 0) ⟨"", "", 0⟩).id
        = (slots.getD ((pU j).getD 0) ⟨"", "", 0⟩).id → i = j := by
    intro i hi j hj h
    have hi2 := List.mem_range.mp hi
    have hj2 := List.mem_range.mp hj
    rcases hpi : pU i with _ | vi
    · have := htotal i hi2; rw [hpi] at this; exact absurd this (by simp)
    rcases hpj : pU j with _ | vj
    · have := htotal j hj2; rw [hpj] at this; exact absurd this (by simp)
    rw [hpi, hpj] at h
    simp only [Option.getD_some] at h
    have hvij := slots_getD_id_inj hids (hvlt i vi hpi) (hvlt j vj hpj) h
    rw [hvij] at hpi
    exact huinj i j vj hpi hpj
  have hchar1 := foldl_set_get?_some (fun u => cells.getD u "")
    (fun u => (⟨(slots.getD ((pU u).getD 0) ⟨"", "", 0⟩).side,
      (slots.getD ((pU u).getD 0) ⟨"", "", 0⟩).index,
      (slots.getD ((pU u).getD 0) ⟨"", "", 0⟩).id⟩ : SlotRef))
    (List.range cells.length) (List.nodup_range _) hk1inj JsMap.empty
  have hchar2 := foldl_set_get?_some
    (fun u => (slots.getD ((pU u).getD 0) ⟨"", "", 0⟩).id)
    (fun u => cells.getD u "")
    (List.range cells.length) (List.nodup_range _) hk2inj JsMap.empty
  rw [buildPairMaps_eq] at hmaps
  refine ⟨?_, ?_, ?_⟩
  · intro kk hkk
    obtain ⟨⟨u, hu⟩, hget⟩ := List.mem_iff_get.mp hkk
    have hkeq : cells.getD u "" = kk := by
      rw [List.getD_eq_getElem cells "" hu]
      exact hget
    have hsome := (hchar1 kk _).mpr
      (Or.inl ⟨u, List.mem_range.mpr hu, hkeq, rfl⟩)
    rw [hmaps]
    rw [hsome]
    rfl
  · intro k1 k2 r1 r2 h1 h2 hid
    rw [hmaps] at h1 h2
    rcases (hchar1 k1 r1).mp h1 with ⟨u1, hu1, hk1, hr1⟩ | ⟨_, habs⟩
    · rcases (hchar1 k2 r2).mp h2 with ⟨u2, hu2, hk2, hr2⟩ | ⟨_, habs⟩
      · rw [hr1, hr2] at hid
        have heq : u1 = u2 := hk2inj u1 hu1 u2 hu2 hid
        rw [← hk1, ← hk2, heq]
      · exact Option.noConfusion habs
    · exact Option.noConfusion habs
  · intro sid kk
    rw [hmaps]
    constructor
    · intro h
      rcases (hchar2 sid kk).mp h with ⟨u, hu, hk2, hkk⟩ | ⟨_, habs⟩
      · refine ⟨⟨(slots.getD ((pU u).getD 0) ⟨"", "", 0⟩).side,
          (slots.getD ((pU u).getD 0) ⟨"", "", 0⟩).index,
          (slots.getD ((pU u).getD 0) ⟨"", "", 0⟩).id⟩, ?_, ?_⟩
        · exact (hchar1 kk _).mpr (Or.inl ⟨u, hu, hkk.symm, rfl⟩)
        · exact hk2
      · exact Option.noConfusion habs
    · rintro ⟨r, hr, hid⟩
      rcases (hchar1 kk r).mp hr with ⟨u, hu, hk1, hrv⟩ | ⟨_, habs⟩
      · refine (hchar2 sid kk).mpr (Or.inl ⟨u, hu, ?_, hk1.symm⟩)
        rw [hrv] at hid
        exact hid
      · exact Option.noConfusion habs

/-- **C4** — confirmed (under two modelling side conditions: the letters map
is a genuine map, i.e. its keys are pairwise distinct, and it has fewer than
`INF = 1e9` cells so the source's `INF` sentinel behaves as infinity).
Whenever `assignOutsideSlots` returns a non-null assignment, `byCell` is total
on the keys of `letters` and injective into slot ids, and `bySlot` is its
exact inverse on occupied slots. -/
theorem claim_C4_byCell_bijection (grid : List (List Nat)) (letters : JsMap String Char)
    (difficulty : String) (a : SingleAssignment)
    (hnodup : (JsMap.keys letters).Nodup)
    (hsize : (JsMap.keys letters).length + 1 < INF)
    (h : assignOutsideSlots grid letters difficulty = some a) :
    (∀ k, k ∈ JsMap.keys letters → (JsMap.get? a.byCell k).isSome) ∧
    (∀ k1 k2 r1 r2, JsMap.get? a.byCell k1 = some r1 → JsMap.get? a.byCell k2 = some r2 →
      r1.id = r2.id → k1 = k2) ∧
    (∀ s k, JsMap.get? a.bySlot s = some k ↔
      ∃ r, JsMap.get? a.byCell k = some r ∧ r.id = s) := by
  simp only [assignOutsideSlots] at h
  by_cases hMK : (JsMap.keys letters).length > (mkSlots grid.length).length
  · rw [if_pos hMK] at h
    exact Option.noConfusion h
  · rw [if_neg hMK] at h
    rcases hadjm : buildAdjacency grid.length difficulty (rowLenF grid grid.length)
        (colLenF grid grid.length) (mkSlotIndex (mkSlots grid.length))
        (JsMap.keys letters).enum with _ | adjL
    · rw [hadjm] at h
      exact Option.noConfusion h
    · simp only [hadjm] at h
      by_cases hrn : (hkRun (fun u => adjL.getD u []) (JsMap.keys letters).length).1
          ≠ (JsMap.keys letters).length
      · rw [if_pos hrn] at h
        exact Option.noConfusion h
      · rw [if_neg hrn] at h
        injection h with h
        obtain ⟨c1, c2, c3⟩ := assignOutsideSlots_core (JsMap.keys letters)
          (mkSlots grid.length) adjL
          (buildPairMaps (JsMap.keys letters) (mkSlots grid.length)
            (hkRun (fun u => adjL.getD u []) (JsMap.keys letters).length).2.pairU
            (JsMap.keys letters).length)
          hnodup hsize
          (buildAdjacency_mem_lt grid.length difficulty (rowLenF grid grid.length)
            (colLenF grid grid.length) (mkSlots grid.length)
            (JsMap.keys letters).enum adjL hadjm)
          (mkSlots_id_nodup grid.length)
          (not_ne_iff.mp hrn) rfl
        rw [← h]
        exact ⟨c1, c2, c3⟩

/-- Witness for C4: the 1×1 grid with a single letter cell. -/
theorem claim_C4_witness :
    ∃ a, assignOutsideSlots [[1]] [("0,0", 'A')] "balanced" = some a ∧
      ((∀ k, k ∈ JsMap.keys [("0,0", 'A')] → (JsMap.get? a.byCell k).isSome) ∧
       (∀ k1 k2 r1 r2, JsMap.get? a.byCell k1 = some r1 →
         JsMap.get? a.byCell k2 = some r2 → r1.id = r2.id → k1 = k2) ∧
       (∀ s k, JsMap.get? a.bySlot s = some k ↔
         ∃ r, JsMap.get? a.byCell k = some r ∧ r.id = s)) := by
  rcases hres : assignOutsideSlots [[1]] [("0,0", 'A')] "balanced" with _ | a
  · exact absurd hres (by decide)
  · exact ⟨a, rfl, claim_C4_byCell_bijection [[1]] [("0,0", 'A')] "balanced" a
      (by decide) (by decide) hres⟩

/-! ## Hopcroft–Karp progress (towards C2) -/

/-- A pointwise-stronger predicate filters at least as many elements. -/
theorem filter_length_mono {f g : Nat → Bool} :
    ∀ l : List Nat, (∀ a ∈ l, f a = true → g a = true) →
      (l.filter f).length ≤ (l.filter g).length := by
  intro l
  induction l with
  | nil => intro _; exact Nat.le_refl _
  | cons a l ih =>
    intro h
    have hrec := ih (fun b hb => h b (List.mem_cons_of_mem _ hb))
    by_cases hfa : f a = true
    · have hga := h a (List.mem_cons_self a l) hfa
      rw [List.filter_cons, if_pos hfa, List.filter_cons, if_pos hga]
      simpa using hrec
    · rw [List.filter_cons, if_neg hfa]
      refine hrec.trans ?_
      rw [List.filter_cons]
      by_cases hga : g a = true
      · rw [if_pos hga]; exact Nat.le_succ _
      · rw [if_neg hga]

theorem matchedCount_mono {M : Nat} {s s' : HKState}
    (h : ∀ w, (s.pairU w).isSome → (s'.pairU w).isSome) :
    matchedCount M s ≤ matchedCount M s' := by
  unfold matchedCount
  exact filter_length_mono (List.range M) (fun a _ ha => h a ha)

/-- Some matched in-range vertex makes `matchedCount` positive. -/
theorem matchedCount_pos {M : Nat} {s : HKState} {u : Nat} (hu : u < M)
    (h : (s.pairU u).isSome) : 1 ≤ matchedCount M s := by
  unfold matchedCount
  have hmem : u ∈ (List.range M).filter (fun w => (s.pairU w).isSome) :=
    List.mem_filter.mpr ⟨List.mem_range.mpr hu, h⟩
  have hne : (List.range M).filter (fun w => (s.pairU w).isSome) ≠ [] := by
    intro hnil
    rw [hnil] at hmem
    exact absurd hmem (List.not_mem_nil u)
  exact List.length_pos.mpr hne

/-- The sweep never decreases the counter. -/
theorem dfsSweep_counter_le (adj : Nat → List Nat) (dfsFuel : Nat) :
    ∀ (us : List Nat) (s : HKState) (matching : Nat),
      matching ≤ (dfsSweep adj dfsFuel us s matching).1 := by
  intro us
  induction us with
  | nil => intro s matching; exact Nat.le_refl _
  | cons u us ih =>
    intro s matching
    by_cases hpu : s.pairU u = none
    · rcases hres : dfs adj dfsFuel s u with ⟨b, s1⟩
      cases b with
      | false =>
        have hout : dfsSweep adj dfsFuel (u :: us) s matching
            = dfsSweep adj dfsFuel us s1 matching := by
          simp only [dfsSweep, if_pos hpu, hres]
        rw [hout]
        exact ih s1 matching
      | true =>
        have hout : dfsSweep adj dfsFuel (u :: us) s matching
            = dfsSweep adj dfsFuel us s1 (matching + 1) := by
          simp only [dfsSweep, if_pos hpu, hres]
        rw [hout]
        exact (Nat.le_succ matching).trans (ih s1 (matching + 1))
    · have hout : dfsSweep adj dfsFuel (u :: us) s matching
          = dfsSweep adj dfsFuel us s matching := by
        simp only [dfsSweep, if_neg hpu]
      rw [hout]
      exact ih s matching

/-- The phase loop never unmatches a vertex. -/
theorem hkLoop_mono (adj : Nat → List Nat) (M : Nat) (hM : M + 1 < INF) :
    ∀ (fuel : Nat) (s : HKState) (matching : Nat), HKInv adj M s →
      ∀ w, (s.pairU w).isSome → ((hkLoop adj M fuel s matching).2.pairU w).isSome := by
  intro fuel
  induction fuel with
  | zero => intro s matching _ w h; exact h
  | succ n ihn =>
    intro s matching hInv w h
    have hpv : ∀ v u2, s.pairV v = some u2 → u2 < M := by
      intro v u2 hx
      exact (hInv.2.2 u2 v (hInv.2.1 v u2 hx)).1
    obtain ⟨b1, b2⟩ := bfs_dist_spec adj M s.pairU s.pairV hM hpv
    have hInv' : HKInv adj M { s with dist := (bfs adj M s.pairU s.pairV).1 } := hInv
    by_cases hfound : (bfs adj M s.pairU s.pairV).2 = true
    · have hout : hkLoop adj M (n + 1) s matching
          = hkLoop adj M n
              (dfsSweep adj (2 * M + 2) (List.range M)
                { s with dist := (bfs adj M s.pairU s.pairV).1 } matching).2
              (dfsSweep adj (2 * M + 2) (List.range M)
                { s with dist := (bfs adj M s.pairU s.pairV).1 } matching).1 := by
        simp only [hkLoop, hfound, if_true]
      rw [hout]
      obtain ⟨w1, _, w3⟩ := dfsSweep_spec adj M hM (2 * M + 2) (List.range M)
        { s with dist := (bfs adj M s.pairU s.pairV).1 } matching hInv'
        (List.nodup_range M) (fun u hu => List.mem_range.mp hu)
        b1 (fun u _ hufree => by
          show (bfs adj M s.pairU s.pairV).1 u ≤ M
          rw [b2 u hufree]
          exact Nat.zero_le M)
      exact ihn _ _ w1 w (w3 w h)
    · have hout : hkLoop adj M (n + 1) s matching
          = (matching, { s with dist := (bfs adj M s.pairU s.pairV).1 }) := by
        simp only [hkLoop]
        rw [if_neg hfound]
      rw [hout]
      exact h

theorem bfsScan_found_mono (pairV : Nat → Option Nat) (u : Nat) :
    ∀ (vs : List Nat) (dist : Nat → Nat) (acc : List Nat),
      (bfsScan pairV u vs dist true acc).2.1 = true := by
  intro vs
  induction vs with
  | nil => intro dist acc; rfl
  | cons v vs ih =>
    intro dist acc
    rcases hv : pairV v with _ | u2
    · have hout : bfsScan pairV u (v :: vs) dist true acc
          = bfsScan pairV u vs dist true acc := by
        simp only [bfsScan, hv]
      rw [hout]; exact ih dist acc
    · by_cases hd : dist u2 = INF
      · have hout : bfsScan pairV u (v :: vs) dist true acc
            = bfsScan pairV u vs (upd dist u2 (dist u + 1)) true (acc ++ [u2]) := by
          simp only [bfsScan, hv, if_pos hd]
        rw [hout]; exact ih _ _
      · have hout : bfsScan pairV u (v :: vs) dist true acc
            = bfsScan pairV u vs dist true acc := by
          simp only [bfsScan, hv, if_neg hd]
        rw [hout]; exact ih dist acc

theorem bfsScan_found_free (pairV : Nat → Option Nat) (u : Nat) :
    ∀ (vs : List Nat) (dist : Nat → Nat) (found : Bool) (acc : List Nat),
      (∃ v ∈ vs, pairV v = none) →
      (bfsScan pairV u vs dist found acc).2.1 = true := by
  intro vs
  induction vs with
  | nil =>
    intro dist found acc h
    obtain ⟨v, hv, _⟩ := h
    exact absurd hv (List.not_mem_nil v)
  | cons v vs ih =>
    intro dist found acc h
    rcases hv : pairV v with _ | u2
    · have hout : bfsScan pairV u (v :: vs) dist found acc
          = bfsScan pairV u vs dist true acc := by
        simp only [bfsScan, hv]
      rw [hout]
      exact bfsScan_found_mono pairV u vs dist acc
    · obtain ⟨v2, hv2, hfree⟩ := h
      rcases List.mem_cons.mp hv2 with rfl | hv2'
      · rw [hv] at hfree; exact Option.noConfusion hfree
      · by_cases hd : dist u2 = INF
        · have hout : bfsScan pairV u (v :: vs) dist found acc
              = bfsScan pairV u vs (upd dist u2 (dist u + 1)) found (acc ++ [u2]) := by
            simp only [bfsScan, hv, if_pos hd]
          rw [hout]
          exact ih _ _ _ ⟨v2, hv2', hfree⟩
        · have hout : bfsScan pairV u (v :: vs) dist found acc
              = bfsScan pairV u vs dist found acc := by
            simp only [bfsScan, hv, if_neg hd]
          rw [hout]
          exact ih _ _ _ ⟨v2, hv2', hfree⟩

theorem bfsLoop_found_mono (adj : Nat → List Nat) (pairV : Nat → Option Nat) :
    ∀ (fuel : Nat) (pending : List Nat) (dist : Nat → Nat),
      (bfsLoop adj pairV fuel pending dist true).2 = true := by
  intro fuel
  induction fuel with
  | zero => intro pending dist; rfl
  | succ n ihn =>
    intro pending dist
    cases pending with
    | nil => rfl
    | cons u rest =>
      have hout : bfsLoop adj pairV (n + 1) (u :: rest) dist true
          = bfsLoop adj pairV n
              (rest ++ (bfsScan pairV u (adj u) dist true []).2.2)
              (bfsScan pairV u (adj u) dist true []).1
              (bfsScan pairV u (adj u) dist true []).2.1 := by
        simp only [bfsLoop]
      rw [hout, bfsScan_found_mono pairV u (adj u) dist []]
      exact ihn _ _

/-- On the empty matching with a vertex to process, `bfs` reports a free
slot. -/
theorem bfs_found_all_free (adj : Nat → List Nat) (M : Nat) (hM1 : 1 ≤ M)
    (hadj0 : adj 0 ≠ []) :
    (bfs adj M (fun _ => none) (fun _ => none)).2 = true := by
  obtain ⟨m, rfl⟩ : ∃ m, M = m + 1 := ⟨M - 1, by omega⟩
  have hfilter : (List.range (m + 1)).filter
      (fun u => (fun (_ : Nat) => (none : Option Nat)) u = none) = List.range (m + 1) := by
    simp
  show (bfsLoop adj (fun _ => none) (2 * (m + 1) + 1)
    ((List.range (m + 1)).filter (fun u => (fun (_ : Nat) => (none : Option Nat)) u = none))
    (fun u => if (fun (_ : Nat) => (none : Option Nat)) u = none then 0 else INF)
    false).2 = true
  rw [hfilter, List.range_succ_eq_map]
  rcases hadj : adj 0 with _ | ⟨v, vs⟩
  · exact absurd hadj hadj0
  · have hout : (bfsLoop adj (fun _ => none) (2 * (m + 1) + 1)
        (0 :: (List.range m).map Nat.succ)
        (fun u => if (fun (_ : Nat) => (none : Option Nat)) u = none then 0 else INF)
        false)
        = bfsLoop adj (fun _ => none) (2 * (m + 1))
            ((List.range m).map Nat.succ
              ++ (bfsScan (fun _ => none) 0 (adj 0)
                (fun u => if (fun (_ : Nat) => (none : Option Nat)) u = none then 0 else INF)
                false []).2.2)
            (bfsScan (fun _ => none) 0 (adj 0)
              (fun u => if (fun (_ : Nat) => (none : Option Nat)) u = none then 0 else INF)
              false []).1
            (bfsScan (fun _ => none) 0 (adj 0)
              (fun u => if (fun (_ : Nat) => (none : Option Nat)) u = none then 0 else INF)
              false []).2.1 := by
      simp only [bfsLoop]
    rw [hout]
    have hvmem : v ∈ adj 0 := by rw [hadj]; exact List.mem_cons_self v vs
    rw [bfsScan_found_free (fun _ => none) 0 (adj 0) _ false [] ⟨v, hvmem, rfl⟩]
    exact bfsLoop_found_mono adj (fun _ => none) _ _ _

/-- With at least one cell and a nonempty first adjacency list, a full
Hopcroft–Karp run matches at least one cell. -/
theorem hkRun_pos (adj : Nat → List Nat) (M : Nat) (hM : M + 1 < INF)
    (hM1 : 1 ≤ M) (hadj0 : adj 0 ≠ []) : 1 ≤ (hkRun adj M).1 := by
  obtain ⟨m, rfl⟩ : ∃ m, M = m + 1 := ⟨M - 1, by omega⟩
  have hInv0 : HKInv adj (m + 1) ⟨fun _ => none, fun _ => none, fun _ => 0⟩ := by
    refine ⟨?_, ?_, ?_⟩ <;> intro a b h <;> exact Option.noConfusion h
  have hfound : (bfs adj (m + 1) (fun _ => none) (fun _ => none)).2 = true :=
    bfs_found_all_free adj (m + 1) hM1 hadj0
  have hout : hkRun adj (m + 1)
      = hkLoop adj (m + 1) (m + 1 + 1) ⟨fun _ => none, fun _ => none, fun _ => 0⟩ 0 := rfl
  rw [hout]
  have hout2 : hkLoop adj (m + 1) (m + 1 + 1) ⟨fun _ => none, fun _ => none, fun _ => 0⟩ 0
      = hkLoop adj (m + 1) (m + 1)
          (dfsSweep adj (2 * (m + 1) + 2) (List.range (m + 1))
            { pairU := fun _ => none, pairV := fun _ => none,
              dist := (bfs adj (m + 1) (fun _ => none) (fun _ => none)).1 } 0).2
          (dfsSweep adj (2 * (m + 1) + 2) (List.range (m + 1))
            { pairU := fun _ => none, pairV := fun _ => none,
              dist := (bfs adj (m + 1) (fun _ => none) (fun _ => none)).1 } 0).1 := by
    simp only [hkLoop, hfound, if_true]
  rw [hout2]
  rcases hadj : adj 0 with _ | ⟨v, vs⟩
  · exact absurd hadj hadj0
  have hsw1 : 1 ≤ (dfsSweep adj (2 * (m + 1) + 2) (List.range (m + 1))
      { pairU := fun _ => none, pairV := fun _ => none,
        dist := (bfs adj (m + 1) (fun _ => none) (fun _ => none)).1 } 0).1 := by
    rw [List.range_succ_eq_map]
    have hdfs : dfs adj (2 * (m + 1) + 2)
        { pairU := fun _ => none, pairV := fun _ => none,
          dist := (bfs adj (m + 1) (fun _ => none) (fun _ => none)).1 } 0
        = (true, { pairU := upd (fun _ => none) 0 (some v),
                   pairV := upd (fun _ => none) v (some 0),
                   dist := (bfs adj (m + 1) (fun _ => none) (fun _ => none)).1 }) := by
      show dfsGo _ _ 0 (adj 0) = _
      rw [hadj]
      simp only [dfsGo]
    have hout3 : dfsSweep adj (2 * (m + 1) + 2)
        (0 :: (List.range m).map Nat.succ)
        { pairU := fun _ => none, pairV := fun _ => none,
          dist := (bfs adj (m + 1) (fun _ => none) (fun _ => none)).1 } 0
        = dfsSweep adj (2 * (m + 1) + 2) ((List.range m).map Nat.succ)
            { pairU := upd (fun _ => none) 0 (some v),
              pairV := upd (fun _ => none) v (some 0),
              dist := (bfs adj (m + 1) (fun _ => none) (fun _ => none)).1 } 1 := by
      simp only [dfsSweep, hdfs]
      simp
    rw [hout3]
    exact dfsSweep_counter_le adj (2 * (m + 1) + 2) _ _ 1
  have hpv0 : ∀ v2 u2, (fun (_ : Nat) => (none : Option Nat)) v2 = some u2 → u2 < m + 1 := by
    intro v2 u2 h
    exact Option.noConfusion h
  obtain ⟨b1, b2⟩ := bfs_dist_spec adj (m + 1) (fun _ => none) (fun _ => none) hM hpv0
  obtain ⟨w1, w2, _⟩ := dfsSweep_spec adj (m + 1) hM (2 * (m + 1) + 2) (List.range (m + 1))
    { pairU := fun _ => none, pairV := fun _ => none,
      dist := (bfs adj (m + 1) (fun _ => none) (fun _ => none)).1 } 0 hInv0
    (List.nodup_range (m + 1)) (fun u hu => List.mem_range.mp hu)
    b1 (fun u _ _ => by
      show (bfs adj (m + 1) (fun _ => none) (fun _ => none)).1 u ≤ m + 1
      rw [b2 u rfl]
      exact Nat.zero_le (m + 1))
  obtain ⟨k1, k2⟩ := hkLoop_spec adj (m + 1) hM (m + 1)
    (dfsSweep adj (2 * (m + 1) + 2) (List.range (m + 1))
      { pairU := fun _ => none, pairV := fun _ => none,
        dist := (bfs adj (m + 1) (fun _ => none) (fun _ => none)).1 } 0).2
    (dfsSweep adj (2 * (m + 1) + 2) (List.range (m + 1))
      { pairU := fun _ => none, pairV := fun _ => none,
        dist := (bfs adj (m + 1) (fun _ => none) (fun _ => none)).1 } 0).1 w1
  have hmono := hkLoop_mono adj (m + 1) hM (m + 1)
    (dfsSweep adj (2 * (m + 1) + 2) (List.range (m + 1))
      { pairU := fun _ => none, pairV := fun _ => none,
        dist := (bfs adj (m + 1) (fun _ => none) (fun _ => none)).1 } 0).2
    (dfsSweep adj (2 * (m + 1) + 2) (List.range (m + 1))
      { pairU := fun _ => none, pairV := fun _ => none,
        dist := (bfs adj (m + 1) (fun _ => none) (fun _ => none)).1 } 0).1 w1
  have hcm := @matchedCount_mono (m + 1) _ _ (fun w h => hmono w h)
  omega

/-! ## The multi-wave assigner (towards C2) -/

theorem recordWave_eq (slots : List Slot) (remaining : List (String × Nat))
    (pairU : Nat → Option Nat) (wave : Nat) (M : Nat)
    (byCell : JsMap String WaveRef) (queues : JsMap String (List String)) :
    recordWave slots remaining pairU wave M byCell queues
      = (List.range M).foldl (rwStep slots remaining pairU wave) (byCell, queues) := rfl

/-- Characterization of the `recordWave` fold: each matched vertex writes its
cell into `byCell` tagged with this wave and appends it to its slot's queue;
all other entries of both maps are untouched. -/
theorem rwStep_foldl_spec (slots : List Slot) (remaining : List (String × Nat))
    (pairU : Nat → Option Nat) (wave : Nat) :
    ∀ (l : List Nat), l.Nodup →
      (∀ u1 ∈ l, ∀ u2 ∈ l, (pairU u1).isSome → (pairU u2).isSome →
        (remaining.getD u1 ("", 0)).1 = (remaining.getD u2 ("", 0)).1 → u1 = u2) →
      (∀ u1 ∈ l, ∀ u2 ∈ l, ∀ v1 v2, pairU u1 = some v1 → pairU u2 = some v2 →
        (slots.getD v1 ⟨"", "", 0⟩).id = (slots.getD v2 ⟨"", "", 0⟩).id → u1 = u2) →
      ∀ (byCell : JsMap String WaveRef) (queues : JsMap String (List String)),
      (∀ k, (∀ u ∈ l, ∀ v, pairU u = some v → (remaining.getD u ("", 0)).1 ≠ k) →
        JsMap.get? (l.foldl (rwStep slots remaining pairU wave) (byCell, queues)).1 k
          = JsMap.get? byCell k) ∧
      (∀ u ∈ l, ∀ v, pairU u = some v →
        JsMap.get? (l.foldl (rwStep slots remaining pairU wave) (byCell, queues)).1
            (remaining.getD u ("", 0)).1
          = some ⟨(slots.getD v ⟨"", "", 0⟩).side, (slots.getD v ⟨"", "", 0⟩).index,
              (slots.getD v ⟨"", "", 0⟩).id, wave⟩) ∧
      (∀ sid, (∀ u ∈ l, ∀ v, pairU u = some v → (slots.getD v ⟨"", "", 0⟩).id ≠ sid) →
        JsMap.get? (l.foldl (rwStep slots remaining pairU wave) (byCell, queues)).2 sid
          = JsMap.get? queues sid) ∧
      (∀ u ∈ l, ∀ v, pairU u = some v →
        JsMap.get? (l.foldl (rwStep slots remaining pairU wave) (byCell, queues)).2
            (slots.getD v ⟨"", "", 0⟩).id
          = some ((JsMap.get? queues (slots.getD v ⟨"", "", 0⟩).id).getD []
              ++ [(remaining.getD u ("", 0)).1])) := by
  intro l
  induction l with
  | nil =>
    intro _ _ _ byCell queues
    refine ⟨fun k _ => rfl, ?_, fun sid _ => rfl, ?_⟩
    · intro u hu; exact absurd hu (List.not_mem_nil u)
    · intro u hu; exact absurd hu (List.not_mem_nil u)
  | cons u l ih =>
    intro hnd hck hsid byCell queues
    obtain ⟨hnu, hndl⟩ := List.nodup_cons.mp hnd
    have hck' : ∀ u1 ∈ l, ∀ u2 ∈ l, (pairU u1).isSome → (pairU u2).isSome →
        (remaining.getD u1 ("", 0)).1 = (remaining.getD u2 ("", 0)).1 → u1 = u2 :=
      fun u1 h1 u2 h2 => hck u1 (List.mem_cons_of_mem _ h1) u2 (List.mem_cons_of_mem _ h2)
    have hsid' : ∀ u1 ∈ l, ∀ u2 ∈ l, ∀ v1 v2, pairU u1 = some v1 → pairU u2 = some v2 →
        (slots.getD v1 ⟨"", "", 0⟩).id = (slots.getD v2 ⟨"", "", 0⟩).id → u1 = u2 :=
      fun u1 h1 u2 h2 => hsid u1 (List.mem_cons_of_mem _ h1) u2 (List.mem_cons_of_mem _ h2)
    rcases hpu : pairU u with _ | v
    · have hstep : rwStep slots remaining pairU wave (byCell, queues) u
          = (byCell, queues) := by
        simp only [rwStep, hpu]
      rw [List.foldl_cons, hstep]
      obtain ⟨i1, i2, i3, i4⟩ := ih hndl hck' hsid' byCell queues
      refine ⟨?_, ?_, ?_, ?_⟩
      · intro k hk
        exact i1 k (fun u2 h2 v2 hv2 => hk u2 (List.mem_cons_of_mem _ h2) v2 hv2)
      · intro w hw v2 hv2
        rcases List.mem_cons.mp hw with rfl | hw2
        · rw [hpu] at hv2; exact Option.noConfusion hv2
        · exact i2 w hw2 v2 hv2
      · intro sid hs
        exact i3 sid (fun u2 h2 v2 hv2 => hs u2 (List.mem_cons_of_mem _ h2) v2 hv2)
      · intro w hw v2 hv2
        rcases List.mem_cons.mp hw with rfl | hw2
        · rw [hpu] at hv2; exact Option.noConfusion hv2
        · exact i4 w hw2 v2 hv2
    · have hstep : rwStep slots remaining pairU wave (byCell, queues) u
          = (JsMap.set byCell (remaining.getD u ("", 0)).1
               ⟨(slots.getD v ⟨"", "", 0⟩).side, (slots.getD v ⟨"", "", 0⟩).index,
                 (slots.getD v ⟨"", "", 0⟩).id, wave⟩,
             JsMap.set queues (slots.getD v ⟨"", "", 0⟩).id
               ((JsMap.get? queues (slots.getD v ⟨"", "", 0⟩).id).getD []
                 ++ [(remaining.getD u ("", 0)).1])) := by
        simp only [rwStep, hpu]
      rw [List.foldl_cons, hstep]
      obtain ⟨i1, i2, i3, i4⟩ := ih hndl hck' hsid' _ _
      have hckne : ∀ w ∈ l, ∀ v2, pairU w = some v2 →
          (remaining.getD w ("", 0)).1 ≠ (remaining.getD u ("", 0)).1 := by
        intro w hw v2 hv2 heq
        have := hck w (List.mem_cons_of_mem _ hw) u (List.mem_cons_self u l)
          (by rw [hv2]; rfl) (by rw [hpu]; rfl) heq
        exact hnu (this ▸ hw)
      have hsidne : ∀ w ∈ l, ∀ v2, pairU w = some v2 →
          (slots.getD v2 ⟨"", "", 0⟩).id ≠ (slots.getD v ⟨"", "", 0⟩).id := by
        intro w hw v2 hv2 heq
        have := hsid w (List.mem_cons_of_mem _ hw) u (List.mem_cons_self u l)
          v2 v hv2 hpu heq
        exact hnu (this ▸ hw)
      refine ⟨?_, ?_, ?_, ?_⟩
      · intro k hk
        have hres := i1 k (fun u2 h2 v2 hv2 => hk u2 (List.mem_cons_of_mem _ h2) v2 hv2)
        rw [hres]
        exact JsMap.get?_set_ne byCell _ k _
          (fun h2 => hk u (List.mem_cons_self u l) v hpu h2.symm)
      · intro w hw v2 hv2
        rcases List.mem_cons.mp hw with rfl | hw2
        · rw [hpu] at hv2
          injection hv2 with hv2
          subst hv2
          have hres := i1 (remaining.getD w ("", 0)).1 (fun u2 h2 v3 hv3 =>
            hckne u2 h2 v3 hv3)
          rw [hres, JsMap.get?_set_self]
        · exact i2 w hw2 v2 hv2
      · intro sid hs
        have hres := i3 sid (fun u2 h2 v2 hv2 => hs u2 (List.mem_cons_of_mem _ h2) v2 hv2)
        rw [hres]
        exact JsMap.get?_set_ne queues _ sid _
          (fun h2 => hs u (List.mem_cons_self u l) v hpu h2.symm)
      · intro w hw v2 hv2
        rcases List.mem_cons.mp hw with rfl | hw2
        · rw [hpu] at hv2
          injection hv2 with hv2
          subst hv2
          have hres := i3 (slots.getD v ⟨"", "", 0⟩).id (fun u2 h2 v3 hv3 =>
            hsidne u2 h2 v3 hv3)
          rw [hres, JsMap.get?_set_self]
        · have hres := i4 w hw2 v2 hv2
          rw [hres, JsMap.get?_set_ne queues _ _ _ (fun h2 => hsidne w hw2 v2 hv2 h2)]

/-- Dropping at least one element strictly shrinks a filter. -/
theorem filter_length_lt {α : Type} (l : List α) (p : α → Bool)
    (h : ∃ x ∈ l, p x = false) : (l.filter p).length < l.length := by
  induction l with
  | nil =>
    obtain ⟨x, hx, _⟩ := h
    exact absurd hx (List.not_mem_nil x)
  | cons a l ih =>
    obtain ⟨x, hx, hpx⟩ := h
    have hle := List.length_filter_le p l
    rcases List.mem_cons.mp hx with rfl | hx'
    · rw [List.filter_cons, hpx]
      simp only [Bool.false_eq_true, if_false, List.length_cons]
      omega
    · have hrec := ih ⟨x, hx', hpx⟩
      rw [List.filter_cons]
      by_cases hpa : p a = true
      · rw [if_pos hpa]
        simp only [List.length_cons]
        omega
      · rw [if_neg hpa]
        simp only [List.length_cons]
        omega

theorem matchedCount_pos_exists {M : Nat} {s : HKState}
    (h : 1 ≤ matchedCount M s) : ∃ u, u < M ∧ (s.pairU u).isSome = true := by
  unfold matchedCount at h
  rcases hf : (List.range M).filter (fun u => (s.pairU u).isSome) with _ | ⟨u, rest⟩
  · rw [hf] at h
    exact absurd h (by simp)
  · have hmem : u ∈ (List.range M).filter (fun u => (s.pairU u).isSome) := by
      rw [hf]; exact List.mem_cons_self u rest
    have h2 := List.mem_filter.mp hmem
    exact ⟨u, List.mem_range.mp h2.1, by simpa using h2.2⟩

/-- Membership in the unmatched-rest list built by `wavesLoop`. -/
theorem filter_enum_map_mem {α : Type} (l : List α) (P : Nat × α → Bool) (p : α) :
    p ∈ (l.enum.filter P).map Prod.snd ↔
      ∃ i, ∃ hi : i < l.length, P (i, l[i]) = true ∧ l[i] = p := by
  constructor
  · intro h
    obtain ⟨q, hq, hsnd⟩ := List.mem_map.mp h
    have h2 := List.mem_filter.mp hq
    have h3 := List.mem_enum_iff_getElem?.mp h2.1
    by_cases hb : q.1 < l.length
    · refine ⟨q.1, hb, ?_, ?_⟩
      · rw [List.getElem?_eq_getElem hb] at h3
        injection h3 with h3
        have hqeq : (q.1, l[q.1]) = q := by
          rw [h3]
        rw [hqeq]
        exact h2.2
      · rw [List.getElem?_eq_getElem hb] at h3
        injection h3 with h3
        rw [h3, hsnd]
    · rw [List.getElem?_eq_none (by omega)] at h3
      exact Option.noConfusion h3
  · rintro ⟨i, hi, hP, hget⟩
    refine List.mem_map.mpr ⟨(i, p), ?_, rfl⟩
    refine List.mem_filter.mpr ⟨?_, by rw [hget] at hP; exact hP⟩
    rw [List.mem_enum_iff_getElem?]
    rw [List.getElem?_eq_getElem hi, hget]

theorem filter_enum_map_sublist {α : Type} (l : List α) (P : Nat × α → Bool) :
    ((l.enum.filter P).map Prod.snd).Sublist l := by
  have h1 : (l.enum.filter P).Sublist l.enum := List.filter_sublist _
  have h2 := h1.map Prod.snd
  rw [List.enum_map_snd] at h2
  exact h2

/-- One wave of `wavesLoop`: the matching is nonempty, the invariant advances
to the next wave index, and the remaining list strictly shrinks. -/
theorem waveStep_inv (cellsAll : List String) (adjGlobal : List (List Nat))
    (slots : List Slot) (hids : (slots.map Slot.id).Nodup)
    (remaining : List (String × Nat)) (byCell : JsMap String WaveRef)
    (queues : JsMap String (List String)) (wave : Nat)
    (adj : Nat → List Nat) (run : Nat × HKState)
    (rec1 : JsMap String WaveRef × JsMap String (List String))
    (remaining' : List (String × Nat))
    (hadjdef : adj = fun u => adjGlobal.getD (remaining.getD u ("", 0)).2 [])
    (hrundef : run = hkRun adj remaining.length)
    (hrecdef : rec1 = recordWave slots remaining run.2.pairU wave remaining.length
      byCell queues)
    (hremdef : remaining' = (remaining.enum.filter
      (fun p => run.2.pairU p.1 = none)).map Prod.snd)
    (hinv : WaveInv cellsAll adjGlobal slots remaining byCell queues wave)
    (hM : remaining.length + 1 < INF)
    (hne : remaining ≠ []) :
    1 ≤ run.1 ∧
    WaveInv cellsAll adjGlobal slots remaining' rec1.1 rec1.2 (wave + 1) ∧
    remaining'.length < remaining.length := by
  have hM1 : 0 < remaining.length := List.length_pos.mpr hne
  have hadj0 : adj 0 ≠ [] := by
    rw [hadjdef]
    show adjGlobal.getD (remaining.getD 0 ("", 0)).2 [] ≠ []
    rw [List.getD_eq_getElem _ _ hM1]
    exact (hinv.adj_ok remaining[0] (List.getElem_mem hM1)).1
  have hpos : 1 ≤ run.1 := by
    rw [hrundef]
    exact hkRun_pos adj remaining.length hM hM1 hadj0
  obtain ⟨hkInv, hcnt⟩ := hkRun_spec adj remaining.length hM
  rw [← hrundef] at hkInv hcnt
  have hbound : ∀ u v, run.2.pairU u = some v →
      u < remaining.length ∧ v < slots.length := by
    intro u v h
    obtain ⟨hu, hv⟩ := hkInv.2.2 u v h
    refine ⟨hu, ?_⟩
    rw [hadjdef] at hv
    have hv2 : v ∈ adjGlobal.getD (remaining.getD u ("", 0)).2 [] := hv
    rw [List.getD_eq_getElem _ _ hu] at hv2
    exact (hinv.adj_ok remaining[u] (List.getElem_mem hu)).2 v hv2
  have hckinj0 : ∀ u1 ∈ List.range remaining.length, ∀ u2 ∈ List.range remaining.length,
      (remaining.getD u1 ("", 0)).1 = (remaining.getD u2 ("", 0)).1 → u1 = u2 := by
    intro u1 h1 u2 h2 heq
    have hu1 := List.mem_range.mp h1
    have hu2 := List.mem_range.mp h2
    rw [List.getD_eq_getElem _ _ hu1, List.getD_eq_getElem _ _ hu2] at heq
    have hinj := List.nodup_iff_injective_get.mp hinv.rem_nodup
    have hu1b : u1 < (remaining.map Prod.fst).length := by
      rw [List.length_map]; exact hu1
    have hu2b : u2 < (remaining.map Prod.fst).length := by
      rw [List.length_map]; exact hu2
    have heq2 : (remaining.map Prod.fst).get ⟨u1, hu1b⟩
        = (remaining.map Prod.fst).get ⟨u2, hu2b⟩ := by
      rw [List.get_eq_getElem, List.get_eq_getElem, List.getElem_map, List.getElem_map]
      exact heq
    exact congrArg Fin.val (hinj heq2)
  have hsidinj : ∀ u1 ∈ List.range remaining.length, ∀ u2 ∈ List.range remaining.length,
      ∀ v1 v2, run.2.pairU u1 = some v1 → run.2.pairU u2 = some v2 →
      (slots.getD v1 ⟨"", "", 0⟩).id = (slots.getD v2 ⟨"", "", 0⟩).id → u1 = u2 := by
    intro u1 _ u2 _ v1 v2 hv1 hv2 heq
    have hb1 := hbound u1 v1 hv1
    have hb2 := hbound u2 v2 hv2
    have hveq : v1 = v2 := slots_getD_id_inj hids hb1.2 hb2.2 heq
    rw [hveq] at hv1
    have hx1 := hkInv.1 u1 v2 hv1
    have hx2 := hkInv.1 u2 v2 hv2
    rw [hx1] at hx2
    injection hx2
  obtain ⟨O1, O2, O3, O4⟩ := rwStep_foldl_spec slots remaining run.2.pairU wave
    (List.range remaining.length) (List.nodup_range _)
    (fun u1 h1 u2 h2 _ _ => hckinj0 u1 h1 u2 h2) hsidinj byCell queues
  rw [← recordWave_eq, ← hrecdef] at O1 O2 O3 O4
  have hcknone : ∀ u v, run.2.pairU u = some v →
      JsMap.get? byCell (remaining.getD u ("", 0)).1 = none := by
    intro u v h
    have hu := (hbound u v h).1
    rw [List.getD_eq_getElem _ _ hu]
    exact (hinv.rem_cells remaining[u] (List.getElem_mem hu)).2
  have hnothit : ∀ k, (JsMap.get? byCell k).isSome = true →
      ∀ u ∈ List.range remaining.length, ∀ v, run.2.pairU u = some v →
        (remaining.getD u ("", 0)).1 ≠ k := by
    intro k hk u _ v hv heq
    have h2 := hcknone u v hv
    rw [← heq, h2] at hk
    exact Bool.noConfusion hk
  have hold : ∀ k, (JsMap.get? byCell k).isSome = true →
      JsMap.get? rec1.1 k = JsMap.get? byCell k := by
    intro k hk
    exact O1 k (hnothit k hk)
  have hmem' : ∀ p', p' ∈ remaining' ↔ ∃ i, ∃ hi : i < remaining.length,
      run.2.pairU i = none ∧ remaining[i] = p' := by
    intro p'
    rw [hremdef,
      filter_enum_map_mem remaining (fun p => decide (run.2.pairU p.1 = none)) p']
    constructor
    · rintro ⟨i, hi, hP, hg⟩
      exact ⟨i, hi, of_decide_eq_true hP, hg⟩
    · rintro ⟨i, hi, hP, hg⟩
      exact ⟨i, hi, decide_eq_true hP, hg⟩
  have hsub : remaining'.Sublist remaining := by
    rw [hremdef]
    exact filter_enum_map_sublist remaining _
  have hlt : remaining'.length < remaining.length := by
    rw [hcnt] at hpos
    obtain ⟨u0, hu0, hm0⟩ := matchedCount_pos_exists hpos
    rw [hremdef, List.length_map]
    have hex : ∃ x ∈ remaining.enum,
        (fun (p : Nat × String × Nat) => decide (run.2.pairU p.1 = none)) x = false := by
      refine ⟨(u0, remaining[u0]), ?_, ?_⟩
      · rw [List.mem_enum_iff_getElem?]
        exact List.getElem?_eq_getElem hu0
      · rcases hpu : run.2.pairU u0 with _ | v
        · rw [hpu] at hm0; exact Bool.noConfusion hm0
        · simp [hpu]
    have h3 := filter_length_lt remaining.enum _ hex
    rw [List.enum_length] at h3
    exact h3
  refine ⟨hpos, ?_, hlt⟩
  refine ⟨?_, ?_, ?_, ?_, ?_, ?_, ?_, ?_, ?_, ?_, ?_⟩
  · -- rem_cells
    intro p' hp'
    have hpm := hsub.subset hp'
    refine ⟨(hinv.rem_cells p' hpm).1, ?_⟩
    obtain ⟨i, hi, hnonei, hget⟩ := (hmem' p').mp hp'
    have hne2 : ∀ u ∈ List.range remaining.length, ∀ v, run.2.pairU u = some v →
        (remaining.getD u ("", 0)).1 ≠ p'.1 := by
      intro u hu v hv heq
      have heq2 : (remaining.getD u ("", 0)).1 = (remaining.getD i ("", 0)).1 := by
        rw [heq, ← hget, List.getD_eq_getElem _ _ hi]
      have hui := hckinj0 u hu i (List.mem_range.mpr hi) heq2
      rw [hui, hnonei] at hv
      exact Option.noConfusion hv
    rw [O1 p'.1 hne2]
    exact (hinv.rem_cells p' hpm).2
  · -- rem_nodup
    exact List.Nodup.sublist (hsub.map Prod.fst) hinv.rem_nodup
  · -- cover
    intro k hk
    rcases hinv.cover k hk with hsome | hmem
    · left
      rw [hold k hsome]
      exact hsome
    · obtain ⟨p, hp, hfst⟩ := List.mem_map.mp hmem
      obtain ⟨⟨i, hi⟩, hget⟩ := List.mem_iff_get.mp hp
      rcases hpu : run.2.pairU i with _ | v
      · right
        refine List.mem_map.mpr ⟨p, ?_, hfst⟩
        exact (hmem' p).mpr ⟨i, hi, hpu, hget⟩
      · left
        have h2 := O2 i (List.mem_range.mpr hi) v hpu
        have hck : (remaining.getD i ("", 0)).1 = k := by
          rw [List.getD_eq_getElem _ _ hi]
          have hgp : remaining[i] = p := hget
          rw [hgp, hfst]
        rw [hck] at h2
        rw [h2]
        rfl
  · -- q_assigned
    intro sid q k hq hkq
    by_cases hhs : ∃ u ∈ List.range remaining.length, ∃ v, run.2.pairU u = some v ∧
        (slots.getD v ⟨"", "", 0⟩).id = sid
    · obtain ⟨u, hu, v, hv, hsid⟩ := hhs
      have h4 := O4 u hu v hv
      rw [hsid] at h4
      rw [h4] at hq
      injection hq with hq
      rw [← hq] at hkq
      rcases List.mem_append.mp hkq with hpart | hnew
      · rcases hq0 : JsMap.get? queues sid with _ | q0
        · rw [hq0] at hpart
          exact absurd hpart (List.not_mem_nil k)
        · rw [hq0] at hpart
          have hks := hinv.q_assigned sid q0 k hq0 hpart
          rw [hold k hks]
          exact hks
      · have hkck : k = (remaining.getD u ("", 0)).1 := by simpa using hnew
        rw [hkck, O2 u hu v hv]
        rfl
    · have hq2 : JsMap.get? rec1.2 sid = JsMap.get? queues sid :=
        O3 sid (fun u hu v hv heq => hhs ⟨u, hu, v, hv, heq⟩)
      rw [hq2] at hq
      have hks := hinv.q_assigned sid q k hq hkq
      rw [hold k hks]
      exact hks
  · -- assigned_q
    intro k hk
    by_cases hhit : ∃ u ∈ List.range remaining.length, ∃ v, run.2.pairU u = some v ∧
        (remaining.getD u ("", 0)).1 = k
    · obtain ⟨u, hu, v, hv, hck⟩ := hhit
      refine ⟨(slots.getD v ⟨"", "", 0⟩).id, _, O4 u hu v hv, ?_⟩
      refine List.mem_append.mpr (Or.inr ?_)
      rw [← hck]
      exact List.mem_singleton.mpr rfl
    · have hk0 : (JsMap.get? byCell k).isSome = true := by
        have h1 := O1 k (fun u hu v hv heq => hhit ⟨u, hu, v, hv, heq⟩)
        rw [h1] at hk
        exact hk
      obtain ⟨sid, q, hq, hkq⟩ := hinv.assigned_q k hk0
      by_cases hhs : ∃ u ∈ List.range remaining.length, ∃ v, run.2.pairU u = some v ∧
          (slots.getD v ⟨"", "", 0⟩).id = sid
      · obtain ⟨u, hu, v, hv, hsid⟩ := hhs
        have h4 := O4 u hu v hv
        rw [hsid] at h4
        refine ⟨sid, _, h4, ?_⟩
        refine List.mem_append.mpr (Or.inl ?_)
        show k ∈ (JsMap.get? queues sid).getD []
        rw [hq]
        exact hkq
      · refine ⟨sid, q, ?_, hkq⟩
        rw [O3 sid (fun u hu v hv heq => hhs ⟨u, hu, v, hv, heq⟩)]
        exact hq
  · -- q_nodup
    intro sid q hq
    by_cases hhs : ∃ u ∈ List.range remaining.length, ∃ v, run.2.pairU u = some v ∧
        (slots.getD v ⟨"", "", 0⟩).id = sid
    · obtain ⟨u, hu, v, hv, hsid⟩ := hhs
      have h4 := O4 u hu v hv
      rw [hsid] at h4
      rw [h4] at hq
      injection hq with hq
      rw [← hq]
      rcases hq0 : JsMap.get? queues sid with _ | q0
      · simp
      · refine List.nodup_append.mpr ⟨hinv.q_nodup sid q0 hq0, List.nodup_singleton _, ?_⟩
        intro a ha hb
        have hb2 : a = (remaining.getD u ("", 0)).1 := by simpa using hb
        have has := hinv.q_assigned sid q0 a hq0 ha
        have hnone := hcknone u v hv
        rw [← hb2] at hnone
        rw [hnone] at has
        exact Bool.noConfusion has
    · rw [O3 sid (fun u hu v hv heq => hhs ⟨u, hu, v, hv, heq⟩)] at hq
      exact hinv.q_nodup sid q hq
  · -- q_disj
    intro sid1 q1 sid2 q2 k hq1 hq2 hk1 hk2
    have hdec : ∀ sid q, JsMap.get? rec1.2 sid = some q → ∀ k2, k2 ∈ q →
        (∃ q0, JsMap.get? queues sid = some q0 ∧ k2 ∈ q0) ∨
        (∃ u ∈ List.range remaining.length, ∃ v, run.2.pairU u = some v ∧
          (slots.getD v ⟨"", "", 0⟩).id = sid ∧ (remaining.getD u ("", 0)).1 = k2) := by
      intro sid q hq k2 hk
      by_cases hhs : ∃ u ∈ List.range remaining.length, ∃ v, run.2.pairU u = some v ∧
          (slots.getD v ⟨"", "", 0⟩).id = sid
      · obtain ⟨u, hu, v, hv, hsid⟩ := hhs
        have h4 := O4 u hu v hv
        rw [hsid] at h4
        rw [h4] at hq
        injection hq with hq
        rw [← hq] at hk
        rcases List.mem_append.mp hk with hpart | hnew
        · rcases hq0 : JsMap.get? queues sid with _ | q0
          · rw [hq0] at hpart
            exact absurd hpart (List.not_mem_nil k2)
          · rw [hq0] at hpart
            exact Or.inl ⟨q0, rfl, hpart⟩
        · have hkck : k2 = (remaining.getD u ("", 0)).1 := by simpa using hnew
          exact Or.inr ⟨u, hu, v, hv, hsid, hkck.symm⟩
      · rw [O3 sid (fun u hu v hv heq => hhs ⟨u, hu, v, hv, heq⟩)] at hq
        exact Or.inl ⟨q, hq, hk⟩
    rcases hdec sid1 q1 hq1 k hk1 with ⟨qa, hqa, hka⟩ | ⟨u1, hu1, v1, hv1, hsid1, hck1⟩
    · rcases hdec sid2 q2 hq2 k hk2 with ⟨qb, hqb, hkb⟩ | ⟨u2, hu2, v2, hv2, hsid2, hck2⟩
      · exact hinv.q_disj sid1 qa sid2 qb k hqa hqb hka hkb
      · have has := hinv.q_assigned sid1 qa k hqa hka
        have hnone := hcknone u2 v2 hv2
        rw [← hck2, hnone] at has
        exact Bool.noConfusion has
    · rcases hdec sid2 q2 hq2 k hk2 with ⟨qb, hqb, hkb⟩ | ⟨u2, hu2, v2, hv2, hsid2, hck2⟩
      · have has := hinv.q_assigned sid2 qb k hqb hkb
        have hnone := hcknone u1 v1 hv1
        rw [← hck1, hnone] at has
        exact Bool.noConfusion has
      · have hckeq : (remaining.getD u1 ("", 0)).1 = (remaining.getD u2 ("", 0)).1 := by
          rw [hck1, hck2]
        have hu12 := hckinj0 u1 hu1 u2 hu2 hckeq
        rw [hu12] at hv1
        rw [hv1] at hv2
        injection hv2 with hv2
        rw [← hsid1, ← hsid2, hv2]
  · -- wave_lt
    intro k r hkr
    by_cases hhit : ∃ u ∈ List.range remaining.length, ∃ v, run.2.pairU u = some v ∧
        (remaining.getD u ("", 0)).1 = k
    · obtain ⟨u, hu, v, hv, hck⟩ := hhit
      have h2 := O2 u hu v hv
      rw [hck] at h2
      rw [h2] at hkr
      injection hkr with hkr
      rw [← hkr]
      exact Nat.lt_succ_self wave
    · rw [O1 k (fun u hu v hv heq => hhit ⟨u, hu, v, hv, heq⟩)] at hkr
      exact Nat.lt_succ_of_lt (hinv.wave_lt k r hkr)
  · -- q_incr
    intro sid q hq
    by_cases hhs : ∃ u ∈ List.range remaining.length, ∃ v, run.2.pairU u = some v ∧
        (slots.getD v ⟨"", "", 0⟩).id = sid
    · obtain ⟨u, hu, v, hv, hsid⟩ := hhs
      have h4 := O4 u hu v hv
      rw [hsid] at h4
      rw [h4] at hq
      injection hq with hq
      rw [← hq]
      rcases hq0 : JsMap.get? queues sid with _ | q0
      · simp
      · rw [List.pairwise_append]
        refine ⟨?_, List.pairwise_singleton _ _, ?_⟩
        · refine List.Pairwise.imp_of_mem ?_ (hinv.q_incr sid q0 hq0)
          intro a b ha hb hab ra rb hra hrb
          have haS := hinv.q_assigned sid q0 a hq0 ha
          have hbS := hinv.q_assigned sid q0 b hq0 hb
          rw [hold a haS] at hra
          rw [hold b hbS] at hrb
          exact hab ra rb hra hrb
        · intro a ha b hb ra rb hra hrb
          have hb2 : b = (remaining.getD u ("", 0)).1 := by simpa using hb
          have haS := hinv.q_assigned sid q0 a hq0 ha
          rw [hold a haS] at hra
          have hwa := hinv.wave_lt a ra hra
          have h2 := O2 u hu v hv
          rw [hb2, h2] at hrb
          injection hrb with hrb
          rw [← hrb]
          exact hwa
    · rw [O3 sid (fun u hu v hv heq => hhs ⟨u, hu, v, hv, heq⟩)] at hq
      refine List.Pairwise.imp_of_mem ?_ (hinv.q_incr sid q hq)
      intro a b ha hb hab ra rb hra hrb
      have haS := hinv.q_assigned sid q a hq ha
      have hbS := hinv.q_assigned sid q b hq hb
      rw [hold a haS] at hra
      rw [hold b hbS] at hrb
      exact hab ra rb hra hrb
  · -- inj
    intro k1 k2 r1 r2 h1 h2 hw hid
    by_cases hh1 : ∃ u ∈ List.range remaining.length, ∃ v, run.2.pairU u = some v ∧
        (remaining.getD u ("", 0)).1 = k1
    · obtain ⟨u1, hu1, v1, hv1, hck1⟩ := hh1
      have ho1 := O2 u1 hu1 v1 hv1
      rw [hck1] at ho1
      rw [ho1] at h1
      injection h1 with h1
      by_cases hh2 : ∃ u ∈ List.range remaining.length, ∃ v, run.2.pairU u = some v ∧
          (remaining.getD u ("", 0)).1 = k2
      · obtain ⟨u2, hu2, v2, hv2, hck2⟩ := hh2
        have ho2 := O2 u2 hu2 v2 hv2
        rw [hck2] at ho2
        rw [ho2] at h2
        injection h2 with h2
        rw [← h1, ← h2] at hid
        have hideq : (slots.getD v1 ⟨"", "", 0⟩).id = (slots.getD v2 ⟨"", "", 0⟩).id := hid
        have hu12 := hsidinj u1 hu1 u2 hu2 v1 v2 hv1 hv2 hideq
        rw [← hck1, ← hck2, hu12]
      · rw [O1 k2 (fun u hu v hv heq => hh2 ⟨u, hu, v, hv, heq⟩)] at h2
        have hw2 := hinv.wave_lt k2 r2 h2
        rw [← hw, ← h1] at hw2
        exact absurd hw2 (by simp)
    · rw [O1 k1 (fun u hu v hv heq => hh1 ⟨u, hu, v, hv, heq⟩)] at h1
      by_cases hh2 : ∃ u ∈ List.range remaining.length, ∃ v, run.2.pairU u = some v ∧
          (remaining.getD u ("", 0)).1 = k2
      · obtain ⟨u2, hu2, v2, hv2, hck2⟩ := hh2
        have ho2 := O2 u2 hu2 v2 hv2
        rw [hck2] at ho2
        rw [ho2] at h2
        injection h2 with h2
        have hw1 := hinv.wave_lt k1 r1 h1
        rw [hw, ← h2] at hw1
        exact absurd hw1 (by simp)
      · rw [O1 k2 (fun u hu v hv heq => hh2 ⟨u, hu, v, hv, heq⟩)] at h2
        exact hinv.inj k1 k2 r1 r2 h1 h2 hw hid
  · -- adj_ok
    intro p' hp'
    exact hinv.adj_ok p' (hsub.subset hp')

/-- The waves loop, given enough fuel, drains the remaining list while
maintaining the invariant. -/
theorem wavesLoop_spec (cellsAll : List String) (adjGlobal : List (List Nat))
    (slots : List Slot) (hids : (slots.map Slot.id).Nodup)
    (hsize : cellsAll.length + 1 < INF) :
    ∀ (fuel : Nat) (remaining : List (String × Nat)) (byCell : JsMap String WaveRef)
      (queues : JsMap String (List String)) (wave : Nat),
      WaveInv cellsAll adjGlobal slots remaining byCell queues wave →
      remaining.length < fuel →
      remaining.length ≤ cellsAll.length →
      ∃ w2, WaveInv cellsAll adjGlobal slots []
        (wavesLoop adjGlobal slots fuel remaining byCell queues wave).1
        (wavesLoop adjGlobal slots fuel remaining byCell queues wave).2 w2 := by
  intro fuel
  induction fuel with
  | zero =>
    intro remaining byCell queues wave _ hfuel _
    omega
  | succ n ihn =>
    intro remaining byCell queues wave hinv hfuel hlen
    by_cases hne : remaining = []
    · subst hne
      have hout : wavesLoop adjGlobal slots (n + 1) [] byCell queues wave
          = (byCell, queues) := by
        simp only [wavesLoop]
      rw [hout]
      exact ⟨wave, hinv⟩
    · obtain ⟨p, rest, hrem⟩ : ∃ p rest, remaining = p :: rest := by
        cases remaining with
        | nil => exact absurd rfl hne
        | cons p rest => exact ⟨p, rest, rfl⟩
      subst hrem
      obtain ⟨hpos, hinv2, hlt⟩ := waveStep_inv cellsAll adjGlobal slots hids (p :: rest)
        byCell queues wave _ _ _ _ rfl rfl rfl rfl hinv (by omega) hne
      have hrun0 : ¬((hkRun (fun u => adjGlobal.getD ((p :: rest).getD u ("", 0)).2 [])
          (p :: rest).length).1 = 0) := by omega
      have hout : wavesLoop adjGlobal slots (n + 1) (p :: rest) byCell queues wave
          = wavesLoop adjGlobal slots n
              (((p :: rest).enum.filter (fun q =>
                (hkRun (fun u => adjGlobal.getD ((p :: rest).getD u ("", 0)).2 [])
                  (p :: rest).length).2.pairU q.1 = none)).map Prod.snd)
              (recordWave slots (p :: rest)
                (hkRun (fun u => adjGlobal.getD ((p :: rest).getD u ("", 0)).2 [])
                  (p :: rest).length).2.pairU wave (p :: rest).length byCell queues).1
              (recordWave slots (p :: rest)
                (hkRun (fun u => adjGlobal.getD ((p :: rest).getD u ("", 0)).2 [])
                  (p :: rest).length).2.pairU wave (p :: rest).length byCell queues).2
              (wave + 1) := by
        simp only [wavesLoop]
        rw [if_neg hrun0]
      rw [hout]
      exact ihn _ _ _ _ hinv2 (by omega) (by omega)

/-- A set-fold contains a key iff some step wrote it or it was already
present. -/
theorem foldl_set_isSome {α β γ : Type} [DecidableEq α] (key : γ → α) (val : γ → β) :
    ∀ (l : List γ) (m0 : JsMap α β) (k : α),
      (JsMap.get? (l.foldl (fun m p => JsMap.set m (key p) (val p)) m0) k).isSome = true
        ↔ (∃ p ∈ l, key p = k) ∨ (JsMap.get? m0 k).isSome = true := by
  intro l
  induction l with
  | nil => intro m0 k; simp
  | cons p l ih =>
    intro m0 k
    rw [List.foldl_cons, ih]
    constructor
    · rintro (⟨q, hq, hkey⟩ | h)
      · exact Or.inl ⟨q, List.mem_cons_of_mem _ hq, hkey⟩
      · by_cases hk : key p = k
        · exact Or.inl ⟨p, List.mem_cons_self p l, hk⟩
        · right
          rw [JsMap.get?_set_ne m0 (key p) k (val p) (fun h2 => hk h2.symm)] at h
          exact h
    · rintro (⟨q, hq, hkey⟩ | h)
      · rcases List.mem_cons.mp hq with rfl | hq2
        · right
          rw [← hkey, JsMap.get?_set_self]
          rfl
        · exact Or.inl ⟨q, hq2, hkey⟩
      · by_cases hk : key p = k
        · right
          rw [← hk, JsMap.get?_set_self]
          rfl
        · right
          rw [JsMap.get?_set_ne m0 (key p) k (val p) (fun h2 => hk h2.symm)]
          exact h

/-- Every present slot id resolves in `slotIndex`. -/
theorem mkSlotIndex_isSome (slots : List Slot) (id : String)
    (h : id ∈ slots.map Slot.id) :
    (JsMap.get? (mkSlotIndex slots) id).isSome = true := by
  unfold mkSlotIndex
  refine (foldl_set_isSome (fun (p : Nat × Slot) => p.2.id) Prod.fst slots.enum
    JsMap.empty id).mpr ?_
  left
  obtain ⟨sl, hsl, hid⟩ := List.mem_map.mp h
  obtain ⟨⟨i, hi⟩, hget⟩ := List.mem_iff_get.mp hsl
  refine ⟨(i, sl), ?_, hid⟩
  rw [List.mem_enum_iff_getElem?]
  rw [List.getElem?_eq_getElem hi]
  have hg2 : slots[i] = sl := hget
  rw [hg2]

/-- An `adjFor` with at least one resolvable id is nonempty. -/
theorem adjFor_ne_nil (slotIndex : JsMap String Nat) (ids : List String)
    (h : ∃ id ∈ ids, (JsMap.get? slotIndex id).isSome = true) :
    adjFor slotIndex ids ≠ [] := by
  obtain ⟨id, hid, hsome⟩ := h
  intro hnil
  rcases hv : JsMap.get? slotIndex id with _ | vi
  · rw [hv] at hsome
    exact Bool.noConfusion hsome
  · have hmem : vi ∈ ids.filterMap (fun id => JsMap.get? slotIndex id) :=
      List.mem_filterMap.mpr ⟨id, hid, hv⟩
    have hnil2 : ids.filterMap (fun id => JsMap.get? slotIndex id) = [] := hnil
    rw [hnil2] at hmem
    exact absurd hmem (List.not_mem_nil vi)

theorem validKey?_lt {N : Nat} {s : String} {r c : Nat}
    (h : validKey? N s = some (r, c)) : r < N ∧ c < N := by
  unfold validKey? at h
  rcases hp : parseCellKey s with ⟨ro, co⟩
  rw [hp] at h
  rcases ro with _ | ri
  · exact Option.noConfusion h
  rcases co with _ | ci
  · exact Option.noConfusion h
  replace h : (if 0 ≤ ri ∧ ri < (N : Int) ∧ 0 ≤ ci ∧ ci < (N : Int)
      then some (ri.toNat, ci.toNat) else none) = some (r, c) := h
  by_cases hb : 0 ≤ ri ∧ ri < (N : Int) ∧ 0 ≤ ci ∧ ci < (N : Int)
  · rw [if_pos hb] at h
    injection h with h
    have h1 : ri.toNat = r := congrArg Prod.fst h
    have h2 : ci.toNat = c := congrArg Prod.snd h
    obtain ⟨hb1, hb2, hb3, hb4⟩ := hb
    constructor <;> omega
  · rw [if_neg hb] at h
    exact Option.noConfusion h

/-- Lookups in an association list with constant values. -/
theorem get?_const_values {α β γ : Type} [DecidableEq β] (f : α → β) (c : γ) :
    ∀ (l : List α) (k : β) (q : γ),
      JsMap.get? (l.map (fun s => (f s, c))) k = some q → q = c := by
  intro l
  induction l with
  | nil => intro k q h; exact Option.noConfusion h
  | cons a l ih =>
    intro k q h
    rw [List.map_cons, JsMap.get?_cons] at h
    by_cases hk : k = f a
    · rw [if_pos hk] at h
      injection h with h
      exact h.symm
    · rw [if_neg hk] at h
      exact ih k q h

theorem slotId_L_mem_mkSlots {N r : Nat} (hr : r < N) :
    slotId 'L' r ∈ (mkSlots N).map Slot.id := by
  refine List.mem_map.mpr ⟨⟨slotId 'L' r, "L", r⟩, ?_, rfl⟩
  unfold mkSlots
  refine List.mem_append.mpr (Or.inl ?_)
  refine List.mem_flatMap.mpr ⟨r, List.mem_range.mpr hr, ?_⟩
  exact List.mem_cons_self _ _

theorem slotId_L_mem_ordered (firstRow : Bool) (r c : Nat) :
    slotId 'L' r ∈ orderedSlotIds firstRow r c := by
  unfold orderedSlotIds
  cases firstRow <;> simp

/-- Per-index characterization of a successful `buildAdjacency`. -/
theorem buildAdjacency_get (N : Nat) (difficulty : String) (rowLen colLen : Nat → Nat)
    (slotIndex : JsMap String Nat) :
    ∀ (l : List (Nat × String)) (adjL : List (List Nat)),
      buildAdjacency N difficulty rowLen colLen slotIndex l = some adjL →
      adjL.length = l.length ∧
      ∀ i (hi : i < l.length), ∃ r c,
        validKey? N (l.get ⟨i, hi⟩).2 = some (r, c) ∧
        adjL.getD i [] = adjFor slotIndex
          (orderedSlotIds (preferredFirstDimension difficulty rowLen colLen r c
            (l.get ⟨i, hi⟩).1) r c) := by
  intro l
  induction l with
  | nil =>
    intro adjL h
    injection h with h
    refine ⟨by rw [← h]; rfl, ?_⟩
    intro i hi
    exact absurd hi (by simp)
  | cons p l ih =>
    intro adjL h
    obtain ⟨u, key⟩ := p
    unfold buildAdjacency at h
    rcases hk : validKey? N key with _ | rc
    · rw [hk] at h
      exact Option.noConfusion h
    · rw [hk] at h
      rcases hrest : buildAdjacency N difficulty rowLen colLen slotIndex l with _ | tl
      · rw [hrest] at h
        exact Option.noConfusion h
      · rw [hrest] at h
        simp only [Option.map_some] at h
        injection h with h
        obtain ⟨hlen, hget⟩ := ih tl hrest
        refine ⟨?_, ?_⟩
        · rw [← h]
          simp [hlen]
        · intro i hi
          cases i with
          | zero =>
            refine ⟨rc.1, rc.2, hk, ?_⟩
            rw [← h]
            rfl
          | succ j =>
            have hj : j < l.length := by
              simp only [List.length_cons] at hi
              omega
            obtain ⟨r, c, h1, h2⟩ := hget j hj
            refine ⟨r, c, h1, ?_⟩
            rw [← h]
            exact h2

/-- The invariant holds at the start of `wavesLoop`. -/
theorem waveInit_inv (N : Nat) (difficulty : String) (rowLen colLen : Nat → Nat)
    (cellsAll : List String) (adjGlobal : List (List Nat))
    (hnodup : cellsAll.Nodup)
    (hadjm : buildAdjacency N difficulty rowLen colLen (mkSlotIndex (mkSlots N))
      cellsAll.enum = some adjGlobal) :
    WaveInv cellsAll adjGlobal (mkSlots N)
      (cellsAll.enum.map (fun p => (p.2, p.1))) JsMap.empty
      ((mkSlots N).map (fun s => (s.id, []))) 0 := by
  have hfst : (cellsAll.enum.map (fun (p : Nat × String) => (p.2, p.1))).map Prod.fst
      = cellsAll := by
    rw [List.map_map]
    have hcomp : (Prod.fst ∘ fun (p : Nat × String) => (p.2, p.1)) = Prod.snd := rfl
    rw [hcomp, List.enum_map_snd]
  have hmem0 : ∀ p, p ∈ cellsAll.enum.map (fun (q : Nat × String) => (q.2, q.1)) →
      ∃ i, ∃ hi : i < cellsAll.length, p = (cellsAll[i], i) := by
    intro p hp
    obtain ⟨q, hq, hpq⟩ := List.mem_map.mp hp
    have h3 := List.mem_enum_iff_getElem?.mp hq
    by_cases hb : q.1 < cellsAll.length
    · rw [List.getElem?_eq_getElem hb] at h3
      injection h3 with h3
      exact ⟨q.1, hb, by rw [← hpq, h3]⟩
    · rw [List.getElem?_eq_none (by omega)] at h3
      exact Option.noConfusion h3
  have hq0 : ∀ sid q, JsMap.get? ((mkSlots N).map (fun s => (s.id, ([] : List String)))) sid
      = some q → q = [] := fun sid q h => get?_const_values Slot.id [] (mkSlots N) sid q h
  obtain ⟨hlenA, hgetA⟩ := buildAdjacency_get N difficulty rowLen colLen
    (mkSlotIndex (mkSlots N)) cellsAll.enum adjGlobal hadjm
  refine ⟨?_, ?_, ?_, ?_, ?_, ?_, ?_, ?_, ?_, ?_, ?_⟩
  · intro p hp
    obtain ⟨i, hi, hpi⟩ := hmem0 p hp
    refine ⟨?_, rfl⟩
    rw [hpi]
    exact List.getElem_mem hi
  · rw [hfst]
    exact hnodup
  · intro k hk
    right
    rw [hfst]
    exact hk
  · intro sid q k hq hkq
    rw [hq0 sid q hq] at hkq
    exact absurd hkq (List.not_mem_nil k)
  · intro k hk
    rw [JsMap.empty, JsMap.get?_nil] at hk
    exact Bool.noConfusion hk
  · intro sid q hq
    rw [hq0 sid q hq]
    exact List.nodup_nil
  · intro sid1 q1 sid2 q2 k hq1 hq2 hk1 _
    rw [hq0 sid1 q1 hq1] at hk1
    exact absurd hk1 (List.not_mem_nil k)
  · intro k r hkr
    rw [JsMap.empty, JsMap.get?_nil] at hkr
    exact Option.noConfusion hkr
  · intro sid q hq
    rw [hq0 sid q hq]
    exact List.Pairwise.nil
  · intro k1 k2 r1 r2 h1 _ _ _
    rw [JsMap.empty, JsMap.get?_nil] at h1
    exact Option.noConfusion h1
  · intro p hp
    obtain ⟨i, hi, hpi⟩ := hmem0 p hp
    have hienum : i < cellsAll.enum.length := by
      rw [List.enum_length]
      exact hi
    obtain ⟨r, c, hvk, hadji⟩ := hgetA i hienum
    have hgete : cellsAll.enum.get ⟨i, hienum⟩ = (i, cellsAll[i]) := by
      rw [List.get_eq_getElem, List.getElem_enum]
    rw [hgete] at hvk hadji
    have hp2 : p.2 = i := by rw [hpi]
    rw [hp2, hadji]
    obtain ⟨hrN, hcN⟩ := validKey?_lt hvk
    constructor
    · refine adjFor_ne_nil (mkSlotIndex (mkSlots N)) _ ?_
      exact ⟨slotId 'L' r, slotId_L_mem_ordered _ r c,
        mkSlotIndex_isSome (mkSlots N) (slotId 'L' r) (slotId_L_mem_mkSlots hrN)⟩
    · intro v hv
      obtain ⟨id, _, hget⟩ := List.mem_filterMap.mp hv
      exact mkSlotIndex_lt (mkSlots N) id v hget

/-- **C2** — confirmed (under two modelling side conditions: the letters map
is a genuine map, i.e. its keys are pairwise distinct, and it has fewer than
`INF = 1e9` cells so the source's `INF` sentinel behaves as infinity).  On an
`N × N` grid whose letters keys are integer coordinates in `[0, N)`, the
multi-wave assigner assigns every letter cell, places every cell in exactly
one slot queue at exactly one position, records strictly increasing wave
indices along every queue, and each single wave's cell-to-slot assignment is
injective. -/
theorem claim_C2_waves_assign_every_cell (grid : List (List Nat))
    (letters : JsMap String Char) (difficulty : String) (w : WaveAssignment)
    (hnodup : (JsMap.keys letters).Nodup)
    (hsize : (JsMap.keys letters).length + 1 < INF)
    (hvalid : ∀ k ∈ JsMap.keys letters, (validKey? grid.length k).isSome = true)
    (h : assignOutsideSlotsInWaves grid letters difficulty = .ok w) :
    (∀ k ∈ JsMap.keys letters, (JsMap.get? w.byCell k).isSome = true) ∧
    (∀ k ∈ JsMap.keys letters, ∃ sid q, JsMap.get? w.slotQueues sid = some q ∧ k ∈ q) ∧
    (∀ sid q, JsMap.get? w.slotQueues sid = some q → q.Nodup) ∧
    (∀ sid1 q1 sid2 q2 k, JsMap.get? w.slotQueues sid1 = some q1 →
      JsMap.get? w.slotQueues sid2 = some q2 → k ∈ q1 → k ∈ q2 → sid1 = sid2) ∧
    (∀ sid q, JsMap.get? w.slotQueues sid = some q →
      q.Pairwise (fun a b => ∀ ra rb, JsMap.get? w.byCell a = some ra →
        JsMap.get? w.byCell b = some rb → ra.wave < rb.wave)) ∧
    (∀ k1 k2 r1 r2, JsMap.get? w.byCell k1 = some r1 → JsMap.get? w.byCell k2 = some r2 →
      r1.wave = r2.wave → r1.id = r2.id → k1 = k2) := by
  simp only [assignOutsideSlotsInWaves] at h
  rcases hadjm : buildAdjacency grid.length difficulty (rowLenF grid grid.length)
      (colLenF grid grid.length) (mkSlotIndex (mkSlots grid.length))
      (JsMap.keys letters).enum with _ | adjGlobal
  · rw [hadjm] at h
    exact Except.noConfusion h
  · simp only [hadjm] at h
    obtain ⟨w2, hfin⟩ := wavesLoop_spec (JsMap.keys letters) adjGlobal
      (mkSlots grid.length) (mkSlots_id_nodup grid.length) hsize
      ((JsMap.keys letters).length + 1)
      ((JsMap.keys letters).enum.map (fun p => (p.2, p.1))) JsMap.empty
      ((mkSlots grid.length).map (fun s => (s.id, []))) 0
      (waveInit_inv grid.length difficulty (rowLenF grid grid.length)
        (colLenF grid grid.length) (JsMap.keys letters) adjGlobal hnodup hadjm)
      (by rw [List.length_map, List.enum_length]; omega)
      (by rw [List.length_map, List.enum_length])
    injection h with h
    rw [← h]
    refine ⟨?_, ?_, hfin.q_nodup, hfin.q_disj, hfin.q_incr, hfin.inj⟩
    · intro k hk
      rcases hfin.cover k hk with hsome | hmem
      · exact hsome
      · simp at hmem
    · intro k hk
      rcases hfin.cover k hk with hsome | hmem
      · exact hfin.assigned_q k hsome
      · simp at hmem

/-- Witness for C2: the 1×1 grid with a single letter cell. -/
theorem claim_C2_witness :
    ∃ w, assignOutsideSlotsInWaves [[1]] [("0,0", 'A')] "balanced" = .ok w ∧
      ((∀ k ∈ JsMap.keys [("0,0", 'A')], (JsMap.get? w.byCell k).isSome = true) ∧
       (∀ k ∈ JsMap.keys [("0,0", 'A')],
         ∃ sid q, JsMap.get? w.slotQueues sid = some q ∧ k ∈ q) ∧
       (∀ sid q, JsMap.get? w.slotQueues sid = some q → q.Nodup) ∧
       (∀ sid1 q1 sid2 q2 k, JsMap.get? w.slotQueues sid1 = some q1 →
         JsMap.get? w.slotQueues sid2 = some q2 → k ∈ q1 → k ∈ q2 → sid1 = sid2) ∧
       (∀ sid q, JsMap.get? w.slotQueues sid = some q →
         q.Pairwise (fun a b => ∀ ra rb, JsMap.get? w.byCell a = some ra →
           JsMap.get? w.byCell b = some rb → ra.wave < rb.wave)) ∧
       (∀ k1 k2 r1 r2, JsMap.get? w.byCell k1 = some r1 →
         JsMap.get? w.byCell k2 = some r2 →
         r1.wave = r2.wave → r1.id = r2.id → k1 = k2)) := by
  rcases hres : assignOutsideSlotsInWaves [[1]] [("0,0", 'A')] "balanced" with e | w
  · exfalso
    have hchk : (match assignOutsideSlotsInWaves [[1]] [("0,0", 'A')] "balanced" with
        | Except.ok _ => true
        | Except.error _ => false) = true := by decide
    rw [hres] at hchk
    exact Bool.noConfusion hchk
  · exact ⟨w, rfl, claim_C2_waves_assign_every_cell [[1]] [("0,0", 'A')] "balanced" w
      (by decide) (by decide) (by decide) hres⟩

/-! ## Hopcroft–Karp completeness (towards C3 and C8) -/

theorem mkSlots_length (N : Nat) : (mkSlots N).length = 4 * N := by
  have h : ∀ (f g : Nat → Slot),
      ((List.range N).flatMap (fun r => [f r, g r])).length = 2 * N := by
    intro f g
    induction N with
    | zero => rfl
    | succ n ih =>
      rw [List.range_succ, List.flatMap_append, List.length_append, ih]
      simp
      omega
  unfold mkSlots
  rw [List.length_append, h, h]
  omega

theorem slotId_R_mem_mkSlots {N r : Nat} (hr : r < N) :
    slotId 'R' r ∈ (mkSlots N).map Slot.id := by
  refine List.mem_map.mpr ⟨⟨slotId 'R' r, "R", r⟩, ?_, rfl⟩
  unfold mkSlots
  refine List.mem_append.mpr (Or.inl ?_)
  refine List.mem_flatMap.mpr ⟨r, List.mem_range.mpr hr, ?_⟩
  exact List.mem_cons_of_mem _ (List.mem_cons_self _ _)

theorem slotId_T_mem_mkSlots {N c : Nat} (hc : c < N) :
    slotId 'T' c ∈ (mkSlots N).map Slot.id := by
  refine List.mem_map.mpr ⟨⟨slotId 'T' c, "T", c⟩, ?_, rfl⟩
  unfold mkSlots
  refine List.mem_append.mpr (Or.inr ?_)
  refine List.mem_flatMap.mpr ⟨c, List.mem_range.mpr hc, ?_⟩
  exact List.mem_cons_self _ _

theorem slotId_B_mem_mkSlots {N c : Nat} (hc : c < N) :
    slotId 'B' c ∈ (mkSlots N).map Slot.id := by
  refine List.mem_map.mpr ⟨⟨slotId 'B' c, "B", c⟩, ?_, rfl⟩
  unfold mkSlots
  refine List.mem_append.mpr (Or.inr ?_)
  refine List.mem_flatMap.mpr ⟨c, List.mem_range.mpr hc, ?_⟩
  exact List.mem_cons_of_mem _ (List.mem_cons_self _ _)

/-- Both difficulty orderings list exactly the cell's four candidate slots. -/
theorem orderedSlotIds_mem_iff (firstRow : Bool) (r c : Nat) (x : String) :
    x ∈ orderedSlotIds firstRow r c ↔
      x ∈ [slotId 'L' r, slotId 'R' r, slotId 'T' c, slotId 'B' c] := by
  unfold orderedSlotIds
  cases firstRow
  · simp
    tauto
  · simp

/-- `slotIndex` lookups return the index of the slot carrying the looked-up
id. -/
theorem mkSlotIndex_correct (slots : List Slot) (hids : (slots.map Slot.id).Nodup)
    {id : String} {vi : Nat} (h : JsMap.get? (mkSlotIndex slots) id = some vi) :
    vi < slots.length ∧ (slots.getD vi ⟨"", "", 0⟩).id = id := by
  have hmemi : ∀ p : Nat × Slot, p ∈ slots.enum → p.1 < slots.length ∧
      slots.getD p.1 ⟨"", "", 0⟩ = p.2 := by
    intro p hp
    have h3 := List.mem_enum_iff_getElem?.mp hp
    by_cases h4 : p.1 < slots.length
    · refine ⟨h4, ?_⟩
      rw [List.getD_eq_getElem slots _ h4]
      rw [List.getElem?_eq_getElem h4] at h3
      injection h3
    · rw [List.getElem?_eq_none (by omega)] at h3
      exact Option.noConfusion h3
  have hinj : ∀ p ∈ slots.enum, ∀ q ∈ slots.enum, p.2.id = q.2.id → p = q := by
    intro p hp q hq hpq
    obtain ⟨hp1, hp2⟩ := hmemi p hp
    obtain ⟨hq1, hq2⟩ := hmemi q hq
    have hidx : p.1 = q.1 := slots_getD_id_inj hids hp1 hq1 (by rw [hp2, hq2]; exact hpq)
    have hsl : p.2 = q.2 := by rw [← hp2, ← hq2, hidx]
    obtain ⟨pi, ps⟩ := p
    obtain ⟨qi, qs⟩ := q
    simp only at hidx hsl
    rw [hidx, hsl]
  have hen : slots.enum.Nodup := by
    have h1 : (slots.enum.map Prod.fst).Nodup := by
      rw [List.enum_map_fst]
      exact List.nodup_range _
    exact h1.of_map
  unfold mkSlotIndex at h
  have hchar := (foldl_set_get?_some (fun p : Nat × Slot => p.2.id)
    (fun p : Nat × Slot => p.1) slots.enum hen hinj JsMap.empty id vi).mp h
  rcases hchar with ⟨p, hp, hpid, hpv⟩ | ⟨_, habs⟩
  · obtain ⟨h1, h2⟩ := hmemi p hp
    rw [hpv]
    exact ⟨h1, by rw [h2]; exact hpid⟩
  · exact Option.noConfusion habs

theorem adjFor_mem_iff (slotIndex : JsMap String Nat) (ids : List String) (v : Nat) :
    v ∈ adjFor slotIndex ids ↔ ∃ id ∈ ids, JsMap.get? slotIndex id = some v := by
  unfold adjFor
  exact List.mem_filterMap

/-- A duplicate-free list included in another is no longer than it. -/
theorem nodup_subset_length_le {α : Type} [DecidableEq α] (l1 l2 : List α)
    (hnd : l1.Nodup) (hsub : l1 ⊆ l2) : l1.length ≤ l2.length :=
  (List.subperm_of_subset hnd hsub).length_le

/-- A perfect matching of the specification's graph bounds the cell count by
the number of border slots. -/
theorem hasPerfectMatching_le (N : Nat) (cells : List String)
    (hnodup : cells.Nodup)
    (hvalid : ∀ k ∈ cells, (validKey? N k).isSome = true)
    (hpm : HasPerfectMatching N cells) : cells.length ≤ 4 * N := by
  obtain ⟨f, hf1, hf2⟩ := hpm
  have hmap : ∀ k ∈ cells, f k ∈ (mkSlots N).map Slot.id := by
    intro k hk
    have hv := hvalid k hk
    rcases hrc : validKey? N k with _ | rc
    · rw [hrc] at hv
      exact Bool.noConfusion hv
    obtain ⟨r, c⟩ := rc
    have h4 := hf1 k hk r c hrc
    obtain ⟨hr, hc⟩ := validKey?_lt hrc
    simp only [List.mem_cons, List.not_mem_nil, or_false] at h4
    rcases h4 with h | h | h | h
    · rw [h]; exact slotId_L_mem_mkSlots hr
    · rw [h]; exact slotId_R_mem_mkSlots hr
    · rw [h]; exact slotId_T_mem_mkSlots hc
    · rw [h]; exact slotId_B_mem_mkSlots hc
  have hnd2 : (cells.map f).Nodup := List.Nodup.map_on hf2 hnodup
  have hsub : cells.map f ⊆ (mkSlots N).map Slot.id := by
    intro x hx
    obtain ⟨k, hk, hfk⟩ := List.mem_map.mp hx
    rw [← hfk]
    exact hmap k hk
  have hle := nodup_subset_length_le _ _ hnd2 hsub
  rw [List.length_map, List.length_map, mkSlots_length] at hle
  exact hle

/-- A perfect matching of the specification's graph induces an index-level
perfect matching into the built adjacency lists. -/
theorem hasPerfectMatching_toPM (grid : List (List Nat)) (letters : JsMap String Char)
    (difficulty : String) (adjL : List (List Nat))
    (hnodup : (JsMap.keys letters).Nodup)
    (hadjm : buildAdjacency grid.length difficulty (rowLenF grid grid.length)
      (colLenF grid grid.length) (mkSlotIndex (mkSlots grid.length))
      (JsMap.keys letters).enum = some adjL)
    (hpm : HasPerfectMatching grid.length (JsMap.keys letters)) :
    HasPM (fun u => adjL.getD u []) (JsMap.keys letters).length := by
  set N := grid.length with hN
  set cells := JsMap.keys letters with hcells
  obtain ⟨f, hf1, hf2⟩ := hpm
  obtain ⟨hlen, hget⟩ := buildAdjacency_get N difficulty (rowLenF grid N) (colLenF grid N)
    (mkSlotIndex (mkSlots N)) cells.enum adjL hadjm
  have hids := mkSlots_id_nodup N
  have hcore : ∀ u, u < cells.length → ∃ vi,
      JsMap.get? (mkSlotIndex (mkSlots N)) (f (cells.getD u "")) = some vi ∧
      vi ∈ adjL.getD u [] ∧
      ((mkSlots N).getD vi ⟨"", "", 0⟩).id = f (cells.getD u "") := by
    intro u hu
    have hkd : cells.getD u "" = cells.get ⟨u, hu⟩ := List.getD_eq_getElem cells "" hu
    have hkmem : cells.getD u "" ∈ cells := by
      rw [hkd]
      exact List.get_mem cells u hu
    have huen : u < cells.enum.length := by
      rw [List.enum_length]
      exact hu
    obtain ⟨r, c, hvk, hadj_u⟩ := hget u huen
    have henu : cells.enum.get ⟨u, huen⟩ = (u, cells.get ⟨u, hu⟩) := by
      simp [List.getElem_enum]
    rw [henu] at hvk hadj_u
    have hkk : validKey? N (cells.getD u "") = some (r, c) := by
      rw [hkd]
      exact hvk
    obtain ⟨hr, hc⟩ := validKey?_lt hkk
    have h4 := hf1 (cells.getD u "") hkmem r c hkk
    have hfid : f (cells.getD u "") ∈ (mkSlots N).map Slot.id := by
      simp only [List.mem_cons, List.not_mem_nil, or_false] at h4
      rcases h4 with h | h | h | h
      · rw [h]; exact slotId_L_mem_mkSlots hr
      · rw [h]; exact slotId_R_mem_mkSlots hr
      · rw [h]; exact slotId_T_mem_mkSlots hc
      · rw [h]; exact slotId_B_mem_mkSlots hc
    have hsome := mkSlotIndex_isSome (mkSlots N) _ hfid
    rcases hgi : JsMap.get? (mkSlotIndex (mkSlots N)) (f (cells.getD u "")) with _ | vi
    · rw [hgi] at hsome
      exact Bool.noConfusion hsome
    obtain ⟨hvlt, hvid⟩ := mkSlotIndex_correct (mkSlots N) hids hgi
    refine ⟨vi, rfl, ?_, hvid⟩
    rw [hadj_u]
    refine (adjFor_mem_iff _ _ _).mpr ⟨f (cells.getD u ""), ?_, hgi⟩
    exact (orderedSlotIds_mem_iff _ r c _).mpr (by
      rw [hkd] at h4
      rw [hkd]
      exact h4)
  have hcellinj : ∀ i, i < cells.length → ∀ j, j < cells.length →
      cells.getD i "" = cells.getD j "" → i = j := by
    intro i hi j hj h
    rw [List.getD_eq_getElem cells "" hi, List.getD_eq_getElem cells "" hj] at h
    have hinj := List.nodup_iff_injective_get.mp hnodup
    have heq := @hinj ⟨i, hi⟩ ⟨j, hj⟩
      (by rw [List.get_eq_getElem, List.get_eq_getElem]; exact h)
    exact congrArg Fin.val heq
  refine ⟨fun u => (JsMap.get? (mkSlotIndex (mkSlots N)) (f (cells.getD u ""))).getD 0,
    ?_, ?_⟩
  · intro u hu
    obtain ⟨vi, hgi, hmem, _⟩ := hcore u hu
    show (JsMap.get? (mkSlotIndex (mkSlots N)) (f (cells.getD u ""))).getD 0
      ∈ adjL.getD u []
    rw [hgi]
    exact hmem
  · intro u1 hu1 u2 hu2 heq
    obtain ⟨v1, hg1, _, hid1⟩ := hcore u1 hu1
    obtain ⟨v2, hg2, _, hid2⟩ := hcore u2 hu2
    have heq2 : (JsMap.get? (mkSlotIndex (mkSlots N)) (f (cells.getD u1 ""))).getD 0
        = (JsMap.get? (mkSlotIndex (mkSlots N)) (f (cells.getD u2 ""))).getD 0 := heq
    rw [hg1, hg2] at heq2
    simp only [Option.getD_some] at heq2
    rw [heq2] at hid1
    have hfeq : f (cells.getD u1 "") = f (cells.getD u2 "") := by
      rw [← hid1, ← hid2]
    have hm1 : cells.getD u1 "" ∈ cells := by
      rw [List.getD_eq_getElem cells "" hu1]
      exact List.get_mem cells u1 hu1
    have hm2 : cells.getD u2 "" ∈ cells := by
      rw [List.getD_eq_getElem cells "" hu2]
      exact List.get_mem cells u2 hu2
    exact hcellinj u1 hu1 u2 hu2 (hf2 _ hm1 _ hm2 hfeq)

/-- Every vertex on a layered chain carries its position as its label. -/
theorem LChain_label (adj : Nat → List Nat) (M : Nat) (pairU pairV : Nat → Option Nat)
    (d0 : Nat → Nat) : ∀ y d, LChain adj M pairU pairV d0 y d → d0 y = d := by
  intro y d hc
  induction hc with
  | base u hu hfree hd => exact hd
  | step u v u2 d hc hv hm hd ih => exact hd

/-- Layered chains survive any relabelling that keeps finite labels. -/
theorem LChain_mono (adj : Nat → List Nat) (M : Nat) (pairU pairV : Nat → Option Nat)
    (d1 d2 : Nat → Nat) (hM : M + 1 < INF)
    (hstab : ∀ y, d1 y ≠ INF → d2 y = d1 y) :
    ∀ y d, LChain adj M pairU pairV d1 y d → d ≤ M → LChain adj M pairU pairV d2 y d := by
  intro y d hc
  induction hc with
  | base u hu hfree hd =>
    intro _
    refine LChain.base u hu hfree ?_
    rw [hstab u (by rw [hd]; omega), hd]
  | step u v u2 d hc hv hm hd ih =>
    intro hdM
    refine LChain.step u v u2 d (ih (by omega)) hv hm ?_
    rw [hstab u2 (by rw [hd]; omega), hd]

/-- The invariant transfer of one `bfsScan` call: chains are created for every
newly labelled vertex, the `found` flag is exact, every scanned matched
partner ends finite, newly finite vertices were enqueued, enqueued vertices
are in range, and the finite count advances with the queue. -/
theorem bfsScan_inv (adj : Nat → List Nat) (M : Nat) (hM : M + 1 < INF)
    (pairU pairV : Nat → Option Nat)
    (hpv : ∀ v u2, pairV v = some u2 → u2 < M) (u : Nat) (huM : u < M) :
    ∀ (vs : List Nat) (dist : Nat → Nat) (found : Bool) (acc : List Nat),
      (∀ v ∈ vs, v ∈ adj u) →
      (∀ y, dist y ≤ finCount M dist ∨ dist y = INF) → dist u ≠ INF →
      (∀ y, y < M → dist y ≠ INF → LChain adj M pairU pairV dist y (dist y)) →
      (∀ y, y < M → (bfsScan pairV u vs dist found acc).1 y ≠ INF →
        LChain adj M pairU pairV (bfsScan pairV u vs dist found acc).1 y
          ((bfsScan pairV u vs dist found acc).1 y)) ∧
      ((bfsScan pairV u vs dist found acc).2.1 = true →
        found = true ∨ ∃ v ∈ vs, pairV v = none) ∧
      ((bfsScan pairV u vs dist found acc).2.1 = false → ∀ v ∈ vs, pairV v ≠ none) ∧
      (∀ v ∈ vs, ∀ u2, pairV v = some u2 →
        (bfsScan pairV u vs dist found acc).1 u2 ≠ INF) ∧
      (∀ y, (bfsScan pairV u vs dist found acc).1 y ≠ INF →
        dist y ≠ INF ∨ y ∈ (bfsScan pairV u vs dist found acc).2.2) ∧
      (∀ q ∈ acc, q ∈ (bfsScan pairV u vs dist found acc).2.2) ∧
      (∀ q ∈ (bfsScan pairV u vs dist found acc).2.2, q ∈ acc ∨ q < M) ∧
      ((bfsScan pairV u vs dist found acc).2.2.length + finCount M dist
        = acc.length + finCount M (bfsScan pairV u vs dist found acc).1) := by
  intro vs
  induction vs with
  | nil =>
    intro dist found acc hvs hbnd hu hch
    refine ⟨hch, fun h => Or.inl h, ?_, ?_, fun y hy => Or.inl hy,
      fun q hq => hq, fun q hq => Or.inl hq, rfl⟩
    · intro _ v hv
      exact absurd hv (List.not_mem_nil v)
    · intro v hv
      exact absurd hv (List.not_mem_nil v)
  | cons v vs ih =>
    intro dist found acc hvs hbnd hu hch
    have hvadj : v ∈ adj u := hvs v (List.mem_cons_self v vs)
    have hvs' : ∀ w ∈ vs, w ∈ adj u := fun w hw => hvs w (List.mem_cons_of_mem _ hw)
    rcases hv : pairV v with _ | u2
    · have hout : bfsScan pairV u (v :: vs) dist found acc
          = bfsScan pairV u vs dist true acc := by
        simp only [bfsScan, hv]
      rw [hout]
      obtain ⟨i1, i2, i3, i4, i5, i6, i7, i8⟩ := ih dist true acc hvs' hbnd hu hch
      refine ⟨i1, ?_, ?_, ?_, i5, i6, i7, i8⟩
      · intro _
        exact Or.inr ⟨v, List.mem_cons_self v vs, hv⟩
      · intro hfalse
        rw [bfsScan_found_mono pairV u vs dist acc] at hfalse
        exact Bool.noConfusion hfalse
      · intro w hw u2 hwu2
        rcases List.mem_cons.mp hw with rfl | hw'
        · rw [hv] at hwu2
          exact Option.noConfusion hwu2
        · exact i4 w hw' u2 hwu2
    · by_cases hd : dist u2 = INF
      · have hu2M : u2 < M := hpv v u2 hv
        have hvalne : dist u + 1 ≠ INF := by
          rcases hbnd u with h | h
          · have hfc : finCount M dist ≤ M := finCount_le M dist
            omega
          · exact absurd h hu
        have hne : u ≠ u2 := fun h => hu (by rw [h]; exact hd)
        have hflip : finCount M (upd dist u2 (dist u + 1)) = finCount M dist + 1 := by
          unfold finCount
          refine filter_length_flip (List.range M) (List.nodup_range M)
            (List.mem_range.mpr hu2M) ?_ ?_ ?_
          · intro w hw
            rw [upd_ne dist u2 w _ hw]
          · simp [hd]
          · simp [hvalne]
        have hbnd' : ∀ y, upd dist u2 (dist u + 1) y
            ≤ finCount M (upd dist u2 (dist u + 1)) ∨ upd dist u2 (dist u + 1) y = INF := by
          intro y
          by_cases hy : y = u2
          · subst hy
            left
            rw [upd_self, hflip]
            rcases hbnd u with h | h
            · omega
            · exact absurd h hu
          · rw [upd_ne dist u2 y _ hy]
            rcases hbnd y with h | h
            · left; omega
            · exact Or.inr h
        have hu' : upd dist u2 (dist u + 1) u ≠ INF := by
          rw [upd_ne dist u2 u _ hne]
          exact hu
        have hduM : dist u ≤ M := by
          rcases hbnd u with h | h
          · exact h.trans (finCount_le M dist)
          · exact absurd h hu
        have hstab : ∀ z, dist z ≠ INF → upd dist u2 (dist u + 1) z = dist z := by
          intro z hz
          have hzne : z ≠ u2 := fun h => hz (by rw [h]; exact hd)
          exact upd_ne dist u2 z _ hzne
        have hch' : ∀ y, y < M → upd dist u2 (dist u + 1) y ≠ INF →
            LChain adj M pairU pairV (upd dist u2 (dist u + 1)) y
              (upd dist u2 (dist u + 1) y) := by
          intro y hyM hyfin
          by_cases hy : y = u2
          · subst hy
            rw [upd_self]
            have hchu : LChain adj M pairU pairV (upd dist y (dist u + 1)) u (dist u) :=
              LChain_mono adj M pairU pairV dist (upd dist y (dist u + 1)) hM hstab
                u (dist u) (hch u huM hu) hduM
            exact LChain.step u v y (dist u) hchu hvadj hv
              (upd_self dist y (dist u + 1))
          · rw [upd_ne dist u2 y _ hy]
            rw [upd_ne dist u2 y _ hy] at hyfin
            have hdyM : dist y ≤ M := by
              rcases hbnd y with h | h
              · exact h.trans (finCount_le M dist)
              · exact absurd h hyfin
            exact LChain_mono adj M pairU pairV dist (upd dist u2 (dist u + 1)) hM hstab
              y (dist y) (hch y hyM hyfin) hdyM
        obtain ⟨i1, i2, i3, i4, i5, i6, i7, i8⟩ :=
          ih (upd dist u2 (dist u + 1)) found (acc ++ [u2]) hvs' hbnd' hu' hch'
        obtain ⟨s1, s2, s3⟩ := bfsScan_spec pairV M hM hpv u vs
          (upd dist u2 (dist u + 1)) found (acc ++ [u2]) hbnd' hu'
        have hout : bfsScan pairV u (v :: vs) dist found acc
            = bfsScan pairV u vs (upd dist u2 (dist u + 1)) found (acc ++ [u2]) := by
          simp only [bfsScan, hv, if_pos hd]
        rw [hout]
        refine ⟨i1, ?_, ?_, ?_, ?_, ?_, ?_, ?_⟩
        · intro htrue
          rcases i2 htrue with h | ⟨w, hw, hwf⟩
          · exact Or.inl h
          · exact Or.inr ⟨w, List.mem_cons_of_mem _ hw, hwf⟩
        · intro hfalse w hw
          rcases List.mem_cons.mp hw with rfl | hw'
          · rw [hv]
            intro habs
            exact Option.noConfusion habs
          · exact i3 hfalse w hw'
        · intro w hw u2' hwu2
          rcases List.mem_cons.mp hw with rfl | hw'
          · rw [hv] at hwu2
            injection hwu2 with hwu2
            subst hwu2
            rw [s1 u2 (by rw [upd_self]; exact hvalne), upd_self]
            exact hvalne
          · exact i4 w hw' u2' hwu2
        · intro y hyfin
          rcases i5 y hyfin with h | h
          · by_cases hy : y = u2
            · subst hy
              exact Or.inr (i6 y (List.mem_append.mpr (Or.inr (List.mem_singleton.mpr rfl))))
            · rw [upd_ne dist u2 y _ hy] at h
              exact Or.inl h
          · exact Or.inr h
        · intro q hq
          exact i6 q (List.mem_append.mpr (Or.inl hq))
        · intro q hq
          rcases i7 q hq with h | h
          · rcases List.mem_append.mp h with h' | h'
            · exact Or.inl h'
            · have hq2 : q = u2 := by simpa using h'
              subst hq2
              exact Or.inr hu2M
          · exact Or.inr h
        · rw [List.length_append] at i8
          simp only [List.length_singleton] at i8
          rw [hflip] at i8
          omega
      · have hout : bfsScan pairV u (v :: vs) dist found acc
            = bfsScan pairV u vs dist found acc := by
          simp only [bfsScan, hv, if_neg hd]
        rw [hout]
        obtain ⟨i1, i2, i3, i4, i5, i6, i7, i8⟩ := ih dist found acc hvs' hbnd hu hch
        obtain ⟨s1, s2, s3⟩ := bfsScan_spec pairV M hM hpv u vs dist found acc hbnd hu
        refine ⟨i1, ?_, ?_, ?_, i5, i6, i7, i8⟩
        · intro htrue
          rcases i2 htrue with h | ⟨w, hw, hwf⟩
          · exact Or.inl h
          · exact Or.inr ⟨w, List.mem_cons_of_mem _ hw, hwf⟩
        · intro hfalse w hw
          rcases List.mem_cons.mp hw with rfl | hw'
          · rw [hv]
            intro habs
            exact Option.noConfusion habs
          · exact i3 hfalse w hw'
        · intro w hw u2' hwu2
          rcases List.mem_cons.mp hw with rfl | hw'
          · rw [hv] at hwu2
            injection hwu2 with hwu2
            subst hwu2
            rw [s1 u2 hd]
            exact hd
          · exact i4 w hw' u2' hwu2

/-- The full invariant of the `bfs` queue loop: at exit every finite vertex
heads a layered chain, a raised flag names a witness edge to a free slot, and
a clear flag certifies the processed closure. -/
theorem bfsLoop_inv (adj : Nat → List Nat) (M : Nat) (hM : M + 1 < INF)
    (pairU pairV : Nat → Option Nat)
    (hpv : ∀ v u2, pairV v = some u2 → u2 < M) :
    ∀ (fuel : Nat) (pending : List Nat) (dist : Nat → Nat) (found : Bool),
      (∀ y, dist y ≤ finCount M dist ∨ dist y = INF) →
      (∀ q ∈ pending, dist q ≠ INF ∧ q < M) →
      (∀ y, y < M → dist y ≠ INF → LChain adj M pairU pairV dist y (dist y)) →
      (found = true → ∃ u2 v, u2 < M ∧ dist u2 ≠ INF ∧ v ∈ adj u2 ∧ pairV v = none) →
      (∀ y, y < M → dist y ≠ INF → y ∉ pending →
        (found = false → ∀ v ∈ adj y, pairV v ≠ none) ∧
        (∀ v ∈ adj y, ∀ u2, pairV v = some u2 → dist u2 ≠ INF)) →
      pending.length + M ≤ fuel + finCount M dist →
      (∀ y, y < M → (bfsLoop adj pairV fuel pending dist found).1 y ≠ INF →
        LChain adj M pairU pairV (bfsLoop adj pairV fuel pending dist found).1 y
          ((bfsLoop adj pairV fuel pending dist found).1 y)) ∧
      ((bfsLoop adj pairV fuel pending dist found).2 = true →
        ∃ u2 v, u2 < M ∧ (bfsLoop adj pairV fuel pending dist found).1 u2 ≠ INF ∧
          v ∈ adj u2 ∧ pairV v = none) ∧
      (∀ y, y < M → (bfsLoop adj pairV fuel pending dist found).1 y ≠ INF →
        ((bfsLoop adj pairV fuel pending dist found).2 = false →
          ∀ v ∈ adj y, pairV v ≠ none) ∧
        (∀ v ∈ adj y, ∀ u2, pairV v = some u2 →
          (bfsLoop adj pairV fuel pending dist found).1 u2 ≠ INF)) := by
  intro fuel
  induction fuel with
  | zero =>
    intro pending dist found hbnd hpend hch hfw hcl hfuel
    have hfc : finCount M dist ≤ M := finCount_le M dist
    have hnil : pending = [] := List.length_eq_zero.mp (by omega)
    subst hnil
    exact ⟨hch, hfw, fun y hy hyfin => hcl y hy hyfin (List.not_mem_nil y)⟩
  | succ n ihn =>
    intro pending dist found hbnd hpend hch hfw hcl hfuel
    cases pending with
    | nil =>
      exact ⟨hch, hfw, fun y hy hyfin => hcl y hy hyfin (List.not_mem_nil y)⟩
    | cons u rest =>
      obtain ⟨hufin, huM⟩ := hpend u (List.mem_cons_self u rest)
      obtain ⟨s1, s2, s3⟩ := bfsScan_spec pairV M hM hpv u (adj u) dist found [] hbnd hufin
      obtain ⟨i1, i2, i3, i4, i5, i6, i7, i8⟩ := bfsScan_inv adj M hM pairU pairV hpv u huM
        (adj u) dist found [] (fun w hw => hw) hbnd hufin hch
      have hout : bfsLoop adj pairV (n + 1) (u :: rest) dist found
          = bfsLoop adj pairV n
              (rest ++ (bfsScan pairV u (adj u) dist found []).2.2)
              (bfsScan pairV u (adj u) dist found []).1
              (bfsScan pairV u (adj u) dist found []).2.1 := by
        simp only [bfsLoop]
      rw [hout]
      have hpend' : ∀ q ∈ rest ++ (bfsScan pairV u (adj u) dist found []).2.2,
          (bfsScan pairV u (adj u) dist found []).1 q ≠ INF ∧ q < M := by
        intro q hq
        rcases List.mem_append.mp hq with h | h
        · obtain ⟨hq1, hq2⟩ := hpend q (List.mem_cons_of_mem _ h)
          refine ⟨?_, hq2⟩
          rw [s1 q hq1]
          exact hq1
        · refine ⟨?_, ?_⟩
          · rcases s3 q h with h' | h'
            · exact absurd h' (List.not_mem_nil q)
            · exact h'
          · rcases i7 q h with h' | h'
            · exact absurd h' (List.not_mem_nil q)
            · exact h'
      have hfw' : (bfsScan pairV u (adj u) dist found []).2.1 = true →
          ∃ u2 v, u2 < M ∧ (bfsScan pairV u (adj u) dist found []).1 u2 ≠ INF ∧
            v ∈ adj u2 ∧ pairV v = none := by
        intro htrue
        rcases i2 htrue with h | ⟨w, hw, hwf⟩
        · obtain ⟨u2, v, h1, h2, h3, h4⟩ := hfw h
          refine ⟨u2, v, h1, ?_, h3, h4⟩
          rw [s1 u2 h2]
          exact h2
        · refine ⟨u, w, huM, ?_, hw, hwf⟩
          rw [s1 u hufin]
          exact hufin
      have hcl' : ∀ y, y < M → (bfsScan pairV u (adj u) dist found []).1 y ≠ INF →
          y ∉ rest ++ (bfsScan pairV u (adj u) dist found []).2.2 →
          ((bfsScan pairV u (adj u) dist found []).2.1 = false →
            ∀ v ∈ adj y, pairV v ≠ none) ∧
          (∀ v ∈ adj y, ∀ u2, pairV v = some u2 →
            (bfsScan pairV u (adj u) dist found []).1 u2 ≠ INF) := by
        intro y hyM hyfin hynp
        have hynr : y ∉ rest := fun h => hynp (List.mem_append.mpr (Or.inl h))
        have hyna : y ∉ (bfsScan pairV u (adj u) dist found []).2.2 :=
          fun h => hynp (List.mem_append.mpr (Or.inr h))
        by_cases hyu : y = u
        · subst hyu
          exact ⟨fun hfalse => i3 hfalse, fun v hv u2 hvu2 => i4 v hv u2 hvu2⟩
        · have hyold : dist y ≠ INF := by
            rcases i5 y hyfin with h | h
            · exact h
            · exact absurd h hyna
          have hynold : y ∉ u :: rest := by
            intro h
            rcases List.mem_cons.mp h with h' | h'
            · exact hyu h'
            · exact hynr h'
          obtain ⟨c1, c2⟩ := hcl y hyM hyold hynold
          refine ⟨?_, ?_⟩
          · intro hfalse
            have hfold : found = false := by
              cases hfnd : found with
              | false => rfl
              | true =>
                rw [hfnd] at hfalse
                rw [bfsScan_found_mono pairV u (adj u) dist []] at hfalse
                exact Bool.noConfusion hfalse
            exact c1 hfold
          · intro v hv u2 hvu2
            have hold := c2 v hv u2 hvu2
            rw [s1 u2 hold]
            exact hold
      have hfuel' : (rest ++ (bfsScan pairV u (adj u) dist found []).2.2).length + M
          ≤ n + finCount M (bfsScan pairV u (adj u) dist found []).1 := by
        rw [List.length_append]
        simp only [List.length_cons, List.length_nil] at hfuel i8
        omega
      exact ihn (rest ++ (bfsScan pairV u (adj u) dist found []).2.2)
        (bfsScan pairV u (adj u) dist found []).1
        (bfsScan pairV u (adj u) dist found []).2.1 s2 hpend' i1 hfw' hcl' hfuel'

/-- The `bfs` entry point satisfies the chain, witness and closure
invariants. -/
theorem bfs_inv (adj : Nat → List Nat) (M : Nat) (pairU pairV : Nat → Option Nat)
    (hM : M + 1 < INF) (hpv : ∀ v u2, pairV v = some u2 → u2 < M) :
    (∀ y, y < M → (bfs adj M pairU pairV).1 y ≠ INF →
      LChain adj M pairU pairV (bfs adj M pairU pairV).1 y ((bfs adj M pairU pairV).1 y)) ∧
    ((bfs adj M pairU pairV).2 = true → ∃ u2 v, u2 < M ∧
      (bfs adj M pairU pairV).1 u2 ≠ INF ∧ v ∈ adj u2 ∧ pairV v = none) ∧
    (∀ y, y < M → (bfs adj M pairU pairV).1 y ≠ INF →
      ((bfs adj M pairU pairV).2 = false → ∀ v ∈ adj y, pairV v ≠ none) ∧
      (∀ v ∈ adj y, ∀ u2, pairV v = some u2 → (bfs adj M pairU pairV).1 u2 ≠ INF)) := by
  have hINF0 : (0 : Nat) ≠ INF := by unfold INF; omega
  have hd0 : ∀ y, (if pairU y = none then 0 else INF)
      ≤ finCount M (fun w => if pairU w = none then 0 else INF)
      ∨ (if pairU y = none then 0 else INF) = INF := by
    intro y
    by_cases h : pairU y = none
    · left
      rw [if_pos h]
      exact Nat.zero_le _
    · right
      rw [if_neg h]
  have hpend : ∀ q ∈ (List.range M).filter (fun w => pairU w = none),
      (if pairU q = none then 0 else INF) ≠ INF ∧ q < M := by
    intro q hq
    obtain ⟨hq1, hq2⟩ := List.mem_filter.mp hq
    have h' : pairU q = none := by simpa using hq2
    rw [if_pos h']
    exact ⟨hINF0, List.mem_range.mp hq1⟩
  have hch : ∀ y, y < M → (if pairU y = none then 0 else INF) ≠ INF →
      LChain adj M pairU pairV (fun w => if pairU w = none then 0 else INF) y
        (if pairU y = none then 0 else INF) := by
    intro y hy hyfin
    by_cases h : pairU y = none
    · rw [if_pos h]
      exact LChain.base y hy h (if_pos h)
    · rw [if_neg h] at hyfin
      exact absurd rfl hyfin
  have hfw : (false = true) → ∃ u2 v, u2 < M ∧
      (if pairU u2 = none then 0 else INF) ≠ INF ∧ v ∈ adj u2 ∧ pairV v = none :=
    fun h => Bool.noConfusion h
  have hcl : ∀ y, y < M → (if pairU y = none then 0 else INF) ≠ INF →
      y ∉ (List.range M).filter (fun w => pairU w = none) →
      ((false = false) → ∀ v ∈ adj y, pairV v ≠ none) ∧
      (∀ v ∈ adj y, ∀ u2, pairV v = some u2 →
        (if pairU u2 = none then 0 else INF) ≠ INF) := by
    intro y hy hyfin hynp
    by_cases h : pairU y = none
    · exact absurd (List.mem_filter.mpr ⟨List.mem_range.mpr hy, by simp [h]⟩) hynp
    · rw [if_neg h] at hyfin
      exact absurd rfl hyfin
  have hfuel : ((List.range M).filter (fun w => pairU w = none)).length + M
      ≤ (2 * M + 1) + finCount M (fun w => if pairU w = none then 0 else INF) := by
    have h1 := List.length_filter_le (fun w => pairU w = none) (List.range M)
    rw [List.length_range] at h1
    omega
  obtain ⟨j1, j2, j3⟩ := bfsLoop_inv adj M hM pairU pairV hpv (2 * M + 1)
    ((List.range M).filter (fun w => pairU w = none))
    (fun w => if pairU w = none then 0 else INF) false hd0 hpend hch hfw hcl hfuel
  exact ⟨j1, j2, j3⟩

/-- A successful single-wave assignment certifies a perfect matching of the
specification's bipartite graph. -/
theorem assignOutsideSlots_some_hasPM (grid : List (List Nat)) (letters : JsMap String Char)
    (difficulty : String) (a : SingleAssignment)
    (hnodup : (JsMap.keys letters).Nodup)
    (hsize : (JsMap.keys letters).length + 1 < INF)
    (h : assignOutsideSlots grid letters difficulty = some a) :
    HasPerfectMatching grid.length (JsMap.keys letters) := by
  simp only [assignOutsideSlots] at h
  by_cases hMK : (JsMap.keys letters).length > (mkSlots grid.length).length
  · rw [if_pos hMK] at h
    exact Option.noConfusion h
  rw [if_neg hMK] at h
  rcases hadjm : buildAdjacency grid.length difficulty (rowLenF grid grid.length)
      (colLenF grid grid.length) (mkSlotIndex (mkSlots grid.length))
      (JsMap.keys letters).enum with _ | adjL
  · rw [hadjm] at h
    exact Option.noConfusion h
  simp only [hadjm] at h
  by_cases hrn : (hkRun (fun u => adjL.getD u []) (JsMap.keys letters).length).1
      ≠ (JsMap.keys letters).length
  · rw [if_pos hrn] at h
    exact Option.noConfusion h
  have hrun := not_ne_iff.mp hrn
  set N := grid.length with hN
  set cells := JsMap.keys letters with hcells
  set pU := (hkRun (fun u => adjL.getD u []) cells.length).2.pairU with hpUdef
  obtain ⟨hInv, hcnt⟩ := hkRun_spec (fun u => adjL.getD u []) cells.length hsize
  rw [hrun] at hcnt
  have htotal : ∀ u, u < cells.length → (pU u).isSome := matchedCount_total hcnt.symm
  obtain ⟨hlen, hget⟩ := buildAdjacency_get N difficulty (rowLenF grid N) (colLenF grid N)
    (mkSlotIndex (mkSlots N)) cells.enum adjL hadjm
  have hids := mkSlots_id_nodup N
  have hcore : ∀ k, k ∈ cells → ∃ v r1 c1,
      pU (List.indexOf k cells) = some v ∧ v < (mkSlots N).length ∧
      validKey? N k = some (r1, c1) ∧
      ((mkSlots N).getD v ⟨"", "", 0⟩).id
        ∈ [slotId 'L' r1, slotId 'R' r1, slotId 'T' c1, slotId 'B' c1] := by
    intro k hk
    have hu : List.indexOf k cells < cells.length := List.indexOf_lt_length.mpr hk
    have hku : cells.get ⟨List.indexOf k cells, hu⟩ = k := List.indexOf_get hu
    rcases hpu : pU (List.indexOf k cells) with _ | v
    · have habs := htotal _ hu
      rw [hpu] at habs
      exact Bool.noConfusion habs
    have hedge : v ∈ adjL.getD (List.indexOf k cells) [] :=
      (hInv.2.2 (List.indexOf k cells) v hpu).2
    have huen : List.indexOf k cells < cells.enum.length := by
      rw [List.enum_length]
      exact hu
    obtain ⟨r1, c1, hvk, hadj_u⟩ := hget (List.indexOf k cells) huen
    have henu : cells.enum.get ⟨List.indexOf k cells, huen⟩
        = (List.indexOf k cells, cells.get ⟨List.indexOf k cells, hu⟩) := by
      simp [List.getElem_enum]
    rw [henu] at hvk hadj_u
    have hkk : validKey? N k = some (r1, c1) := by
      rw [← hku]
      exact hvk
    rw [hadj_u] at hedge
    obtain ⟨id, hidmem, hidget⟩ := (adjFor_mem_iff _ _ _).mp hedge
    obtain ⟨hvlt2, hvid⟩ := mkSlotIndex_correct (mkSlots N) hids hidget
    refine ⟨v, r1, c1, rfl, hvlt2, hkk, ?_⟩
    rw [hvid]
    exact (orderedSlotIds_mem_iff _ r1 c1 id).mp hidmem
  refine ⟨fun k => ((mkSlots N).getD ((pU (List.indexOf k cells)).getD 0) ⟨"", "", 0⟩).id,
    ?_, ?_⟩
  · intro k hk r c hrc
    obtain ⟨v, r1, c1, hpu, hvlt, hkk, hmem4⟩ := hcore k hk
    rw [hkk] at hrc
    injection hrc with hrc
    have hr : r1 = r := congrArg Prod.fst hrc
    have hc : c1 = c := congrArg Prod.snd hrc
    show ((mkSlots N).getD ((pU (List.indexOf k cells)).getD 0) ⟨"", "", 0⟩).id
      ∈ [slotId 'L' r, slotId 'R' r, slotId 'T' c, slotId 'B' c]
    rw [hpu]
    simp only [Option.getD_some]
    rw [← hr, ← hc]
    exact hmem4
  · intro k1 hk1 k2 hk2 hfeq
    obtain ⟨v1, r1, c1, hpu1, hvlt1, _, _⟩ := hcore k1 hk1
    obtain ⟨v2, r2, c2, hpu2, hvlt2, _, _⟩ := hcore k2 hk2
    have hfeq2 : ((mkSlots N).getD ((pU (List.indexOf k1 cells)).getD 0) ⟨"", "", 0⟩).id
        = ((mkSlots N).getD ((pU (List.indexOf k2 cells)).getD 0) ⟨"", "", 0⟩).id := hfeq
    rw [hpu1, hpu2] at hfeq2
    simp only [Option.getD_some] at hfeq2
    have hv : v1 = v2 := slots_getD_id_inj hids hvlt1 hvlt2 hfeq2
    rw [hv] at hpu1
    have hu12 : List.indexOf k1 cells = List.indexOf k2 cells := by
      have hq1 := hInv.1 _ v2 hpu1
      have hq2 := hInv.1 _ v2 hpu2
      rw [hq1] at hq2
      injection hq2
    have hi1 : List.indexOf k1 cells < cells.length := List.indexOf_lt_length.mpr hk1
    have hi2 : List.indexOf k2 cells < cells.length := List.indexOf_lt_length.mpr hk2
    calc k1 = cells.get ⟨List.indexOf k1 cells, hi1⟩ := (List.indexOf_get hi1).symm
      _ = cells.get ⟨List.indexOf k2 cells, hi2⟩ := congrArg cells.get (Fin.ext hu12)
      _ = k2 := List.indexOf_get hi2

/-- The inner `dfs` loop keeps the dead closure on failure, provided the
supplied recursive call does and the already scanned edges are dead. -/
theorem dfsGo_fail (adj : Nat → List Nat) (M : Nat) (hM : M + 1 < INF)
    (pairV0 : Nat → Option Nat) (d0 : Nat → Nat)
    (hd0 : ∀ y, d0 y ≤ M ∨ d0 y = INF)
    (dfsRec : HKState → Nat → Bool × HKState) (fuelRec : Nat)
    (hrec : ∀ s u, DfsFailIn adj pairV0 d0 s u → M + 2 ≤ d0 u + fuelRec →
      ∀ s', dfsRec s u = (false, s') → DfsFailOut adj pairV0 d0 s u s') :
    ∀ (vs : List Nat) (s : HKState) (u : Nat),
      DfsFailIn adj pairV0 d0 s u → M + 2 ≤ d0 u + (fuelRec + 1) →
      (∃ pre, adj u = pre ++ vs ∧
        (∀ v ∈ pre, s.pairV v ≠ none) ∧
        (∀ v ∈ pre, ∀ u2, s.pairV v = some u2 → d0 u2 = d0 u + 1 → s.dist u2 = INF)) →
      ∀ s', dfsGo dfsRec s u vs = (false, s') → DfsFailOut adj pairV0 d0 s u s' := by
  intro vs
  induction vs with
  | nil =>
    intro s u hin hfuel hacc s' h
    obtain ⟨hpv, hagree, hK, hdu, hufin⟩ := hin
    obtain ⟨pre, hpre_eq, hpre1, hpre2⟩ := hacc
    rw [List.append_nil] at hpre_eq
    simp only [dfsGo] at h
    injection h with h1 h2
    refine ⟨by rw [← h2], by rw [← h2], ?_, ?_, ?_, ?_⟩
    · intro y
      rw [← h2]
      by_cases hy : y = u
      · subst hy
        exact Or.inr (upd_self s.dist y INF)
      · exact Or.inl (upd_ne s.dist u y INF hy)
    · intro y hylt
      rw [← h2]
      exact upd_ne s.dist u y INF (fun hy => by rw [hy] at hylt; omega)
    · rw [← h2]
      exact upd_self s.dist u INF
    · intro y hyINF hyfin
      rw [← h2] at hyINF
      have hyINF2 : upd s.dist u INF y = INF := hyINF
      by_cases hy : y = u
      · subst hy
        refine ⟨?_, ?_⟩
        · intro v hv
          rw [← hpv]
          rw [hpre_eq] at hv
          exact hpre1 v hv
        · intro v hv u2 hvu2 hd2
          rw [hpre_eq] at hv
          have hold : s.dist u2 = INF :=
            hpre2 v hv u2 (by rw [hpv]; exact hvu2) hd2
          rw [← h2]
          by_cases hu2 : u2 = y
          · rw [hu2]
            exact upd_self s.dist y INF
          · exact (upd_ne s.dist y u2 INF hu2).trans hold
      · rw [upd_ne s.dist u y INF hy] at hyINF2
        obtain ⟨k1, k2⟩ := hK y hyINF2 hyfin
        refine ⟨k1, ?_⟩
        intro v hv u2 hvu2 hd2
        have hold := k2 v hv u2 hvu2 hd2
        rw [← h2]
        by_cases hu2 : u2 = u
        · rw [hu2]
          exact upd_self s.dist u INF
        · exact (upd_ne s.dist u u2 INF hu2).trans hold
  | cons v vs ih =>
    intro s u hin hfuel hacc s' h
    obtain ⟨hpv, hagree, hK, hdu, hufin⟩ := hin
    obtain ⟨pre, hpre_eq, hpre1, hpre2⟩ := hacc
    have hvalne : d0 u + 1 ≠ INF := by
      rcases hd0 u with h2 | h2
      · omega
      · exact absurd h2 hufin
    rcases hsv : s.pairV v with _ | u2
    · simp only [dfsGo, hsv] at h
      injection h with h1 h2
      exact Bool.noConfusion h1
    · by_cases hcond : s.dist u2 = s.dist u + 1
      · rcases hrecres : dfsRec s u2 with ⟨b2, s2⟩
        cases b2 with
        | true =>
          simp only [dfsGo, hsv, if_pos hcond, hrecres] at h
          injection h with h1 h2
          exact Bool.noConfusion h1
        | false =>
          simp only [dfsGo, hsv, if_pos hcond, hrecres] at h
          have hsd2 : s.dist u2 = d0 u + 1 := by rw [hcond, hdu]
          have hd02 : d0 u2 = d0 u + 1 := by
            rcases hagree u2 with h2 | h2
            · rw [← h2]
              exact hsd2
            · rw [h2] at hsd2
              exact absurd hsd2.symm hvalne
          obtain ⟨r1, r2, r3, r4, r5, r6⟩ := hrec s u2
            ⟨hpv, hagree, hK, by rw [hsd2, hd02], by rw [hd02]; exact hvalne⟩
            (by omega) s2 hrecres
          have hin2 : DfsFailIn adj pairV0 d0 s2 u := by
            refine ⟨r2.trans hpv, ?_, r6, ?_, hufin⟩
            · intro y
              rcases r3 y with h2 | h2
              · rw [h2]
                exact hagree y
              · exact Or.inr h2
            · rw [r4 u (by omega), hdu]
          have hacc2 : ∃ pre2, adj u = pre2 ++ vs ∧
              (∀ w ∈ pre2, s2.pairV w ≠ none) ∧
              (∀ w ∈ pre2, ∀ w2, s2.pairV w = some w2 → d0 w2 = d0 u + 1 →
                s2.dist w2 = INF) := by
            refine ⟨pre ++ [v], by rw [hpre_eq]; simp, ?_, ?_⟩
            · intro w hw
              rw [r2]
              rcases List.mem_append.mp hw with h2 | h2
              · exact hpre1 w h2
              · have hwv : w = v := by simpa using h2
                subst hwv
                rw [hsv]
                intro habs
                exact Option.noConfusion habs
            · intro w hw w2 hww2 hdw2
              rw [r2] at hww2
              rcases List.mem_append.mp hw with h2 | h2
              · have hold := hpre2 w h2 w2 hww2 hdw2
                rcases r3 w2 with h3 | h3
                · rw [h3]
                  exact hold
                · exact h3
              · have hwv : w = v := by simpa using h2
                subst hwv
                rw [hsv] at hww2
                injection hww2 with hww2
                subst hww2
                exact r5
          obtain ⟨q1, q2, q3, q4, q5, q6⟩ := ih s2 u hin2 hfuel hacc2 s' h
          refine ⟨q1.trans r1, q2.trans r2, ?_, ?_, q5, q6⟩
          · intro y
            rcases q3 y with h2 | h2
            · rw [h2]
              exact r3 y
            · exact Or.inr h2
          · intro y hylt
            rw [q4 y hylt, r4 y (by omega)]
      · simp only [dfsGo, hsv, if_neg hcond] at h
        have hacc2 : ∃ pre2, adj u = pre2 ++ vs ∧
            (∀ w ∈ pre2, s.pairV w ≠ none) ∧
            (∀ w ∈ pre2, ∀ w2, s.pairV w = some w2 → d0 w2 = d0 u + 1 →
              s.dist w2 = INF) := by
          refine ⟨pre ++ [v], by rw [hpre_eq]; simp, ?_, ?_⟩
          · intro w hw
            rcases List.mem_append.mp hw with h2 | h2
            · exact hpre1 w h2
            · have hwv : w = v := by simpa using h2
              subst hwv
              rw [hsv]
              intro habs
              exact Option.noConfusion habs
          · intro w hw w2 hww2 hdw2
            rcases List.mem_append.mp hw with h2 | h2
            · exact hpre2 w h2 w2 hww2 hdw2
            · have hwv : w = v := by simpa using h2
              subst hwv
              rw [hsv] at hww2
              injection hww2 with hww2
              subst hww2
              rcases hagree u2 with h2 | h2
              · rw [h2, hdw2] at hcond
                rw [hdu] at hcond
                exact absurd rfl hcond
              · exact h2
        exact ih s u ⟨hpv, hagree, hK, hdu, hufin⟩ hfuel hacc2 s' h

/-- A failing `dfs` call keeps the dead closure and kills its vertex. -/
theorem dfs_fail (adj : Nat → List Nat) (M : Nat) (hM : M + 1 < INF)
    (pairV0 : Nat → Option Nat) (d0 : Nat → Nat)
    (hd0 : ∀ y, d0 y ≤ M ∨ d0 y = INF) :
    ∀ (fuel : Nat) (s : HKState) (u : Nat),
      DfsFailIn adj pairV0 d0 s u → M + 2 ≤ d0 u + fuel →
      ∀ s', dfs adj fuel s u = (false, s') → DfsFailOut adj pairV0 d0 s u s' := by
  intro fuel
  induction fuel with
  | zero =>
    intro s u hin hfuel s' h
    obtain ⟨_, _, _, _, hufin⟩ := hin
    rcases hd0 u with hle | hINF
    · omega
    · exact absurd hINF hufin
  | succ n ihn =>
    intro s u hin hfuel s' h
    have h2 : dfsGo (fun s3 u3 => dfs adj n s3 u3) s u (adj u) = (false, s') := h
    exact dfsGo_fail adj M hM pairV0 d0 hd0 (fun s3 u3 => dfs adj n s3 u3) n
      (fun s3 u3 hin3 hf3 s3' h3 => ihn s3 u3 hin3 hf3 s3' h3)
      (adj u) s u hin hfuel
      ⟨[], rfl, fun w hw => absurd hw (List.not_mem_nil w),
        fun w hw => absurd hw (List.not_mem_nil w)⟩ s' h2

/-- A sweep that gains no matches consists of failing calls only: it keeps
the pairs untouched, keeps the dead closure, kills every listed free vertex,
and preserves `INF` entries. -/
theorem dfsSweep_allfail (adj : Nat → List Nat) (M : Nat) (hM : M + 1 < INF)
    (pairV0 : Nat → Option Nat) (d0 : Nat → Nat)
    (hd0 : ∀ y, d0 y ≤ M ∨ d0 y = INF) :
    ∀ (us : List Nat) (s : HKState) (matching : Nat),
      HKInv adj M s →
      us.Nodup → (∀ w ∈ us, w < M) →
      s.pairV = pairV0 →
      (∀ y, s.dist y = d0 y ∨ s.dist y = INF) →
      DeadClosed adj pairV0 d0 s →
      (∀ w ∈ us, s.pairU w = none → s.dist w = d0 w ∧ d0 w = 0) →
      (dfsSweep adj (2 * M + 2) us s matching).1 = matching →
      (dfsSweep adj (2 * M + 2) us s matching).2.pairU = s.pairU ∧
      (dfsSweep adj (2 * M + 2) us s matching).2.pairV = s.pairV ∧
      DeadClosed adj pairV0 d0 (dfsSweep adj (2 * M + 2) us s matching).2 ∧
      (∀ w ∈ us, s.pairU w = none →
        (dfsSweep adj (2 * M + 2) us s matching).2.dist w = INF) ∧
      (∀ y, s.dist y = INF → (dfsSweep adj (2 * M + 2) us s matching).2.dist y = INF) := by
  intro us
  induction us with
  | nil =>
    intro s matching _ _ _ _ _ hK _ _
    exact ⟨rfl, rfl, hK, fun w hw => absurd hw (List.not_mem_nil w), fun y h => h⟩
  | cons u us ih =>
    intro s matching hInv hnd hlt hpveq hagree hK hfree hsum
    obtain ⟨hnu, hndus⟩ := List.nodup_cons.mp hnd
    have huM : u < M := hlt u (List.mem_cons_self u us)
    have hlt' : ∀ w ∈ us, w < M := fun w hw => hlt w (List.mem_cons_of_mem _ hw)
    by_cases hpu : s.pairU u = none
    · obtain ⟨hdw, hd0w⟩ := hfree u (List.mem_cons_self u us) hpu
      rcases hres : dfs adj (2 * M + 2) s u with ⟨b, s1⟩
      cases b with
      | true =>
        have hout : dfsSweep adj (2 * M + 2) (u :: us) s matching
            = dfsSweep adj (2 * M + 2) us s1 (matching + 1) := by
          simp only [dfsSweep, if_pos hpu, hres]
        rw [hout] at hsum
        have hle := dfsSweep_counter_le adj (2 * M + 2) us s1 (matching + 1)
        omega
      | false =>
        have hout : dfsSweep adj (2 * M + 2) (u :: us) s matching
            = dfsSweep adj (2 * M + 2) us s1 matching := by
          simp only [dfsSweep, if_pos hpu, hres]
        rw [hout] at hsum ⊢
        have hufin : d0 u ≠ INF := by
          rw [hd0w]
          omega
        obtain ⟨r1, r2, r3, r4, r5, r6⟩ := dfs_fail adj M hM pairV0 d0 hd0
          (2 * M + 2) s u ⟨hpveq, hagree, hK, hdw, hufin⟩ (by rw [hd0w]; omega) s1 hres
        have hb : ∀ y, s.dist y ≤ M ∨ s.dist y = INF := by
          intro y
          rcases hagree y with h | h
          · rcases hd0 y with h2 | h2
            · exact Or.inl (by rw [h]; exact h2)
            · exact Or.inr (by rw [h]; exact h2)
          · exact Or.inr h
        have hduM : s.dist u ≤ M := by
          rw [hdw, hd0w]
          exact Nat.zero_le M
        have hspec := dfs_spec adj M hM (2 * M + 2) s u hInv huM hb hduM
        rw [hres] at hspec
        obtain ⟨_, _, _, hDV, _⟩ := hspec
        have hInv1 : HKInv adj M s1 := by
          unfold HKInv
          rw [r1, r2]
          exact hInv
        have hagree1 : ∀ y, s1.dist y = d0 y ∨ s1.dist y = INF := by
          intro y
          rcases r3 y with h | h
          · rw [h]
            exact hagree y
          · exact Or.inr h
        have hfree1 : ∀ w ∈ us, s1.pairU w = none → s1.dist w = d0 w ∧ d0 w = 0 := by
          intro w hw hwfree
          rw [r1] at hwfree
          obtain ⟨hw1, hw2⟩ := hfree w (List.mem_cons_of_mem _ hw) hwfree
          refine ⟨?_, hw2⟩
          by_cases hch : s1.dist w = s.dist w
          · rw [hch]
            exact hw1
          · rcases hDV w hch with h | h
            · rw [hwfree] at h
              exact Bool.noConfusion h
            · exact absurd (h ▸ hw) hnu
        obtain ⟨q1, q2, q3, q4, q5⟩ := ih s1 matching hInv1 hndus hlt'
          (r2.trans hpveq) hagree1 r6 hfree1 hsum
        refine ⟨q1.trans r1, q2.trans r2, q3, ?_, ?_⟩
        · intro w hw hwfree
          rcases List.mem_cons.mp hw with rfl | hw'
          · exact q5 w r5
          · have hwfree1 : s1.pairU w = none := by
              rw [r1]
              exact hwfree
            exact q4 w hw' hwfree1
        · intro y hy
          refine q5 y ?_
          rcases r3 y with h | h
          · rw [h]
            exact hy
          · exact h
    · have hout : dfsSweep adj (2 * M + 2) (u :: us) s matching
          = dfsSweep adj (2 * M + 2) us s matching := by
        simp only [dfsSweep, if_neg hpu]
      rw [hout] at hsum ⊢
      have hfree' : ∀ w ∈ us, s.pairU w = none → s.dist w = d0 w ∧ d0 w = 0 :=
        fun w hw => hfree w (List.mem_cons_of_mem _ hw)
      obtain ⟨q1, q2, q3, q4, q5⟩ := ih s matching hInv hndus hlt'
        hpveq hagree hK hfree' hsum
      refine ⟨q1, q2, q3, ?_, q5⟩
      intro w hw hwfree
      rcases List.mem_cons.mp hw with rfl | hw'
      · exact absurd hwfree hpu
      · exact q4 w hw' hwfree

/-- After a failed sweep, every vertex reachable along a layered chain is
killed. -/
theorem LChain_killed (adj : Nat → List Nat) (M : Nat) (hM : M + 1 < INF)
    (pairU pairV0 : Nat → Option Nat) (d0 : Nat → Nat) (sfin : HKState)
    (hK : DeadClosed adj pairV0 d0 sfin)
    (hfk : ∀ w, w < M → pairU w = none → sfin.dist w = INF) :
    ∀ y d, LChain adj M pairU pairV0 d0 y d → d ≤ M → sfin.dist y = INF := by
  intro y d hc
  induction hc with
  | base u hu hfree hd =>
    intro _
    exact hfk u hu hfree
  | step u v u2 d hc hv hm hd ih =>
    intro hdM
    have hlab : d0 u = d := LChain_label adj M pairU pairV0 d0 u d hc
    have hkill_u : sfin.dist u = INF := ih (by omega)
    have hfin_u : d0 u ≠ INF := by
      rw [hlab]
      omega
    obtain ⟨k1, k2⟩ := hK u hkill_u hfin_u
    exact k2 v hv u2 hm (by rw [hd, hlab])

/-- A phase whose `bfs` reports a free slot augments the sweep at least
once. -/
theorem sweep_progress (adj : Nat → List Nat) (M : Nat) (hM : M + 1 < INF)
    (s : HKState) (matching : Nat) (hInv : HKInv adj M s)
    (hfound : (bfs adj M s.pairU s.pairV).2 = true) :
    matching + 1 ≤ (dfsSweep adj (2 * M + 2) (List.range M)
      { s with dist := (bfs adj M s.pairU s.pairV).1 } matching).1 := by
  have hpv : ∀ v u2, s.pairV v = some u2 → u2 < M := fun v u2 h =>
    (hInv.2.2 u2 v (hInv.2.1 v u2 h)).1
  obtain ⟨b1, b2⟩ := bfs_dist_spec adj M s.pairU s.pairV hM hpv
  obtain ⟨j1, j2, j3⟩ := bfs_inv adj M s.pairU s.pairV hM hpv
  by_contra hcon
  have hle := dfsSweep_counter_le adj (2 * M + 2) (List.range M)
    { s with dist := (bfs adj M s.pairU s.pairV).1 } matching
  have hsum : (dfsSweep adj (2 * M + 2) (List.range M)
      { s with dist := (bfs adj M s.pairU s.pairV).1 } matching).1 = matching := by omega
  obtain ⟨q1, q2, q3, q4, q5⟩ := dfsSweep_allfail adj M hM s.pairV
    (bfs adj M s.pairU s.pairV).1 b1 (List.range M)
    { s with dist := (bfs adj M s.pairU s.pairV).1 } matching
    hInv (List.nodup_range M) (fun w hw => List.mem_range.mp hw)
    rfl (fun y => Or.inl rfl)
    (fun y h1 h2 => absurd h1 h2)
    (fun w _ hwfree => ⟨rfl, b2 w hwfree⟩)
    hsum
  obtain ⟨ustar, vstar, hu1, hu2, hu3, hu4⟩ := j2 hfound
  have hchain := j1 ustar hu1 hu2
  have hd0M : (bfs adj M s.pairU s.pairV).1 ustar ≤ M := by
    rcases b1 ustar with h | h
    · exact h
    · exact absurd h hu2
  have hkilled := LChain_killed adj M hM s.pairU s.pairV
    (bfs adj M s.pairU s.pairV).1
    (dfsSweep adj (2 * M + 2) (List.range M)
      { s with dist := (bfs adj M s.pairU s.pairV).1 } matching).2
    q3 (fun w hw hwfree => q4 w (List.mem_range.mpr hw) hwfree)
    ustar ((bfs adj M s.pairU s.pairV).1 ustar) hchain hd0M
  obtain ⟨k1, _⟩ := q3 ustar hkilled hu2
  exact k1 vstar hu3 hu4

/-- With a perfect assignment available, a `bfs` that reports no free slot
certifies that every left-vertex is already matched. -/
theorem bfs_false_total (adj : Nat → List Nat) (M : Nat) (hM : M + 1 < INF)
    (s : HKState) (hInv : HKInv adj M s)
    (σ : Nat → Nat) (hσ1 : ∀ u, u < M → σ u ∈ adj u)
    (hσ2 : ∀ u1, u1 < M → ∀ u2, u2 < M → σ u1 = σ u2 → u1 = u2)
    (hfalse : (bfs adj M s.pairU s.pairV).2 = false) :
    ∀ u, u < M → (s.pairU u).isSome = true := by
  have hpv : ∀ v u2, s.pairV v = some u2 → u2 < M := fun v u2 h =>
    (hInv.2.2 u2 v (hInv.2.1 v u2 h)).1
  obtain ⟨b1, b2⟩ := bfs_dist_spec adj M s.pairU s.pairV hM hpv
  obtain ⟨j1, j2, j3⟩ := bfs_inv adj M s.pairU s.pairV hM hpv
  by_contra hcon
  push_neg at hcon
  obtain ⟨u0, hu0M, hu0free⟩ := hcon
  have hu0none : s.pairU u0 = none := by
    rcases h : s.pairU u0 with _ | v
    · rfl
    · rw [h] at hu0free
      exact absurd rfl hu0free
  set W := bergeWalk s.pairV σ u0 with hW
  have hbase : W 0 = u0 := rfl
  have hstep : ∀ i, W i < M → (bfs adj M s.pairU s.pairV).1 (W i) ≠ INF →
      s.pairV (σ (W i)) = some (W (i + 1)) ∧ W (i + 1) < M ∧
      (bfs adj M s.pairU s.pairV).1 (W (i + 1)) ≠ INF := by
    intro i hiM hifin
    obtain ⟨c1, c2⟩ := j3 (W i) hiM hifin
    have hadj : σ (W i) ∈ adj (W i) := hσ1 (W i) hiM
    have hne := c1 hfalse (σ (W i)) hadj
    rcases hsv : s.pairV (σ (W i)) with _ | u2
    · exact absurd hsv hne
    have hW1 : W (i + 1) = u2 := by
      show (s.pairV (σ (W i))).getD 0 = u2
      rw [hsv]
      rfl
    refine ⟨by rw [hW1], by rw [hW1]; exact hpv _ u2 hsv, ?_⟩
    rw [hW1]
    exact c2 (σ (W i)) hadj u2 hsv
  have hall : ∀ i, W i < M ∧ (bfs adj M s.pairU s.pairV).1 (W i) ≠ INF := by
    intro i
    induction i with
    | zero =>
      refine ⟨by rw [hbase]; exact hu0M, ?_⟩
      rw [hbase, b2 u0 hu0none]
      omega
    | succ n ihn =>
      obtain ⟨h1, h2⟩ := ihn
      obtain ⟨_, h3, h4⟩ := hstep n h1 h2
      exact ⟨h3, h4⟩
  have hmatched : ∀ i, s.pairU (W (i + 1)) = some (σ (W i)) := by
    intro i
    obtain ⟨h1, h2⟩ := hall i
    obtain ⟨hsv, _, _⟩ := hstep i h1 h2
    exact hInv.2.1 (σ (W i)) (W (i + 1)) hsv
  have hWinj : ∀ i j, W i = W j → i = j := by
    intro i
    induction i with
    | zero =>
      intro j hj
      cases j with
      | zero => rfl
      | succ m =>
        have h1 := hmatched m
        rw [← hj, hbase, hu0none] at h1
        exact Option.noConfusion h1
    | succ n ihn =>
      intro j hj
      cases j with
      | zero =>
        have h1 := hmatched n
        rw [hj, hbase, hu0none] at h1
        exact Option.noConfusion h1
      | succ m =>
        have h1 := hmatched n
        have h2 := hmatched m
        rw [hj, h2] at h1
        injection h1 with h1
        have h3 : W m = W n := hσ2 (W m) (hall m).1 (W n) (hall n).1 h1
        rw [ihn m h3.symm]
  have hnd : ((List.range (M + 1)).map W).Nodup :=
    List.Nodup.map_on (fun i _ j _ hij => hWinj i j hij) (List.nodup_range (M + 1))
  have hsub : (List.range (M + 1)).map W ⊆ List.range M := by
    intro x hx
    obtain ⟨i, _, hix⟩ := List.mem_map.mp hx
    rw [← hix]
    exact List.mem_range.mpr (hall i).1
  have hlen := nodup_subset_length_le _ _ hnd hsub
  rw [List.length_map, List.length_range, List.length_range] at hlen
  omega

/-- With a perfect assignment, the phase loop finishes fully matched. -/
theorem hkLoop_complete (adj : Nat → List Nat) (M : Nat) (hM : M + 1 < INF)
    (σ : Nat → Nat) (hσ1 : ∀ u, u < M → σ u ∈ adj u)
    (hσ2 : ∀ u1, u1 < M → ∀ u2, u2 < M → σ u1 = σ u2 → u1 = u2) :
    ∀ (fuel : Nat) (s : HKState) (matching : Nat), HKInv adj M s →
      matching = matchedCount M s → M ≤ matching + fuel →
      (hkLoop adj M fuel s matching).1 = M := by
  intro fuel
  induction fuel with
  | zero =>
    intro s matching hInv hmc hfuel
    have hmc_le : matchedCount M s ≤ M := by
      unfold matchedCount
      have h := List.length_filter_le (fun u => (s.pairU u).isSome) (List.range M)
      rw [List.length_range] at h
      exact h
    show matching = M
    omega
  | succ n ihn =>
    intro s matching hInv hmc hfuel
    have hpv : ∀ v u2, s.pairV v = some u2 → u2 < M := fun v u2 h =>
      (hInv.2.2 u2 v (hInv.2.1 v u2 h)).1
    obtain ⟨b1, b2⟩ := bfs_dist_spec adj M s.pairU s.pairV hM hpv
    have hInv' : HKInv adj M { s with dist := (bfs adj M s.pairU s.pairV).1 } := hInv
    by_cases hfound : (bfs adj M s.pairU s.pairV).2 = true
    · have hout : hkLoop adj M (n + 1) s matching
          = hkLoop adj M n
              (dfsSweep adj (2 * M + 2) (List.range M)
                { s with dist := (bfs adj M s.pairU s.pairV).1 } matching).2
              (dfsSweep adj (2 * M + 2) (List.range M)
                { s with dist := (bfs adj M s.pairU s.pairV).1 } matching).1 := by
        simp only [hkLoop, hfound, if_true]
      rw [hout]
      obtain ⟨w1, w2, _⟩ := dfsSweep_spec adj M hM (2 * M + 2) (List.range M)
        { s with dist := (bfs adj M s.pairU s.pairV).1 } matching hInv'
        (List.nodup_range M) (fun u hu => List.mem_range.mp hu)
        b1 (fun u _ hufree => by
          show (bfs adj M s.pairU s.pairV).1 u ≤ M
          rw [b2 u hufree]
          exact Nat.zero_le M)
      have hprog := sweep_progress adj M hM s matching hInv hfound
      have hc : matchedCount M { s with dist := (bfs adj M s.pairU s.pairV).1 }
          = matchedCount M s := rfl
      rw [hc] at w2
      exact ihn _ _ w1 (by omega) (by omega)
    · have hout : hkLoop adj M (n + 1) s matching
          = (matching, { s with dist := (bfs adj M s.pairU s.pairV).1 }) := by
        simp only [hkLoop]
        rw [if_neg hfound]
      rw [hout]
      show matching = M
      have htotal := bfs_false_total adj M hM s hInv σ hσ1 hσ2
        (Bool.not_eq_true _ ▸ eq_false_of_ne_true hfound)
      have hfe : (List.range M).filter (fun u => (s.pairU u).isSome) = List.range M :=
        List.filter_eq_self.mpr (fun a ha => htotal a (List.mem_range.mp ha))
      have hfull : matchedCount M s = M := by
        unfold matchedCount
        rw [hfe, List.length_range]
      omega

/-- The full Hopcroft–Karp run matches everything exactly when an index-level
perfect matching exists. -/
theorem hkRun_eq_iff (adj : Nat → List Nat) (M : Nat) (hM : M + 1 < INF) :
    (hkRun adj M).1 = M ↔ HasPM adj M := by
  constructor
  · intro h
    obtain ⟨hInv, hcnt⟩ := hkRun_spec adj M hM
    rw [h] at hcnt
    have htotal := matchedCount_total hcnt.symm
    refine ⟨fun u => ((hkRun adj M).2.pairU u).getD 0, ?_, ?_⟩
    · intro u hu
      show ((hkRun adj M).2.pairU u).getD 0 ∈ adj u
      rcases hp : (hkRun adj M).2.pairU u with _ | v
      · have habs := htotal u hu
        rw [hp] at habs
        exact Bool.noConfusion habs
      · simpa using (hInv.2.2 u v hp).2
    · intro u1 hu1 u2 hu2 heq
      have heq2 : ((hkRun adj M).2.pairU u1).getD 0
          = ((hkRun adj M).2.pairU u2).getD 0 := heq
      rcases hp1 : (hkRun adj M).2.pairU u1 with _ | v1
      · have habs := htotal u1 hu1
        rw [hp1] at habs
        exact Bool.noConfusion habs
      rcases hp2 : (hkRun adj M).2.pairU u2 with _ | v2
      · have habs := htotal u2 hu2
        rw [hp2] at habs
        exact Bool.noConfusion habs
      rw [hp1, hp2] at heq2
      simp only [Option.getD_some] at heq2
      rw [heq2] at hp1
      have hq1 := hInv.1 u1 v2 hp1
      have hq2 := hInv.1 u2 v2 hp2
      rw [hq1] at hq2
      injection hq2
  · rintro ⟨σ, hσ1, hσ2⟩
    have hmc0 : (0 : Nat)
        = matchedCount M ⟨fun _ => none, fun _ => none, fun _ => 0⟩ := by
      unfold matchedCount
      simp
    have hInv0 : HKInv adj M ⟨fun _ => none, fun _ => none, fun _ => 0⟩ := by
      refine ⟨?_, ?_, ?_⟩ <;> intro a b h <;> exact Option.noConfusion h
    exact hkLoop_complete adj M hM σ hσ1 hσ2 (M + 1)
      ⟨fun _ => none, fun _ => none, fun _ => 0⟩ 0 hInv0 hmc0 (by omega)

theorem mem_of_mem_enum {α : Type} {l : List α} {p : Nat × α} (hp : p ∈ l.enum) :
    p.2 ∈ l := by
  have h3 := List.mem_enum_iff_getElem?.mp hp
  have h2 : p.1 < l.length := by
    by_contra hc
    rw [List.getElem?_eq_none (by omega)] at h3
    exact Option.noConfusion h3
  rw [List.getElem?_eq_getElem h2] at h3
  injection h3 with h3
  rw [← h3]
  exact List.getElem_mem h2

/-- With a perfect matching available, the single-wave assigner cannot return
`null` (shared core of C3 and C8). -/
theorem assignOutsideSlots_PM_ne_none (grid : List (List Nat)) (letters : JsMap String Char)
    (difficulty : String)
    (hnodup : (JsMap.keys letters).Nodup)
    (hsize : (JsMap.keys letters).length + 1 < INF)
    (hvalid : ∀ k ∈ JsMap.keys letters, (validKey? grid.length k).isSome = true)
    (hpm : HasPerfectMatching grid.length (JsMap.keys letters)) :
    assignOutsideSlots grid letters difficulty ≠ none := by
  intro h
  simp only [assignOutsideSlots] at h
  by_cases hMK : (JsMap.keys letters).length > (mkSlots grid.length).length
  · have hle := hasPerfectMatching_le grid.length (JsMap.keys letters) hnodup hvalid hpm
    rw [mkSlots_length] at hMK
    omega
  rw [if_neg hMK] at h
  rcases hadjm : buildAdjacency grid.length difficulty (rowLenF grid grid.length)
      (colLenF grid grid.length) (mkSlotIndex (mkSlots grid.length))
      (JsMap.keys letters).enum with _ | adjL
  · obtain ⟨p, hp, hpv⟩ := (buildAdjacency_eq_none_iff grid.length difficulty
      (rowLenF grid grid.length) (colLenF grid grid.length)
      (mkSlotIndex (mkSlots grid.length)) (JsMap.keys letters).enum).mp hadjm
    have hmem : p.2 ∈ JsMap.keys letters := mem_of_mem_enum hp
    have hv := hvalid p.2 hmem
    rw [hpv] at hv
    exact Bool.noConfusion hv
  simp only [hadjm] at h
  by_cases hrn : (hkRun (fun u => adjL.getD u []) (JsMap.keys letters).length).1
      ≠ (JsMap.keys letters).length
  · have hPM := hasPerfectMatching_toPM grid letters difficulty adjL hnodup hadjm hpm
    exact hrn ((hkRun_eq_iff (fun u => adjL.getD u []) (JsMap.keys letters).length
      hsize).mpr hPM)
  · rw [if_neg hrn] at h
    exact Option.noConfusion h

/-- The `null` return of the single-wave assigner is equivalent to the
absence of a perfect matching (shared core of C3 and C8). -/
theorem assignOutsideSlots_none_iff (grid : List (List Nat)) (letters : JsMap String Char)
    (difficulty : String)
    (hnodup : (JsMap.keys letters).Nodup)
    (hsize : (JsMap.keys letters).length + 1 < INF)
    (hvalid : ∀ k ∈ JsMap.keys letters, (validKey? grid.length k).isSome = true) :
    assignOutsideSlots grid letters difficulty = none ↔
      ¬ HasPerfectMatching grid.length (JsMap.keys letters) := by
  constructor
  · intro h hpm
    exact assignOutsideSlots_PM_ne_none grid letters difficulty hnodup hsize hvalid hpm h
  · intro hno
    rcases hres : assignOutsideSlots grid letters difficulty with _ | a
    · rfl
    · exact absurd (assignOutsideSlots_some_hasPM grid letters difficulty a
        hnodup hsize hres) hno

/-- **C3** — confirmed (under two modelling side conditions: the letters map
is a genuine map, i.e. its keys are pairwise distinct, and it has fewer than
`INF = 1e9` cells so the source's `INF` sentinel behaves as infinity).  For a
letters map whose keys are integer coordinates inside the `N × N` grid,
`assignOutsideSlots` returns `null` exactly when the bipartite graph in which
each cell `(r, c)` is adjacent to the four slots `L:r`, `R:r`, `T:c`, `B:c`
admits no perfect matching of the cells into distinct slots; in particular it
returns `null` whenever the cell count exceeds `4 * N`. -/
theorem claim_C3_null_iff_no_perfect_matching (grid : List (List Nat))
    (letters : JsMap String Char) (difficulty : String)
    (hnodup : (JsMap.keys letters).Nodup)
    (hsize : (JsMap.keys letters).length + 1 < INF)
    (hvalid : ∀ k ∈ JsMap.keys letters, (validKey? grid.length k).isSome = true) :
    (assignOutsideSlots grid letters difficulty = none ↔
      ¬ HasPerfectMatching grid.length (JsMap.keys letters)) ∧
    (4 * grid.length < (JsMap.keys letters).length →
      assignOutsideSlots grid letters difficulty = none) := by
  refine ⟨assignOutsideSlots_none_iff grid letters difficulty hnodup hsize hvalid, ?_⟩
  intro hgt
  simp only [assignOutsideSlots]
  rw [if_pos (by rw [mkSlots_length]; omega)]

/-- Witness for C3: the 1×1 grid with a single letter cell. -/
theorem claim_C3_witness :
    (assignOutsideSlots [[1]] [("0,0", 'A')] "balanced" = none ↔
      ¬ HasPerfectMatching 1 (JsMap.keys [("0,0", 'A')])) ∧
    (4 * 1 < (JsMap.keys [("0,0", 'A')]).length →
      assignOutsideSlots [[1]] [("0,0", 'A')] "balanced" = none) :=
  claim_C3_null_iff_no_perfect_matching [[1]] [("0,0", 'A')] "balanced"
    (by decide) (by decide) (by decide)

/-- **C8** — confirmed (under two modelling side conditions: the letters map
is a genuine map, i.e. its keys are pairwise distinct, and it has fewer than
`INF = 1e9` cells so the source's `INF` sentinel behaves as infinity).
Whether `assignOutsideSlots` returns `null` does not depend on which of the
three difficulty values is passed: the difficulty only reorders each cell's
four candidate slots, which changes the matching found but never whether a
perfect matching exists. -/
theorem claim_C8_difficulty_null_equivalence (grid : List (List Nat))
    (letters : JsMap String Char) (d1 d2 : String)
    (hd1 : d1 ∈ ["easy", "balanced", "hard"]) (hd2 : d2 ∈ ["easy", "balanced", "hard"])
    (hnodup : (JsMap.keys letters).Nodup)
    (hsize : (JsMap.keys letters).length + 1 < INF) :
    assignOutsideSlots grid letters d1 = none ↔
      assignOutsideSlots grid letters d2 = none := by
  by_cases hvalid : ∀ k ∈ JsMap.keys letters, (validKey? grid.length k).isSome = true
  · rw [assignOutsideSlots_none_iff grid letters d1 hnodup hsize hvalid,
      assignOutsideSlots_none_iff grid letters d2 hnodup hsize hvalid]
  · push_neg at hvalid
    obtain ⟨k, hk, hkbad⟩ := hvalid
    have hnone : ∀ d : String, assignOutsideSlots grid letters d = none := by
      intro d
      simp only [assignOutsideSlots]
      by_cases hMK : (JsMap.keys letters).length > (mkSlots grid.length).length
      · rw [if_pos hMK]
      · rw [if_neg hMK]
        have hbad2 : validKey? grid.length k = none := by
          rcases hv : validKey? grid.length k with _ | rc
          · rfl
          · rw [hv] at hkbad
            exact absurd rfl hkbad
        obtain ⟨u, hu⟩ := exists_enumFrom_of_mem k (JsMap.keys letters) 0 hk
        have hbn : buildAdjacency grid.length d (rowLenF grid grid.length)
            (colLenF grid grid.length) (mkSlotIndex (mkSlots grid.length))
            (JsMap.keys letters).enum = none :=
          (buildAdjacency_eq_none_iff grid.length d (rowLenF grid grid.length)
            (colLenF grid grid.length) (mkSlotIndex (mkSlots grid.length))
            (JsMap.keys letters).enum).mpr ⟨(u, k), hu, hbad2⟩
        rw [hbn]
    rw [hnone d1, hnone d2]

/-- Witness for C8: the 1×1 grid with one letter cell, easy versus hard. -/
theorem claim_C8_witness :
    assignOutsideSlots [[1]] [("0,0", 'A')] "easy" = none ↔
      assignOutsideSlots [[1]] [("0,0", 'A')] "hard" = none :=
  claim_C8_difficulty_null_equivalence [[1]] [("0,0", 'A')] "easy" "hard"
    (by decide) (by decide) (by decide) (by decide)

end WordVana
